import Mathlib

/-!
# Verification of the dynamic 2-core solver stack

Shallow embedding of the core data structures of the `dynamic_2core` crate:

* `TreapM` — the implicit-key treap of `src/lists/treap.rs` (lazy reversal
  flags, priorities, cached range aggregates), modelled as an inductive tree
  whose cached `size`/`ag_data` fields are derived functions (the Rust code
  keeps them up to date via `recalc` after every child change).
* `ETTM` — the Euler-tour-tree of `src/euler_tour_tree.rs`, modelled at the
  level of the sequence contents manipulated through the `ImplicitBST`/`Lists`
  interface (`split`/`concat`/`order`), which is how the generic ETT code is
  written.
* `SolverM` — the layered HDT solver of `src/dynamic_2core.rs`, modelled over
  the euler-tour-tree contract: each level's ETT stores the spanning forest of
  edges whose level is at least that index, which is exactly the data the
  solver's control flow manipulates.
* `LCTM` — the link-cut tree of `src/link_cut_tree.rs` over the `Lists`
  interface semantics (ordered lists of nodes plus a path-parent array).
-/

namespace TreapM

/-- Operations of the `AggregatedData` trait of `src/lists.rs`: `from`,
`merge`, `reverse` and `default`. -/
structure AggOps (D A : Type) where
  ofD : D → A
  merge : A → A → A
  rev : A → A
  dflt : A

/-- The laws the spec imposes on aggregated data (§4.E): `merge` is
associative with `default` as the neutral element, `reverse` is an involutive
antihomomorphism fixing singletons and the neutral element. -/
structure AggLaws {D A : Type} (ops : AggOps D A) : Prop where
  merge_assoc : ∀ a b c, ops.merge (ops.merge a b) c = ops.merge a (ops.merge b c)
  merge_dflt : ∀ a, ops.merge a ops.dflt = a
  dflt_merge : ∀ a, ops.merge ops.dflt a = a
  rev_merge : ∀ a b, ops.rev (ops.merge a b) = ops.merge (ops.rev b) (ops.rev a)
  rev_rev : ∀ a, ops.rev (ops.rev a) = a
  rev_ofD : ∀ d, ops.rev (ops.ofD d) = ops.ofD d
  rev_dflt : ops.rev ops.dflt = ops.dflt

/-- A treap node of `src/lists/treap.rs`: raw children `child[0]`/`child[1]`,
payload, priority, and the lazy `flip_subtree` bit.  The cached `size` and
`ag_data` fields are modelled as the derived functions `size` and `agStored`
below, which is what `recalc` maintains them to be. -/
inductive Trp (D : Type) : Type
  | nil : Trp D
  | node (l : Trp D) (d : D) (pri : ℕ) (fl : Bool) (r : Trp D)

variable {D A : Type}

/-- Subtree size (the cached `size` field). -/
def size : Trp D → ℕ
  | .nil => 0
  | .node l _ _ _ r => size l + 1 + size r

/-- The `flip_subtree` bit of the root node (`false` for the empty tree). -/
def flipOf : Trp D → Bool
  | .nil => false
  | .node _ _ _ fl _ => fl

/-- The sequence stored in subtree `t` as seen under an accumulated ancestor
flip `f`: children are viewed swapped when `flip_subtree ^ f` holds, exactly
as `Treaps::child(u, flipped)` presents them. -/
def seqF : Trp D → Bool → List D
  | .nil, _ => []
  | .node l d _ fl r, f =>
    let g := xor fl f
    if g then seqF r g ++ d :: seqF l g else seqF l g ++ d :: seqF r g

/-- The actual list represented by a treap root. -/
def toList (t : Trp D) : List D := seqF t false

/-- Toggle the root's flip bit (used by `Lists::reverse` and inside
`unlaze_flip` for the children). -/
def xorFlip : Trp D → Trp D
  | .nil => .nil
  | .node l d p fl r => .node l d p (!fl) r

@[simp] theorem size_xorFlip (t : Trp D) : size (xorFlip t) = size t := by
  cases t <;> simp [xorFlip, size]

/-- `Treaps::concat_inner`: merge two treaps by priority, pushing the flip
bit down (`unlaze_flip`) before touching raw children. -/
def concatInner : Trp D → Trp D → Trp D
  | .nil, v => v
  | u, .nil => u
  | .node ul ud up ufl ur, .node vl vd vp vfl vr =>
    if up > vp then
      let l := if ufl then xorFlip ur else ul
      let r := if ufl then xorFlip ul else ur
      .node l ud up false (concatInner r (.node vl vd vp vfl vr))
    else
      let l := if vfl then xorFlip vr else vl
      let r := if vfl then xorFlip vl else vr
      .node (concatInner (.node ul ud up ufl ur) l) vd vp false r
termination_by u v => size u + size v
decreasing_by
  · simp only [size]
    split <;> simp <;> omega
  · simp only [size]
    split <;> simp <;> omega

/-- `Treaps::split_k(u, k, flipped)`: detach the first `k` elements (as seen
under accumulated flip `flipped`).  `change_left`/`change_right` remove the
raw child selected by `flip_subtree ^ flipped`, and the kept node retains its
own flip bit — which is the source of the reversal bug exposed below. -/
def splitK : Trp D → ℕ → Bool → Trp D × Trp D
  | .nil, _, _ => (.nil, .nil)
  | u, 0, _ => (.nil, u)
  | .node l0 d p fl r0, k, f =>
    let g := xor fl f
    let l := if g then r0 else l0
    let r := if g then l0 else r0
    let szl := size l
    if k ≤ szl then
      let u' := if g then Trp.node l0 d p fl .nil else Trp.node .nil d p fl r0
      let res := splitK l k g
      (res.1, concatInner res.2 u')
    else
      let u' := if g then Trp.node .nil d p fl r0 else Trp.node l0 d p fl .nil
      let res := splitK r (k - szl - 1) g
      (concatInner u' res.1, res.2)
termination_by u _ _ => size u
decreasing_by
  · simp only [size]
    split <;> omega
  · simp only [size]
    split <;> omega

/-- `Treaps::split_lr`: split out the range `[ql, qr)`. -/
def splitLr (u : Trp D) (ql qr : ℕ) : Trp D × Trp D × Trp D :=
  let res := splitK u ql false
  let res2 := splitK res.2 (qr - ql) false
  (res.1, res2.1, res2.2)

/-- `Lists::reverse` on a treap: toggle the root's flip bit. -/
def reverseTreap (u : Trp D) : Trp D := xorFlip u

/-- `Treaps::ag_data(u, flipped)`: the aggregate of subtree `u` as seen under
accumulated flip `flipped`.  The stored `ag_data` field (maintained by
`recalc`) is computed inline: children viewed through the node's own flip,
merged around the payload, reversed when the flip bit is set; the public view
then reverses again when `flip_subtree ^ flipped` holds. -/
def agData (ops : AggOps D A) : Trp D → Bool → A
  | .nil, _ => ops.dflt
  | .node l0 d _ fl r0, f =>
    let lv := if fl then r0 else l0
    let rv := if fl then l0 else r0
    let x := ops.merge (ops.merge (agData ops lv fl) (ops.ofD d)) (agData ops rv fl)
    let stored := if fl then ops.rev x else x
    if xor fl f then ops.rev stored else stored
termination_by t _ => size t
decreasing_by
  · simp only [size]
    split <;> omega
  · simp only [size]
    split <;> omega

/-- `Treaps::range_agg_lr_inner`: aggregate of positions `[ql, qr)` of the
list represented by `u`.  The window is mirrored through the node's own flip
bit (`Treaps::range`), the two raw children are visited, and the result is
reversed again when the flip bit is set. -/
def rali (ops : AggOps D A) : Trp D → ℕ → ℕ → A
  | .nil, _, _ => ops.dflt
  | .node l0 d p fl r0, ql, qr =>
    if qr ≤ ql then ops.dflt
    else if ql = 0 ∧ size (Trp.node l0 d p fl r0) ≤ qr then
      agData ops (Trp.node l0 d p fl r0) false
    else
      let n := size (Trp.node l0 d p fl r0)
      let ql' := if fl then n - qr else ql
      let qr' := if fl then n - ql else qr
      let szl := size l0
      let a1 := if ql' < szl then rali ops l0 ql' (min qr' szl) else ops.dflt
      let a2 := if ql' ≤ szl ∧ szl < qr' then ops.merge a1 (ops.ofD d) else a1
      let a3 :=
        if szl + 1 < qr' then ops.merge a2 (rali ops r0 (ql' - (szl + 1)) (qr' - (szl + 1)))
        else a2
      if fl then ops.rev a3 else a3

/-- Fold of `merge` over the lifted elements of a list, in iteration order
(the reference meaning of `range_agg`). -/
def aggOf (ops : AggOps D A) (xs : List D) : A :=
  xs.foldr (fun d a => ops.merge (ops.ofD d) a) ops.dflt

@[simp] theorem aggOf_nil (ops : AggOps D A) : aggOf ops [] = ops.dflt := rfl

@[simp] theorem aggOf_cons (ops : AggOps D A) (d : D) (xs : List D) :
    aggOf ops (d :: xs) = ops.merge (ops.ofD d) (aggOf ops xs) := rfl

theorem aggOf_append {ops : AggOps D A} (laws : AggLaws ops) (xs ys : List D) :
    aggOf ops (xs ++ ys) = ops.merge (aggOf ops xs) (aggOf ops ys) := by
  induction xs with
  | nil => simp [laws.dflt_merge]
  | cons d xs ih => simp [ih, laws.merge_assoc]

theorem aggOf_reverse {ops : AggOps D A} (laws : AggLaws ops) (xs : List D) :
    aggOf ops xs.reverse = ops.rev (aggOf ops xs) := by
  induction xs with
  | nil => simp [laws.rev_dflt]
  | cons d xs ih =>
    simp only [List.reverse_cons, aggOf_cons, aggOf_append laws, ih, laws.rev_merge]
    simp [aggOf, laws.merge_dflt, laws.rev_ofD]

@[simp] theorem length_seqF (t : Trp D) (f : Bool) : (seqF t f).length = size t := by
  induction t generalizing f with
  | nil => simp [seqF, size]
  | node l d p fl r ihl ihr =>
    simp only [seqF, size]
    split <;> simp [ihl, ihr] <;> omega

theorem seqF_true (t : Trp D) : seqF t true = (seqF t false).reverse := by
  induction t with
  | nil => simp [seqF]
  | node l d p fl r ihl ihr =>
    simp only [seqF]
    cases fl <;> simp [ihl, ihr, List.reverse_append]

theorem seqF_not (t : Trp D) (f : Bool) : seqF t (!f) = (seqF t f).reverse := by
  cases f
  · simpa using seqF_true t
  · simp [seqF_true t]

theorem seqF_xorFlip (t : Trp D) (f : Bool) : seqF (xorFlip t) f = seqF t (!f) := by
  cases t with
  | nil => simp [xorFlip, seqF]
  | node l d p fl r =>
    simp only [xorFlip, seqF]
    cases fl <;> cases f <;> simp

theorem toList_xorFlip (t : Trp D) : toList (xorFlip t) = (toList t).reverse := by
  simp [toList, seqF_xorFlip, seqF_true]

@[simp] theorem length_toList (t : Trp D) : (toList t).length = size t :=
  length_seqF t false

theorem aggOf_middle {ops : AggOps D A} (laws : AggLaws ops) (xs ys : List D) (d : D) :
    aggOf ops (xs ++ d :: ys) =
      ops.merge (ops.merge (aggOf ops xs) (ops.ofD d)) (aggOf ops ys) := by
  rw [aggOf_append laws, aggOf_cons, laws.merge_assoc]

/-- The split of a window aggregate across `xs ++ d :: ys`, in the exact
accumulation shape used by `range_agg_lr_inner`. -/
theorem window_split {ops : AggOps D A} (laws : AggLaws ops) (xs ys : List D) (d : D)
    (ql qr : ℕ) (h : ql < qr) :
    aggOf ops (((xs ++ d :: ys).take qr).drop ql) =
      (let m := xs.length
       let a1 := if ql < m then aggOf ops ((xs.take (min qr m)).drop ql) else ops.dflt
       let a2 := if ql ≤ m ∧ m < qr then ops.merge a1 (ops.ofD d) else a1
       if m + 1 < qr then
         ops.merge a2 (aggOf ops ((ys.take (qr - (m + 1))).drop (ql - (m + 1))))
       else a2) := by
  have hmidtake : xs.length < qr →
      (xs ++ d :: ys).take qr = xs ++ d :: ys.take (qr - (xs.length + 1)) := by
    intro hqm
    rw [List.take_append_eq_append_take, List.take_all_of_le (by omega)]
    congr 1
    have hstep : qr - xs.length = (qr - (xs.length + 1)) + 1 := by omega
    rw [hstep, List.take_succ_cons]
  rcases le_or_lt qr xs.length with hqm | hqm
  · -- window entirely inside xs
    have c1 : ql < xs.length := lt_of_lt_of_le h hqm
    have c3 : ¬ (xs.length < qr) := by omega
    have c4 : ¬ (xs.length + 1 < qr) := by omega
    simp only [c1, if_true, c3, and_false, if_false, c4, min_eq_left hqm,
      List.take_append_of_le_length hqm]
  · rcases le_or_lt ql xs.length with hql | hql
    · -- window contains the middle element d
      have hLHS : aggOf ops (((xs ++ d :: ys).take qr).drop ql) =
          ops.merge (ops.merge (aggOf ops (xs.drop ql)) (ops.ofD d))
            (aggOf ops (ys.take (qr - (xs.length + 1)))) := by
        rw [hmidtake hqm, List.drop_append_of_le_length hql, aggOf_middle laws]
      have ha1 : (if ql < xs.length then aggOf ops ((xs.take (min qr xs.length)).drop ql)
          else ops.dflt) = aggOf ops (xs.drop ql) := by
        rcases lt_or_eq_of_le hql with h' | h'
        · rw [if_pos h', min_eq_right (le_of_lt hqm), List.take_length]
        · rw [if_neg (by omega), h', List.drop_eq_nil_of_le le_rfl, aggOf_nil]
      have c2 : ql ≤ xs.length ∧ xs.length < qr := ⟨hql, hqm⟩
      simp only [ha1, c2, and_self, if_true, hql, hqm, hLHS]
      rcases le_or_lt qr (xs.length + 1) with hq1 | hq1
      · have c4 : ¬ (xs.length + 1 < qr) := by omega
        have hz : qr - (xs.length + 1) = 0 := by omega
        simp only [c4, if_false, hz, List.take_zero, aggOf_nil, laws.merge_dflt]
      · have hz : ql - (xs.length + 1) = 0 := by omega
        simp only [hq1, if_true, hz, List.drop_zero, laws.merge_assoc]
    · -- window entirely inside ys
      have hq1 : xs.length + 1 < qr := by omega
      have c1 : ¬ (ql < xs.length) := by omega
      have c2 : ¬ (ql ≤ xs.length) := by omega
      simp only [c1, if_false, c2, false_and, hq1, if_true]
      rw [hmidtake hqm, List.drop_append_eq_append_drop,
        List.drop_eq_nil_of_le (le_of_lt hql)]
      have hsu : ql - xs.length = (ql - (xs.length + 1)) + 1 := by omega
      simp only [List.nil_append, hsu, List.drop_succ_cons, laws.dflt_merge]

/-- Dropping/taking over a reversed list is taking/dropping the mirrored
window and reversing. -/
theorem window_reverse (zs : List D) (ql qr : ℕ) :
    ((zs.reverse.take qr).drop ql) =
      ((zs.take (zs.length - ql)).drop (zs.length - qr)).reverse := by
  rw [List.take_reverse, List.drop_reverse, List.drop_take]
  congr 2
  simp only [List.length_drop]
  omega

/-- `Treaps::ag_data` is the fold of the viewed sequence. -/
theorem agData_eq {ops : AggOps D A} (laws : AggLaws ops) (t : Trp D) (f : Bool) :
    agData ops t f = aggOf ops (seqF t f) := by
  induction t generalizing f with
  | nil => simp [agData, seqF]
  | node l0 d p fl r0 ihl ihr =>
    rw [agData]
    cases fl <;> cases f <;>
      simp [ihl, ihr, seqF, seqF_true, aggOf_middle laws, aggOf_reverse laws,
        laws.rev_rev, laws.rev_merge, laws.rev_ofD, laws.merge_assoc]

/-- `Treaps::range_agg_lr_inner` computes the fold of the window `[ql, qr)`
of the represented list, for in-range windows. -/
theorem rali_correct {ops : AggOps D A} (laws : AggLaws ops) (t : Trp D) (ql qr : ℕ)
    (hqr : qr ≤ size t) :
    rali ops t ql qr = aggOf ops (((toList t).take qr).drop ql) := by
  induction t generalizing ql qr with
  | nil =>
    simp [rali, toList, seqF]
  | node l0 d p fl r0 ihl ihr =>
    rw [rali]
    rcases le_or_lt qr ql with hord | hord
    · rw [if_pos hord]
      have hnil : ((toList (Trp.node l0 d p fl r0)).take qr).drop ql = [] := by
        apply List.drop_eq_nil_of_le
        simp only [List.length_take]
        omega
      rw [hnil, aggOf_nil]
    · rw [if_neg (by omega)]
      by_cases hfull : ql = 0 ∧ size (Trp.node l0 d p fl r0) ≤ qr
      · rw [if_pos hfull, agData_eq laws]
        rw [hfull.1, List.drop_zero, List.take_all_of_le (by simpa using hfull.2)]
        rfl
      · rw [if_neg hfull]
        have hn : size (Trp.node l0 d p fl r0) = size l0 + 1 + size r0 := rfl
        have hszl : size l0 = (toList l0).length := (length_toList l0).symm
        have hmain : ∀ QL QR, QL < QR → QR ≤ size l0 + 1 + size r0 →
            (let a1 := if QL < size l0 then rali ops l0 QL (min QR (size l0)) else ops.dflt
             let a2 := if QL ≤ size l0 ∧ size l0 < QR then ops.merge a1 (ops.ofD d) else a1
             if size l0 + 1 < QR then
               ops.merge a2 (rali ops r0 (QL - (size l0 + 1)) (QR - (size l0 + 1)))
             else a2) =
            aggOf ops (((toList l0 ++ d :: toList r0).take QR).drop QL) := by
          intro QL QR hlt hle
          rw [window_split laws _ _ _ _ _ hlt, ← hszl]
          have h1 : min QR (size l0) ≤ size l0 := min_le_right _ _
          have h2 : QR - (size l0 + 1) ≤ size r0 := by omega
          by_cases hc1 : QL < size l0 <;> by_cases hc2 : size l0 + 1 < QR <;>
            simp only [if_pos, if_neg, hc1, hc2, ite_true, ite_false,
              ihl _ _ h1, ihr _ _ h2]
        cases fl with
        | false =>
          simp only [Bool.false_eq_true, if_false, ite_false]
          have hraw : toList (Trp.node l0 d p false r0) = toList l0 ++ d :: toList r0 := by
            simp [toList, seqF]
          rw [hraw]
          exact hmain ql qr hord (by omega)
        | true =>
          simp only [eq_self_iff_true, if_true]
          have hraw : toList (Trp.node l0 d p true r0) =
              (toList l0 ++ d :: toList r0).reverse := by
            have h1 : seqF (Trp.node l0 d p true r0) false =
                seqF r0 true ++ d :: seqF l0 true := by
              simp [seqF]
            rw [toList, h1, seqF_true l0, seqF_true r0]
            simp [toList, List.reverse_append]
          rw [hraw, window_reverse, aggOf_reverse laws]
          have hlen : (toList l0 ++ d :: toList r0).length = size l0 + 1 + size r0 := by
            simp only [List.length_append, List.length_cons, length_toList]
            omega
          rw [hlen, hn, hmain _ _ (by omega) (by omega)]

/-- The treap state reached by `from_iter([0,1,2])` when the three `create`
calls receive increasing priorities `1 < 2 < 3` (each `concat` then keeps the
later node as root), followed by `reverse`: a left chain under root `2` with
the root's `flip_subtree` bit set.  Its list is `[2, 1, 0]`. -/
def bugState : Trp ℕ :=
  reverseTreap
    (concatInner
      (concatInner (Trp.node .nil 0 1 false .nil) (Trp.node .nil 1 2 false .nil))
      (Trp.node .nil 2 3 false .nil))

/-- C5: the round-trip property `concat(split(s, l..r)) == s` from the spec
FAILS on the code: on the reversed list `[2, 1, 0]`, `split(s, 1..3)` returns
parts `[2]`, `[0, 1]`, `[]` — the middle part comes back in the wrong order
because `split_k` drops the accumulated flip when it detaches a child — and
re-concatenating the three parts yields `[2, 0, 1] ≠ [2, 1, 0]`. -/
theorem treap_split_roundtrip_bug :
    toList bugState = [2, 1, 0] ∧
      toList (splitLr bugState 1 3).1 = [2] ∧
      toList (splitLr bugState 1 3).2.1 = [0, 1] ∧
      toList (splitLr bugState 1 3).2.2 = [] ∧
      toList
        (concatInner
          (concatInner (splitLr bugState 1 3).1 (splitLr bugState 1 3).2.1)
          (splitLr bugState 1 3).2.2) = [2, 0, 1] := by
  refine ⟨?_, ?_, ?_, ?_, ?_⟩ <;>
    simp [bugState, reverseTreap, concatInner, splitK, splitLr, toList, seqF, xorFlip, size]

/-- C6: range aggregation on a reversed sequence is `Ag::reverse` of the fold
over the mirrored positional window: for all indices `l ≤ r ≤ len(s)`,
`range_agg(reverse(s), l..r) = Ag::reverse(range_agg(s, len-r..len-l))`,
for every aggregate satisfying the laws of §4.E. -/
theorem range_agg_reverse_ok {D A : Type} (ops : AggOps D A) (laws : AggLaws ops)
    (t : Trp D) (l r : ℕ) (hlr : l ≤ r) (hr : r ≤ size t) :
    rali ops (reverseTreap t) l r = ops.rev (rali ops t (size t - r) (size t - l)) := by
  have hsz : size (reverseTreap t) = size t := size_xorFlip t
  rw [rali_correct laws _ l r (by rw [hsz]; exact hr),
    rali_correct laws _ _ _ (by omega),
    show toList (reverseTreap t) = (toList t).reverse from toList_xorFlip t,
    window_reverse, aggOf_reverse laws, length_toList]

/-- The `AggSum` fixture (commutative integer sum) as a concrete aggregate. -/
def sumOps : AggOps ℤ ℤ where
  ofD := fun d => d
  merge := fun a b => a + b
  rev := fun a => a
  dflt := 0

theorem sumOps_laws : AggLaws sumOps := by
  constructor <;> intros <;> simp [sumOps] <;> ring

/-- The treap holding `[1, 2, 3]` built like `from_iter` with increasing
priorities. -/
def exTreap : Trp ℤ :=
  Trp.node (Trp.node (Trp.node .nil 1 1 false .nil) 2 2 false .nil) 3 3 false .nil

/-- Witness for C6 at the concrete list `[1, 2, 3]`, window `1..2`. -/
theorem range_agg_reverse_ok_witness :
    rali sumOps (reverseTreap exTreap) 1 2 =
      sumOps.rev (rali sumOps exTreap (size exTreap - 2) (size exTreap - 1)) :=
  range_agg_reverse_ok sumOps sumOps_laws exTreap 1 2 (by norm_num)
    (by simp [exTreap, size])

end TreapM

namespace ETTM

/-- An element of an Euler-tour sequence (`ETData` of
`src/euler_tour_tree.rs`): a vertex element (`Node`) or an oriented half-edge
(`Edge`).  Half-edges are identified by the id of the undirected edge they
belong to plus a direction bit; the two elements of a pair carry the same id
and opposite bits, modelling the mutual `other` back-references. -/
inductive Item : Type
  | nd (v : ℕ)
  | ed (id : ℕ) (dir : Bool)
deriving DecidableEq

abbrev Seq := List Item

/-- Does the item belong to edge `id`? -/
def isIdItem (id : ℕ) : Item → Bool
  | .ed j _ => j == id
  | .nd _ => false

/-- Number of half-edge elements of edge `id` in the sequence. -/
def countId (id : ℕ) (s : Seq) : ℕ := (s.filter (isIdItem id)).length

def isNd : Item → Bool
  | .nd _ => true
  | .ed _ _ => false

/-- Number of vertex (`Node`) elements in the sequence. -/
def nodeCount (s : Seq) : ℕ := (s.filter isNd).length

@[simp] theorem countId_nil (id : ℕ) : countId id [] = 0 := rfl

@[simp] theorem countId_cons_nd (id v : ℕ) (s : Seq) :
    countId id (Item.nd v :: s) = countId id s := by
  simp [countId, isIdItem]

@[simp] theorem countId_cons_ed (id j : ℕ) (d : Bool) (s : Seq) :
    countId id (Item.ed j d :: s) = (if j = id then 1 else 0) + countId id s := by
  by_cases h : j = id <;> simp [countId, isIdItem, h] <;> omega

@[simp] theorem countId_append (id : ℕ) (s t : Seq) :
    countId id (s ++ t) = countId id s + countId id t := by
  simp [countId]

theorem countId_cons_ed_self (id : ℕ) (d : Bool) (s : Seq) :
    countId id (Item.ed id d :: s) = countId id s + 1 := by
  simp
  omega

@[simp] theorem nodeCount_nil : nodeCount [] = 0 := rfl

@[simp] theorem nodeCount_cons_nd (v : ℕ) (s : Seq) :
    nodeCount (Item.nd v :: s) = nodeCount s + 1 := by
  simp [nodeCount, isNd]

@[simp] theorem nodeCount_cons_ed (j : ℕ) (d : Bool) (s : Seq) :
    nodeCount (Item.ed j d :: s) = nodeCount s := by
  simp [nodeCount, isNd]

@[simp] theorem nodeCount_append (s t : Seq) :
    nodeCount (s ++ t) = nodeCount s + nodeCount t := by
  simp [nodeCount]

/-- The well-formed Euler-tour sequences of the ETT: cyclic rotations of
Euler tours.  `single` is a fresh isolated vertex; `rot` is the rotation
performed by `reroot_raw` (split and swap the two halves); `attach` is the
splice performed by `link_root_raw`, inserting a bracket pair of half-edges
with a fresh id around another tour, immediately after a vertex element.
The direction bit `d` of the opening half-edge is free because rotations can
put either half-edge of a pair first. -/
inductive CycT : Seq → Prop
  | single (v : ℕ) : CycT [Item.nd v]
  | rot (A B : Seq) : CycT (A ++ B) → CycT (B ++ A)
  | attach (A B w : Seq) (v id : ℕ) (d : Bool) :
      CycT (A ++ Item.nd v :: B) → CycT w →
      countId id (A ++ Item.nd v :: B) = 0 → countId id w = 0 →
      (∀ i, countId i (A ++ Item.nd v :: B) = 0 ∨ countId i w = 0) →
      CycT (A ++ Item.nd v :: Item.ed id d :: (w ++ Item.ed id (!d) :: B))

/-- Every well-formed sequence satisfies the Euler-tour length equation
`len = 3k − 2`, i.e. `len + 2 = 3k` with `k` the number of vertex elements. -/
theorem CycT.length_eq {s : Seq} (hs : CycT s) : s.length + 2 = 3 * nodeCount s := by
  induction hs with
  | single v => simp [nodeCount, isNd]
  | rot A B h ih => simp only [List.length_append, nodeCount_append] at ih ⊢; omega
  | attach A B w v id d hbase hw hf1 hf2 hdisj ihbase ihw =>
    simp only [List.length_append, List.length_cons, nodeCount_append,
      nodeCount_cons_nd, nodeCount_cons_ed] at ihbase ihw ⊢
    omega

/-- Every well-formed sequence contains an edge id either zero or two
times. -/
theorem CycT.countId_par {s : Seq} (hs : CycT s) (i : ℕ) :
    countId i s = 0 ∨ countId i s = 2 := by
  induction hs with
  | single v => simp
  | rot A B h ih => simp only [countId_append] at ih ⊢; omega
  | attach A B w v id d hbase hw hf1 hf2 hdisj ihbase ihw =>
    rcases hdisj i with h | h <;> by_cases hid : id = i <;>
      simp only [countId_append, countId_cons_nd, countId_cons_ed, hid, if_pos, if_neg,
        ite_true, ite_false] at ihbase ihw hf1 hf2 h ⊢ <;> omega

theorem countId_cons_zero {id : ℕ} {x : Item} {s : Seq} (h : countId id (x :: s) = 0) :
    isIdItem id x = false ∧ countId id s = 0 := by
  cases x with
  | nd v => simpa [isIdItem] using h
  | ed j dd =>
    by_cases hj : j = id
    · simp [hj] at h
    · simpa [isIdItem, hj] using h

/-- Alignment through the first occurrence of a half-edge of `id`: if two
decompositions both put the first `id` half-edge right after an `id`-free
prefix, they coincide. -/
theorem marker_align {id : ℕ} : ∀ (A A' : Seq) {d d' : Bool} {R R' : Seq},
    countId id A = 0 → countId id A' = 0 →
    A ++ Item.ed id d :: R = A' ++ Item.ed id d' :: R' →
    A = A' ∧ d = d' ∧ R = R' := by
  intro A
  induction A with
  | nil =>
    intro A' d d' R R' _ h' heq
    cases A' with
    | nil =>
      simp only [List.nil_append, List.cons.injEq, Item.ed.injEq] at heq
      exact ⟨rfl, heq.1.2, heq.2⟩
    | cons a A'' =>
      exfalso
      simp only [List.nil_append, List.cons_append, List.cons.injEq] at heq
      obtain ⟨rfl, -⟩ := heq
      simp [countId, isIdItem] at h'
  | cons a A ih =>
    intro A' d d' R R' h h' heq
    cases A' with
    | nil =>
      exfalso
      simp only [List.cons_append, List.nil_append, List.cons.injEq] at heq
      obtain ⟨rfl, -⟩ := heq
      simp [countId, isIdItem] at h
    | cons b A'' =>
      simp only [List.cons_append, List.cons.injEq] at heq
      obtain ⟨rfl, heq⟩ := heq
      obtain ⟨-, hA⟩ := countId_cons_zero h
      obtain ⟨-, hA'⟩ := countId_cons_zero h'
      obtain ⟨h1, h2, h3⟩ := ih A'' hA hA' heq
      exact ⟨by rw [h1], h2, h3⟩

/-- Alignment of two double-marker decompositions of the same sequence. -/
theorem marker_align2 {id : ℕ} {A M B A' M' B' : Seq} {d₁ d₂ e₁ e₂ : Bool}
    (hA : countId id A = 0) (hM : countId id M = 0)
    (hA' : countId id A' = 0) (hM' : countId id M' = 0)
    (heq : A ++ Item.ed id d₁ :: (M ++ Item.ed id d₂ :: B)
         = A' ++ Item.ed id e₁ :: (M' ++ Item.ed id e₂ :: B')) :
    A = A' ∧ d₁ = e₁ ∧ M = M' ∧ d₂ = e₂ ∧ B = B' := by
  obtain ⟨h1, h2, h3⟩ :=
    @marker_align id A A' d₁ e₁ (M ++ Item.ed id d₂ :: B) (M' ++ Item.ed id e₂ :: B')
      hA hA' heq
  obtain ⟨h4, h5, h6⟩ := @marker_align id M M' d₂ e₂ B B' hM hM' h3
  exact ⟨h1, h2, h4, h5, h6⟩

/-- First-occurrence decomposition: a sequence containing a half-edge of `id`
splits at its first occurrence. -/
theorem exists_first_marker {id : ℕ} : ∀ (s : Seq), 1 ≤ countId id s →
    ∃ A d R, s = A ++ Item.ed id d :: R ∧ countId id A = 0 := by
  intro s
  induction s with
  | nil => simp
  | cons x s ih =>
    intro hc
    cases x with
    | nd v =>
      obtain ⟨A, d, R, hR, hA⟩ := ih (by simpa using hc)
      exact ⟨Item.nd v :: A, d, R, by simp [hR], by simpa using hA⟩
    | ed j dd =>
      by_cases hj : j = id
      · subst hj
        exact ⟨[], dd, s, rfl, rfl⟩
      · obtain ⟨A, d, R, hR, hA⟩ := ih (by simpa [hj] using hc)
        exact ⟨Item.ed j dd :: A, d, R, by simp [hR], by simpa [hj] using hA⟩

theorem CycT_congr {s t : Seq} (h : CycT s) (e : s = t) : CycT t := e ▸ h

theorem counts_of_decomp {s A M B : Seq} {id : ℕ} {d₁ d₂ : Bool} (hs : CycT s)
    (heq : s = A ++ Item.ed id d₁ :: (M ++ Item.ed id d₂ :: B)) :
    countId id A = 0 ∧ countId id M = 0 ∧ countId id B = 0 := by
  rcases hs.countId_par id with h | h <;>
  · rw [heq] at h
    simp only [countId_append, countId_cons_ed_self] at h
    omega

/-- Cutting a well-formed sequence at a matched pair of half-edges (the
the effect of `disconnect_raw`) yields two well-formed sequences: the outer
part `A ++ B` and the part `M` strictly between the two half-edges. -/
theorem CycT_cut {s : Seq} (hs : CycT s) :
    ∀ (A M B : Seq) (id : ℕ) (d₁ d₂ : Bool),
      s = A ++ Item.ed id d₁ :: (M ++ Item.ed id d₂ :: B) →
      CycT (A ++ B) ∧ CycT M := by
  induction hs with
  | single v =>
    intro A M B id d₁ d₂ heq
    exfalso
    have h := congrArg (countId id) heq
    simp only [countId_append, countId_cons_ed_self, countId_nil,
      countId_cons_nd] at h
    omega
  | rot X Y hXY ih =>
    intro A M B id d₁ d₂ heq
    have hs' : CycT (Y ++ X) := CycT.rot X Y hXY
    obtain ⟨hcA, hcM, hcB⟩ := counts_of_decomp hs' heq
    have htot : countId id Y + countId id X = 2 := by
      have h := congrArg (countId id) heq
      simp at h
      omega
    have hsplit : countId id Y = 2 ∨ countId id X = 2 ∨
        (countId id Y = 1 ∧ countId id X = 1) := by omega
    rcases hsplit with hY2 | hX2 | ⟨hY1, hX1⟩
    · -- both half-edges inside Y
      obtain ⟨Ya, da, R, hY, hYa⟩ := @exists_first_marker id Y (by omega)
      have hR : countId id R = 1 := by
        rw [hY] at hY2
        simp at hY2
        omega
      obtain ⟨Ym, db, Yb, hRR, hYm⟩ := @exists_first_marker id R (by omega)
      have hYb : countId id Yb = 0 := by
        rw [hRR] at hR
        simp at hR
        omega
      rw [hY, hRR] at heq
      simp only [List.append_assoc, List.cons_append] at heq
      obtain ⟨rfl, rfl, rfl, rfl, rfl⟩ :=
        marker_align2 hYa hYm hcA hcM heq
      have hih := ih (X ++ Ya) Ym Yb id da db
        (by rw [hY, hRR]; simp only [List.append_assoc, List.cons_append])
      refine ⟨?_, hih.2⟩
      have h1 : CycT (X ++ (Ya ++ Yb)) :=
        CycT_congr hih.1 (by simp only [List.append_assoc])
      exact CycT_congr (CycT.rot X (Ya ++ Yb) h1) (by simp only [List.append_assoc])
    · -- both half-edges inside X
      obtain ⟨Xa, da, R, hX, hXa⟩ := @exists_first_marker id X (by omega)
      have hR : countId id R = 1 := by
        rw [hX] at hX2
        simp at hX2
        omega
      obtain ⟨Xm, db, Xb, hRR, hXm⟩ := @exists_first_marker id R (by omega)
      have hXb : countId id Xb = 0 := by
        rw [hRR] at hR
        simp at hR
        omega
      have hY0 : countId id Y = 0 := by omega
      rw [hX, hRR] at heq
      have heq' : (Y ++ Xa) ++ Item.ed id da :: (Xm ++ Item.ed id db :: Xb)
          = A ++ Item.ed id d₁ :: (M ++ Item.ed id d₂ :: B) := by
        rw [← heq]
        simp only [List.append_assoc, List.cons_append]
      obtain ⟨rfl, rfl, rfl, rfl, rfl⟩ :=
        marker_align2 (by simp [hY0, hXa]) hXm hcA hcM heq'
      have hih := ih Xa Xm (Xb ++ Y) id da db
        (by rw [hX, hRR]; simp only [List.append_assoc, List.cons_append])
      refine ⟨?_, hih.2⟩
      have h1 : CycT ((Xa ++ Xb) ++ Y) :=
        CycT_congr hih.1 (by simp only [List.append_assoc])
      exact CycT_congr (CycT.rot (Xa ++ Xb) Y h1) (by simp only [List.append_assoc])
    · -- one half-edge in each part
      obtain ⟨Ya, da, Yb, hY, hYa⟩ := @exists_first_marker id Y (by omega)
      have hYb : countId id Yb = 0 := by
        rw [hY] at hY1
        simp at hY1
        omega
      obtain ⟨Xa, db, Xb, hX, hXa⟩ := @exists_first_marker id X (by omega)
      have hXb : countId id Xb = 0 := by
        rw [hX] at hX1
        simp at hX1
        omega
      rw [hY, hX] at heq
      have heq' : Ya ++ Item.ed id da :: ((Yb ++ Xa) ++ Item.ed id db :: Xb)
          = A ++ Item.ed id d₁ :: (M ++ Item.ed id d₂ :: B) := by
        rw [← heq]
        simp only [List.append_assoc, List.cons_append]
      obtain ⟨rfl, rfl, rfl, rfl, rfl⟩ :=
        marker_align2 hYa (by simp [hYb, hXa]) hcA hcM heq'
      have hih := ih Xa (Xb ++ Ya) Yb id db da
        (by rw [hY, hX]; simp only [List.append_assoc, List.cons_append])
      constructor
      · exact CycT.rot Xb Ya hih.2
      · exact CycT.rot Xa Yb hih.1
  | attach A₀ B₀ w v j d hbase hw hf1 hf2 hdisj ihbase ihw =>
    intro A M B id d₁ d₂ heq
    have hs' : CycT (A₀ ++ Item.nd v :: Item.ed j d :: (w ++ Item.ed j (!d) :: B₀)) :=
      CycT.attach A₀ B₀ w v j d hbase hw hf1 hf2 hdisj
    obtain ⟨hcA, hcM, hcB⟩ := counts_of_decomp hs' heq
    by_cases hj : j = id
    · -- the cut pair is exactly the attached pair
      subst hj
      have h0 : countId j A₀ = 0 ∧ countId j B₀ = 0 := by
        simp at hf1
        omega
      have heq' : (A₀ ++ [Item.nd v]) ++ Item.ed j d :: (w ++ Item.ed j (!d) :: B₀)
          = A ++ Item.ed j d₁ :: (M ++ Item.ed j d₂ :: B) := by
        rw [← heq]
        simp only [List.append_assoc, List.cons_append, List.singleton_append,
          List.nil_append]
      obtain ⟨rfl, rfl, rfl, rfl, rfl⟩ :=
        marker_align2 (by simp [h0.1]) hf2 hcA hcM heq'
      refine ⟨CycT_congr hbase ?_, hw⟩
      simp only [List.append_assoc, List.singleton_append]
    · -- the cut pair is an older pair
      have hcnt : countId id A₀ + countId id w + countId id B₀ = 2 := by
        have h := congrArg (countId id) heq
        simp [hj] at h
        omega
      rcases hw.countId_par id with hw0 | hw2
      · -- both half-edges in the base
        have hA₀B₀ : countId id A₀ + countId id B₀ = 2 := by omega
        have hsplit : countId id A₀ = 2 ∨ countId id B₀ = 2 ∨
            (countId id A₀ = 1 ∧ countId id B₀ = 1) := by omega
        rcases hsplit with hA2 | hB2 | ⟨hA1, hB1⟩
        · -- both in A₀
          obtain ⟨X, da, R, hXR, hX0⟩ := @exists_first_marker id A₀ (by omega)
          have hR : countId id R = 1 := by
            rw [hXR] at hA2
            simp at hA2
            omega
          obtain ⟨Ym, db, Z, hRR, hYm0⟩ := @exists_first_marker id R (by omega)
          have hZ0 : countId id Z = 0 := by
            rw [hRR] at hR
            simp at hR
            omega
          rw [hXR, hRR] at heq
          have heq' : X ++ Item.ed id da :: (Ym ++ Item.ed id db
              :: (Z ++ Item.nd v :: Item.ed j d :: (w ++ Item.ed j (!d) :: B₀)))
              = A ++ Item.ed id d₁ :: (M ++ Item.ed id d₂ :: B) := by
            rw [← heq]
            simp only [List.append_assoc, List.cons_append]
          obtain ⟨rfl, rfl, rfl, rfl, rfl⟩ :=
            marker_align2 hX0 hYm0 hcA hcM heq'
          have hih := ihbase X Ym (Z ++ Item.nd v :: B₀) id da db
            (by rw [hXR, hRR]; simp only [List.append_assoc, List.cons_append])
          refine ⟨?_, hih.2⟩
          have hb' : CycT ((X ++ Z) ++ Item.nd v :: B₀) :=
            CycT_congr hih.1 (by simp only [List.append_assoc])
          have hfr1' : countId j ((X ++ Z) ++ Item.nd v :: B₀) = 0 := by
            have := hf1
            rw [hXR, hRR] at this
            simp at this ⊢
            omega
          have hdisj' : ∀ i, countId i ((X ++ Z) ++ Item.nd v :: B₀) = 0 ∨
              countId i w = 0 := by
            intro i
            rcases hdisj i with hh | hh
            · left
              rw [hXR, hRR] at hh
              simp at hh ⊢
              omega
            · right
              exact hh
          have := CycT.attach (X ++ Z) B₀ w v j d hb' hw hfr1' hf2 hdisj'
          exact CycT_congr this (by simp only [List.append_assoc, List.cons_append])
        · -- both in B₀
          obtain ⟨X, da, R, hXR, hX0⟩ := @exists_first_marker id B₀ (by omega)
          have hR : countId id R = 1 := by
            rw [hXR] at hB2
            simp at hB2
            omega
          obtain ⟨Ym, db, Z, hRR, hYm0⟩ := @exists_first_marker id R (by omega)
          have hZ0 : countId id Z = 0 := by
            rw [hRR] at hR
            simp at hR
            omega
          have hA00 : countId id A₀ = 0 := by omega
          rw [hXR, hRR] at heq
          have heq' : (A₀ ++ Item.nd v :: Item.ed j d :: (w ++ Item.ed j (!d) :: X))
              ++ Item.ed id da :: (Ym ++ Item.ed id db :: Z)
              = A ++ Item.ed id d₁ :: (M ++ Item.ed id d₂ :: B) := by
            rw [← heq]
            simp only [List.append_assoc, List.cons_append]
          obtain ⟨rfl, rfl, rfl, rfl, rfl⟩ :=
            marker_align2 (by simp [hA00, hj, hw0, hX0]) hYm0 hcA hcM heq'
          have hih := ihbase (A₀ ++ Item.nd v :: X) Ym Z id da db
            (by rw [hXR, hRR]; simp only [List.append_assoc, List.cons_append])
          refine ⟨?_, hih.2⟩
          have hb' : CycT (A₀ ++ Item.nd v :: (X ++ Z)) :=
            CycT_congr hih.1 (by simp only [List.append_assoc, List.cons_append])
          have hfr1' : countId j (A₀ ++ Item.nd v :: (X ++ Z)) = 0 := by
            have := hf1
            rw [hXR, hRR] at this
            simp at this ⊢
            omega
          have hdisj' : ∀ i, countId i (A₀ ++ Item.nd v :: (X ++ Z)) = 0 ∨
              countId i w = 0 := by
            intro i
            rcases hdisj i with hh | hh
            · left
              rw [hXR, hRR] at hh
              simp at hh ⊢
              omega
            · right
              exact hh
          have := CycT.attach A₀ (X ++ Z) w v j d hb' hw hfr1' hf2 hdisj'
          exact CycT_congr this (by simp only [List.append_assoc, List.cons_append])
        · -- one in A₀ and one in B₀
          obtain ⟨X, da, X', hXR, hX0⟩ := @exists_first_marker id A₀ (by omega)
          have hX'0 : countId id X' = 0 := by
            rw [hXR] at hA1
            simp at hA1
            omega
          obtain ⟨Y', db, Y, hYR, hY'0⟩ := @exists_first_marker id B₀ (by omega)
          have hY0 : countId id Y = 0 := by
            rw [hYR] at hB1
            simp at hB1
            omega
          rw [hXR, hYR] at heq
          have heq' : X ++ Item.ed id da
              :: ((X' ++ Item.nd v :: Item.ed j d :: (w ++ Item.ed j (!d) :: Y'))
                ++ Item.ed id db :: Y)
              = A ++ Item.ed id d₁ :: (M ++ Item.ed id d₂ :: B) := by
            rw [← heq]
            simp only [List.append_assoc, List.cons_append]
          obtain ⟨rfl, rfl, rfl, rfl, rfl⟩ :=
            marker_align2 hX0 (by simp [hX'0, hj, hw0, hY'0]) hcA hcM heq'
          have hih := ihbase X (X' ++ Item.nd v :: Y') Y id da db
            (by rw [hXR, hYR]; simp only [List.append_assoc, List.cons_append])
          constructor
          · exact hih.1
          · have hb' : CycT (X' ++ Item.nd v :: Y') := hih.2
            have hfr1' : countId j (X' ++ Item.nd v :: Y') = 0 := by
              have := hf1
              rw [hXR, hYR] at this
              simp at this ⊢
              omega
            have hdisj' : ∀ i, countId i (X' ++ Item.nd v :: Y') = 0 ∨
                countId i w = 0 := by
              intro i
              rcases hdisj i with hh | hh
              · left
                rw [hXR, hYR] at hh
                simp at hh ⊢
                omega
              · right
                exact hh
            have := CycT.attach X' Y' w v j d hb' hw hfr1' hf2 hdisj'
            exact CycT_congr this (by simp only [List.append_assoc, List.cons_append])
      · -- both half-edges in `w`
        have hA00 : countId id A₀ = 0 := by omega
        have hB00 : countId id B₀ = 0 := by omega
        obtain ⟨Wa, da, R, hWR, hWa0⟩ := @exists_first_marker id w (by omega)
        have hR : countId id R = 1 := by
          rw [hWR] at hw2
          simp at hw2
          omega
        obtain ⟨Wm, db, Wb, hRR, hWm0⟩ := @exists_first_marker id R (by omega)
        have hWb0 : countId id Wb = 0 := by
          rw [hRR] at hR
          simp at hR
          omega
        rw [hWR, hRR] at heq
        have heq' : (A₀ ++ Item.nd v :: Item.ed j d :: Wa) ++ Item.ed id da
            :: (Wm ++ Item.ed id db :: (Wb ++ Item.ed j (!d) :: B₀))
            = A ++ Item.ed id d₁ :: (M ++ Item.ed id d₂ :: B) := by
          rw [← heq]
          simp only [List.append_assoc, List.cons_append]
        obtain ⟨rfl, rfl, rfl, rfl, rfl⟩ :=
          marker_align2 (by simp [hA00, hj, hWa0]) hWm0 hcA hcM heq'
        have hih := ihw Wa Wm Wb id da db
          (by rw [hWR, hRR])
        refine ⟨?_, hih.2⟩
        have hw' : CycT (Wa ++ Wb) := hih.1
        have hfr2' : countId j (Wa ++ Wb) = 0 := by
          have := hf2
          rw [hWR, hRR] at this
          simp at this ⊢
          omega
        have hdisj' : ∀ i, countId i (A₀ ++ Item.nd v :: B₀) = 0 ∨
            countId i (Wa ++ Wb) = 0 := by
          intro i
          rcases hdisj i with hh | hh
          · left
            exact hh
          · right
            rw [hWR, hRR] at hh
            simp at hh ⊢
            omega
        have := CycT.attach A₀ B₀ (Wa ++ Wb) v j d hbase hw' hf1 hfr2' hdisj'
        exact CycT_congr this (by simp only [List.append_assoc, List.cons_append])

/-- Total number of half-edges of edge `i` across all sequences of a state. -/
def totCount (i : ℕ) (st : List Seq) : ℕ := (st.map (countId i)).sum

/-- The states reachable by the Euler-tour-tree operations, at the level of
the stored sequences.  `init` is `EulerTourTree::new` (isolated vertices);
`reroot` is `reroot_raw` (split and swap — the code only rotates at vertex
positions, a subset of the rotations allowed here); `connect` reroots `w` and
splices `[uw] ++ w ++ [wu]` right after the vertex element of `u`
(`link_root_raw`) with freshly allocated half-edge elements; `disconnect`
excises a matched pair of half-edges and its enclosed segment
(`disconnect_raw`).  `perm` reorders the bookkeeping list of sequences, which
carries no meaning in the structure. -/
inductive Reach : List Seq → Prop
  | init (vs : List ℕ) : Reach (vs.map fun v => [Item.nd v])
  | perm {st st' : List Seq} : Reach st → st.Perm st' → Reach st'
  | reroot {A B : Seq} {rest : List Seq} :
      Reach ((A ++ B) :: rest) → Reach ((B ++ A) :: rest)
  | connect {A B w : Seq} {rest : List Seq} (v id : ℕ)
      (h : Reach ((A ++ Item.nd v :: B) :: w :: rest))
      (hfresh : ∀ s, s ∈ (A ++ Item.nd v :: B) :: w :: rest → countId id s = 0) :
      Reach ((A ++ Item.nd v :: Item.ed id false :: (w ++ Item.ed id true :: B)) :: rest)
  | disconnect {A M B : Seq} {rest : List Seq} (id : ℕ) (d₁ d₂ : Bool)
      (h : Reach ((A ++ Item.ed id d₁ :: (M ++ Item.ed id d₂ :: B)) :: rest)) :
      Reach ((A ++ B) :: M :: rest)

/-- The ETT invariant: every stored sequence is a well-formed cyclic Euler
tour, and every edge id occurs at most twice in the whole structure. -/
theorem Reach.inv {st : List Seq} (h : Reach st) :
    (∀ s ∈ st, CycT s) ∧ ∀ i, totCount i st ≤ 2 := by
  induction h with
  | init vs =>
    constructor
    · intro s hs
      simp only [List.mem_map] at hs
      obtain ⟨v, -, rfl⟩ := hs
      exact CycT.single v
    · intro i
      simp only [totCount, List.map_map]
      have hz : (countId i ∘ fun v => [Item.nd v]) = fun _ => 0 := by
        funext v
        simp
      rw [hz]
      simp
  | perm h hp ih =>
    constructor
    · intro s hs
      exact ih.1 s (hp.mem_iff.2 hs)
    · intro i
      have : totCount i _ = totCount i _ := List.Perm.sum_eq (hp.map (countId i))
      exact this ▸ ih.2 i
  | reroot h ih =>
    rename_i A B rest
    constructor
    · intro s hs
      rcases List.mem_cons.1 hs with rfl | hs
      · exact CycT.rot A B (ih.1 _ (by simp))
      · exact ih.1 s (by simp [hs])
    · intro i
      have := ih.2 i
      simp only [totCount, List.map_cons, List.sum_cons, countId_append] at this ⊢
      omega
  | connect v id h hfresh ih =>
    rename_i A B w rest
    have hsu : CycT (A ++ Item.nd v :: B) := ih.1 _ (by simp)
    have hw : CycT w := ih.1 _ (by simp)
    have hf1 : countId id (A ++ Item.nd v :: B) = 0 := hfresh _ (by simp)
    have hf2 : countId id w = 0 := hfresh _ (by simp)
    have hdisj : ∀ i, countId i (A ++ Item.nd v :: B) = 0 ∨ countId i w = 0 := by
      intro i
      by_contra hcon
      push_neg at hcon
      have h1 : countId i (A ++ Item.nd v :: B) = 2 := by
        rcases hsu.countId_par i with h' | h' <;> omega
      have h2 : countId i w = 2 := by
        rcases hw.countId_par i with h' | h' <;> omega
      have := ih.2 i
      simp only [totCount, List.map_cons, List.sum_cons] at this
      omega
    constructor
    · intro s hs
      rcases List.mem_cons.1 hs with rfl | hs
      · exact CycT.attach A B w v id false hsu hw hf1 hf2 hdisj
      · exact ih.1 s (by simp [hs])
    · intro i
      have hold := ih.2 i
      simp only [totCount, List.map_cons, List.sum_cons, countId_append,
        countId_cons_nd, countId_cons_ed] at hold ⊢
      by_cases hi : id = i
      · subst hi
        have hz1 := hf1
        simp only [countId_append, countId_cons_nd] at hz1
        have hz3 : (List.map (countId id) rest).sum = 0 :=
          List.sum_eq_zero (by
            intro x hx
            obtain ⟨t, ht, rfl⟩ := List.mem_map.1 hx
            exact hfresh t (by simp [ht]))
        simp only [eq_self_iff_true, if_true, hz3]
        omega
      · simp only [if_neg hi] at hold ⊢
        omega
  | disconnect id d₁ d₂ h ih =>
    rename_i A M B rest
    have hcut := CycT_cut (ih.1 _ (by simp)) A M B id d₁ d₂ rfl
    constructor
    · intro s hs
      rcases List.mem_cons.1 hs with rfl | hs
      · exact hcut.1
      · rcases List.mem_cons.1 hs with rfl | hs
        · exact hcut.2
        · exact ih.1 s (by simp [hs])
    · intro i
      have := ih.2 i
      simp only [totCount, List.map_cons, List.sum_cons, countId_append,
        countId_cons_ed] at this ⊢
      omega

/-- C7: after any sequence of Euler-tour-tree operations, every stored
sequence represents its tree on `k` vertices by exactly `3k − 2` elements
(one node element per vertex plus two half-edge elements per edge), and
therefore `tree_size(u) = (len + 2) / 3` returns exactly the number of
vertices of `u`'s tree. -/
theorem ett_tour_length_ok {st : List Seq} (h : Reach st) :
    ∀ s ∈ st, s.length = 3 * nodeCount s - 2 ∧ (s.length + 2) / 3 = nodeCount s := by
  intro s hs
  have h3 := (Reach.inv h).1 s hs
  have hlen := h3.length_eq
  omega

/-- Witness for C7: two isolated vertices, then `connect(0, 1)`; the merged
tour has length `4 = 3·2 − 2` and `tree_size = (4 + 2)/3 = 2`. -/
theorem ett_tour_length_ok_witness :
    [Item.nd 0, Item.ed 5 false, Item.nd 1, Item.ed 5 true].length =
        3 * nodeCount [Item.nd 0, Item.ed 5 false, Item.nd 1, Item.ed 5 true] - 2 ∧
      ([Item.nd 0, Item.ed 5 false, Item.nd 1, Item.ed 5 true].length + 2) / 3 =
        nodeCount [Item.nd 0, Item.ed 5 false, Item.nd 1, Item.ed 5 true] :=
  ett_tour_length_ok
    (@Reach.connect [] [] [Item.nd 1] [] 0 5 (Reach.init [0, 1]) (by decide))
    [Item.nd 0, Item.ed 5 false, Item.nd 1, Item.ed 5 true] (by decide)

/-- `EulerTourTree::disconnect_raw`: given the positions `a`, `b` of the two
half-edges of an edge (in either order), split out `min..=max`, strip the two
half-edges at its ends, and concatenate the outer pieces.  Returns the outer
sequence first and the enclosed segment second. -/
def disconnectRaw (s : Seq) (a b : ℕ) : Seq × Seq :=
  let lo := min a b
  let hi := max a b
  (s.take lo ++ s.drop (hi + 1), (s.take hi).drop (lo + 1))

/-- `EulerTourTree::reroot_raw`: rotate the sequence so position `i` comes
first. -/
def rotateAt (s : Seq) (i : ℕ) : Seq := s.drop i ++ s.take i

/-- C8 counterexample: build the ETT edge by `connect(u = 0, w = 1)` — the
tour is `[0, uw, 1, wu]` — then `reroot(1)`, making the tour
`[1, wu, 0, uw]` with the half-edges at positions 3 (`uw`) and 1 (`wu`).
Disconnecting that EdgeRef returns the w-side component `{1}` FIRST and the
u-side component `{0}` second, contradicting the claimed u-side-first
order. -/
theorem ett_disconnect_order_cex :
    disconnectRaw (rotateAt [Item.nd 0, Item.ed 0 false, Item.nd 1, Item.ed 0 true] 2) 3 1 =
        ([Item.nd 1], [Item.nd 0]) ∧
      Item.nd 0 ∈
        (disconnectRaw (rotateAt [Item.nd 0, Item.ed 0 false, Item.nd 1, Item.ed 0 true] 2)
          3 1).2 ∧
      Item.nd 0 ∉
        (disconnectRaw (rotateAt [Item.nd 0, Item.ed 0 false, Item.nd 1, Item.ed 0 true] 2)
          3 1).1 := by
  decide

/-- C8 amended: disconnecting an edge whose half-edges sit at positions
`|A|` and `|A| + 1 + |M|` of the well-formed sequence
`A ++ [e₁] ++ M ++ [e₂] ++ B` splits it into exactly two well-formed trees
and returns them in the order (outer part `A ++ B`, enclosed segment `M`):
first the tree of the part outside the half-edge pair (the one holding the
sequence's current first element whenever `A ≠ []`), then the tree that lay
strictly between the two half-edges.  The u-side-first order stated in the
spec holds only when the current tour root is on the u-side. -/
theorem ett_disconnect_amended (A M B : Seq) (id : ℕ) (d₁ d₂ : Bool)
    (hs : CycT (A ++ Item.ed id d₁ :: (M ++ Item.ed id d₂ :: B))) :
    disconnectRaw (A ++ Item.ed id d₁ :: (M ++ Item.ed id d₂ :: B))
        A.length (A.length + 1 + M.length) = (A ++ B, M) ∧
      CycT (A ++ B) ∧ CycT M ∧
      nodeCount (A ++ B) + nodeCount M
        = nodeCount (A ++ Item.ed id d₁ :: (M ++ Item.ed id d₂ :: B)) := by
  have hcut := CycT_cut hs A M B id d₁ d₂ rfl
  refine ⟨?_, hcut.1, hcut.2, by simp; omega⟩
  have hlo : min A.length (A.length + 1 + M.length) = A.length := by omega
  have hhi : max A.length (A.length + 1 + M.length) = A.length + 1 + M.length := by omega
  have htk : (A ++ Item.ed id d₁ :: (M ++ Item.ed id d₂ :: B)).take A.length = A := by
    rw [List.take_append_of_le_length le_rfl, List.take_length]
  have hdr : (A ++ Item.ed id d₁ :: (M ++ Item.ed id d₂ :: B)).drop
      (A.length + 1 + M.length + 1) = B := by
    rw [List.drop_append_eq_append_drop, List.drop_eq_nil_of_le (by omega)]
    have h1 : A.length + 1 + M.length + 1 - A.length = M.length + 2 := by omega
    rw [List.nil_append, h1, List.drop_succ_cons, List.drop_append_eq_append_drop,
      List.drop_eq_nil_of_le (by omega), List.nil_append]
    have h2 : M.length + 1 - M.length = 1 := by omega
    rw [h2, List.drop_succ_cons, List.drop_zero]
  have htk2 : (A ++ Item.ed id d₁ :: (M ++ Item.ed id d₂ :: B)).take
      (A.length + 1 + M.length) = A ++ Item.ed id d₁ :: M := by
    rw [List.take_append_eq_append_take, List.take_all_of_le (by omega)]
    congr 1
    have h1 : A.length + 1 + M.length - A.length = M.length + 1 := by omega
    rw [h1, List.take_succ_cons]
    congr 1
    rw [List.take_append_of_le_length le_rfl, List.take_length]
  have hdr2 : (A ++ Item.ed id d₁ :: M).drop (A.length + 1) = M := by
    rw [List.drop_append_eq_append_drop, List.drop_eq_nil_of_le (by omega),
      List.nil_append]
    have h1 : A.length + 1 - A.length = 1 := by omega
    rw [h1, List.drop_succ_cons, List.drop_zero]
  simp only [disconnectRaw]
  rw [hlo, hhi, htk, hdr, htk2, hdr2]

/-- Witness for C8's amended statement at the counterexample state: the tour
`[1, wu, 0, uw]` splits into the trees `[1]` (outer, holding the current
root) and `[0]` (enclosed). -/
theorem ett_disconnect_amended_witness :
    disconnectRaw ([Item.nd 1] ++ Item.ed 0 true :: ([Item.nd 0] ++ Item.ed 0 false :: []))
        [Item.nd 1].length ([Item.nd 1].length + 1 + [Item.nd 0].length)
      = ([Item.nd 1] ++ [], [Item.nd 0]) ∧
      CycT ([Item.nd 1] ++ []) ∧ CycT [Item.nd 0] ∧
      nodeCount ([Item.nd 1] ++ []) + nodeCount [Item.nd 0]
        = nodeCount ([Item.nd 1] ++ Item.ed 0 true :: ([Item.nd 0] ++ Item.ed 0 false :: [])) := by
  exact ett_disconnect_amended [Item.nd 1] [Item.nd 0] [] 0 true false
    (CycT.rot [Item.nd 0, Item.ed 0 false] [Item.nd 1, Item.ed 0 true]
      (CycT.attach [] [] [Item.nd 1] 0 0 false (CycT.single 0) (CycT.single 1)
        rfl rfl (fun i => Or.inl rfl)))

end ETTM

namespace SolverM

/-- An undirected edge, stored with `u < v` as in `EdgeInfo::e`. -/
abbrev Edge := ℕ × ℕ

/-- Two vertices joined by an edge of the list (in either orientation). -/
def adjacent (es : List Edge) (x y : ℕ) : Prop := (x, y) ∈ es ∨ (y, x) ∈ es

/-- Connectivity by a path of edges of `es`. -/
def Conn (es : List Edge) : ℕ → ℕ → Prop := Relation.ReflTransGen (adjacent es)

theorem adjacent_symm {es : List Edge} {x y : ℕ} (h : adjacent es x y) : adjacent es y x :=
  h.elim Or.inr Or.inl

theorem Conn.refl {es : List Edge} (a : ℕ) : Conn es a a := Relation.ReflTransGen.refl

theorem Conn.of_adj {es : List Edge} {a b : ℕ} (h : adjacent es a b) : Conn es a b :=
  Relation.ReflTransGen.single h

theorem Conn.trans {es : List Edge} {a b c : ℕ} (h1 : Conn es a b) (h2 : Conn es b c) :
    Conn es a c := Relation.ReflTransGen.trans h1 h2

theorem Conn.symm {es : List Edge} {a b : ℕ} (h : Conn es a b) : Conn es b a := by
  induction h with
  | refl => exact Conn.refl a
  | tail hab hbc ih => exact Conn.trans (Conn.of_adj (adjacent_symm hbc)) ih

theorem conn_mono {es es' : List Edge} (hsub : ∀ e ∈ es, e ∈ es') {a b : ℕ}
    (h : Conn es a b) : Conn es' a b := by
  induction h with
  | refl => exact Conn.refl a
  | tail hab hbc ih => exact Conn.trans ih (Conn.of_adj (hbc.imp (hsub _) (hsub _)))

theorem conn_perm {es es' : List Edge} (hp : es.Perm es') {a b : ℕ} :
    Conn es a b ↔ Conn es' a b :=
  ⟨conn_mono fun e he => hp.mem_iff.1 he, conn_mono fun e he => hp.mem_iff.2 he⟩

/-- Path decomposition across one added edge `(x, y)`. -/
theorem conn_cons {es : List Edge} {x y a b : ℕ} :
    Conn ((x, y) :: es) a b ↔
      Conn es a b ∨ (Conn es a x ∧ Conn es y b) ∨ (Conn es a y ∧ Conn es x b) := by
  constructor
  · intro h
    induction h with
    | refl => exact Or.inl (Conn.refl a)
    | tail hab hbc ih =>
      rename_i c cc
      have hstep : adjacent es c cc ∨ (c = x ∧ cc = y) ∨ (c = y ∧ cc = x) := by
        rcases hbc with h | h
        · rcases List.mem_cons.1 h with h | h
          · right
            left
            exact ⟨congrArg Prod.fst h, congrArg Prod.snd h⟩
          · exact Or.inl (Or.inl h)
        · rcases List.mem_cons.1 h with h | h
          · right
            right
            exact ⟨congrArg Prod.snd h, congrArg Prod.fst h⟩
          · exact Or.inl (Or.inr h)
      rcases hstep with hadj | ⟨rfl, rfl⟩ | ⟨rfl, rfl⟩
      · rcases ih with h1 | ⟨h1, h2⟩ | ⟨h1, h2⟩
        · exact Or.inl (h1.trans (Conn.of_adj hadj))
        · exact Or.inr (Or.inl ⟨h1, h2.trans (Conn.of_adj hadj)⟩)
        · exact Or.inr (Or.inr ⟨h1, h2.trans (Conn.of_adj hadj)⟩)
      · rcases ih with h1 | ⟨h1, h2⟩ | ⟨h1, h2⟩
        · exact Or.inr (Or.inl ⟨h1, Conn.refl _⟩)
        · exact Or.inr (Or.inl ⟨h1, Conn.refl _⟩)
        · exact Or.inl h1
      · rcases ih with h1 | ⟨h1, h2⟩ | ⟨h1, h2⟩
        · exact Or.inr (Or.inr ⟨h1, Conn.refl _⟩)
        · exact Or.inl h1
        · exact Or.inr (Or.inr ⟨h1, Conn.refl _⟩)
  · intro h
    have hsub : ∀ e ∈ es, e ∈ (x, y) :: es := fun e he => List.mem_cons_of_mem _ he
    have hxy : Conn ((x, y) :: es) x y := Conn.of_adj (Or.inl (List.mem_cons_self _ _))
    rcases h with h1 | ⟨h1, h2⟩ | ⟨h1, h2⟩
    · exact conn_mono hsub h1
    · exact ((conn_mono hsub h1).trans hxy).trans (conn_mono hsub h2)
    · exact ((conn_mono hsub h1).trans hxy.symm).trans (conn_mono hsub h2)

/-- Remove the first occurrence of an edge from a list. -/
def eraseE : List Edge → Edge → List Edge
  | [], _ => []
  | f :: fs, e => if f = e then fs else f :: eraseE fs e

theorem eraseE_sublist_self (es : List Edge) (e : Edge) : (eraseE es e).Sublist es := by
  induction es with
  | nil => exact List.Sublist.refl []
  | cons f fs ih =>
    rw [eraseE]
    by_cases h : f = e
    · rw [if_pos h]
      exact List.sublist_cons_self f fs
    · rw [if_neg h]
      exact List.Sublist.cons₂ f ih

theorem mem_of_mem_eraseE {es : List Edge} {e f : Edge} (h : f ∈ eraseE es e) : f ∈ es :=
  (eraseE_sublist_self es e).mem h

theorem eraseE_sublist {es es' : List Edge} (hs : es'.Sublist es) (e : Edge) :
    (eraseE es' e).Sublist (eraseE es e) := by
  induction hs with
  | slnil => exact List.Sublist.refl _
  | cons a h ih =>
    rw [eraseE]
    by_cases hae : a = e
    · rw [if_pos hae]
      exact (eraseE_sublist_self _ e).trans h
    · rw [if_neg hae]
      exact List.Sublist.cons a ih
  | cons₂ a h ih =>
    rw [eraseE, eraseE]
    by_cases hae : a = e
    · rw [if_pos hae, if_pos hae]
      exact h
    · rw [if_neg hae, if_neg hae]
      exact List.Sublist.cons₂ a ih

theorem perm_eraseE {es es' : List Edge} (hp : es.Perm es') (e : Edge) :
    (eraseE es e).Perm (eraseE es' e) := by
  induction hp with
  | nil => exact List.Perm.refl _
  | cons a h ih =>
    rw [eraseE, eraseE]
    by_cases hae : a = e
    · rw [if_pos hae, if_pos hae]
      exact h
    · rw [if_neg hae, if_neg hae]
      exact List.Perm.cons a ih
  | swap a b l =>
    by_cases hbe : b = e <;> by_cases hae : a = e
    · simp only [eraseE, if_pos hbe, if_pos hae]
      rw [hae, hbe]
    · simp only [eraseE, if_pos hbe, if_neg hae]
      exact List.Perm.refl _
    · simp only [eraseE, if_neg hbe, if_pos hae]
      exact List.Perm.refl _
    · simp only [eraseE, if_neg hbe, if_neg hae]
      exact List.Perm.swap a b _
  | trans h1 h2 ih1 ih2 => exact ih1.trans ih2

theorem eraseE_append {A B : List Edge} {e : Edge} (hA : e ∉ A) :
    eraseE (A ++ e :: B) e = A ++ B := by
  induction A with
  | nil => simp [eraseE]
  | cons a A ih =>
    rw [List.cons_append, eraseE,
      if_neg (fun h => hA (by rw [h]; exact List.mem_cons_self e A)),
      ih (fun h => hA (List.mem_cons_of_mem a h)), List.cons_append]

theorem eraseE_of_not_mem {es : List Edge} {e : Edge} (h : e ∉ es) : eraseE es e = es := by
  induction es with
  | nil => rfl
  | cons a l ih =>
    rw [eraseE, if_neg (fun hh => h (by rw [← hh]; exact List.mem_cons_self a l)),
      ih (fun hh => h (List.mem_cons_of_mem a hh))]

/-- A forest: removing any one occurrence of an edge disconnects its
endpoints. -/
def IsForest (es : List Edge) : Prop :=
  ∀ e ∈ es, ¬ Conn (eraseE es e) e.1 e.2

theorem isForest_nil : IsForest [] := by
  intro e he
  simp at he

/-- Inserting an edge between two disconnected vertices keeps a forest. -/
theorem isForest_cons {es : List Edge} {x y : ℕ} (hf : IsForest es)
    (hxy : ¬ Conn es x y) : IsForest ((x, y) :: es) := by
  intro e he
  rcases List.mem_cons.1 he with rfl | he
  · simpa [eraseE] using hxy
  · by_cases hxye : (x, y) = e
    · subst hxye
      simpa [eraseE] using hxy
    · rw [eraseE, if_neg hxye]
      intro hcon
      have hee : Conn es e.1 e.2 := Conn.of_adj (Or.inl (by cases e; exact he))
      have hsub : ∀ f ∈ eraseE es e, f ∈ es := fun f hfe => mem_of_mem_eraseE hfe
      rcases conn_cons.1 hcon with h1 | ⟨h1, h2⟩ | ⟨h1, h2⟩
      · exact hf e he h1
      · exact hxy (((conn_mono hsub h1).symm.trans hee).trans (conn_mono hsub h2).symm)
      · exact hxy (((conn_mono hsub h2).trans hee.symm).trans (conn_mono hsub h1))

/-- A sublist of a forest is a forest. -/
theorem isForest_sublist {es es' : List Edge} (hf : IsForest es) (hs : es'.Sublist es) :
    IsForest es' := by
  intro e he
  intro hcon
  refine hf e (hs.mem he) ?_
  exact conn_mono (fun f hfe => (eraseE_sublist hs e).mem hfe) hcon


/-- Boolean adjacency test between two vertices. -/
def nbor (es : List Edge) (x y : ℕ) : Bool :=
  es.any fun e => (e.1 == x && e.2 == y) || (e.1 == y && e.2 == x)

theorem nbor_iff {es : List Edge} {x y : ℕ} : nbor es x y = true ↔ adjacent es x y := by
  constructor
  · intro h
    rcases List.any_eq_true.1 h with ⟨e, he, hp⟩
    simp only [Bool.or_eq_true, Bool.and_eq_true, beq_iff_eq] at hp
    cases e with
    | mk p q =>
      rcases hp with ⟨h1, h2⟩ | ⟨h1, h2⟩
      · subst h1; subst h2; exact Or.inl he
      · subst h1; subst h2; exact Or.inr he
  · intro h
    rcases h with h | h
    · exact List.any_eq_true.2 ⟨(x, y), h, by simp⟩
    · exact List.any_eq_true.2 ⟨(y, x), h, by simp⟩

/-- One saturation step: add every vertex below `n` adjacent to the set. -/
def closeStep (es : List Edge) (n : ℕ) (S : Finset ℕ) : Finset ℕ :=
  S ∪ (Finset.range n).filter fun y => ∃ x ∈ S, nbor es x y = true

/-- Iterated saturation. -/
def closeIter (es : List Edge) (n : ℕ) : ℕ → Finset ℕ → Finset ℕ
  | 0, S => S
  | f + 1, S => closeIter es n f (closeStep es n S)

/-- The connected component of `a` among vertices below `n`. -/
def compOf (es : List Edge) (n : ℕ) (a : ℕ) : Finset ℕ := closeIter es n n {a}

/-- Decidable connectivity below `n`. -/
def connB (es : List Edge) (n : ℕ) (a b : ℕ) : Bool := decide (b ∈ compOf es n a)

theorem closeStep_sound {es : List Edge} {n : ℕ} {S : Finset ℕ} {y : ℕ}
    (hy : y ∈ closeStep es n S) : y ∈ S ∨ ∃ x ∈ S, adjacent es x y := by
  rcases Finset.mem_union.1 hy with h | h
  · exact Or.inl h
  · rcases Finset.mem_filter.1 h with ⟨_, x, hx, hnb⟩
    exact Or.inr ⟨x, hx, nbor_iff.1 hnb⟩

theorem closeIter_sound {es : List Edge} {n : ℕ} :
    ∀ (f : ℕ) (S : Finset ℕ) (y : ℕ), y ∈ closeIter es n f S → ∃ x ∈ S, Conn es x y := by
  intro f
  induction f with
  | zero => exact fun S y hy => ⟨y, hy, Conn.refl y⟩
  | succ f ih =>
    intro S y hy
    rcases ih (closeStep es n S) y hy with ⟨x, hx, hc⟩
    rcases closeStep_sound hx with hx | ⟨x0, hx0, hadj⟩
    · exact ⟨x, hx, hc⟩
    · exact ⟨x0, hx0, (Conn.of_adj hadj).trans hc⟩

theorem subset_closeStep {es : List Edge} {n : ℕ} {S : Finset ℕ} : S ⊆ closeStep es n S :=
  Finset.subset_union_left

theorem subset_closeIter {es : List Edge} {n : ℕ} :
    ∀ (f : ℕ) (S : Finset ℕ), S ⊆ closeIter es n f S := by
  intro f
  induction f with
  | zero => exact fun S => Finset.Subset.refl S
  | succ f ih => exact fun S => Finset.Subset.trans subset_closeStep (ih (closeStep es n S))

/-- A set closed under adjacency within the vertex range. -/
def ClosedS (es : List Edge) (n : ℕ) (S : Finset ℕ) : Prop :=
  ∀ x ∈ S, ∀ y, y < n → adjacent es x y → y ∈ S

theorem closeStep_eq_of_closed {es : List Edge} {n : ℕ} {S : Finset ℕ}
    (h : ClosedS es n S) : closeStep es n S = S := by
  refine Finset.union_eq_left.2 ?_
  intro y hy
  rcases Finset.mem_filter.1 hy with ⟨hr, x, hx, hnb⟩
  exact h x hx y (Finset.mem_range.1 hr) (nbor_iff.1 hnb)

theorem closed_of_closeStep_eq {es : List Edge} {n : ℕ} {S : Finset ℕ}
    (h : closeStep es n S = S) : ClosedS es n S := by
  intro x hx y hyn hadj
  have : y ∈ closeStep es n S :=
    Finset.mem_union.2 (Or.inr (Finset.mem_filter.2
      ⟨Finset.mem_range.2 hyn, x, hx, nbor_iff.2 hadj⟩))
  rwa [h] at this

theorem closeIter_eq_of_closed {es : List Edge} {n : ℕ} (f : ℕ) {S : Finset ℕ}
    (h : ClosedS es n S) : closeIter es n f S = S := by
  induction f with
  | zero => rfl
  | succ f ih => simpa [closeIter, closeStep_eq_of_closed h] using ih

theorem closeStep_subset_range {es : List Edge} {n : ℕ} {S : Finset ℕ}
    (h : S ⊆ Finset.range n) : closeStep es n S ⊆ Finset.range n :=
  Finset.union_subset h (Finset.filter_subset _ _)

theorem closeIter_closed {es : List Edge} {n : ℕ} :
    ∀ (f : ℕ) (S : Finset ℕ), S ⊆ Finset.range n → n ≤ f + S.card →
      ClosedS es n (closeIter es n f S) := by
  intro f
  induction f with
  | zero =>
    intro S hsub hcard
    have : S = Finset.range n :=
      Finset.eq_of_subset_of_card_le hsub (by simpa using hcard)
    subst this
    exact fun x _ y hyn _ => Finset.mem_range.2 hyn
  | succ f ih =>
    intro S hsub hcard
    by_cases hc : ClosedS es n S
    · show ClosedS es n (closeIter es n f (closeStep es n S))
      rw [closeStep_eq_of_closed hc, closeIter_eq_of_closed f hc]
      exact hc
    · have hne : closeStep es n S ≠ S := fun h => hc (closed_of_closeStep_eq h)
      have hss : S ⊂ closeStep es n S := Finset.ssubset_iff_of_subset subset_closeStep |>.2 (by
        rcases Finset.exists_of_ssubset (HasSubset.Subset.ssubset_of_ne subset_closeStep
          (Ne.symm hne)) with ⟨x, hx, hnx⟩
        exact ⟨x, hx, hnx⟩)
      have hcard2 : S.card < (closeStep es n S).card := Finset.card_lt_card hss
      exact ih (closeStep es n S) (closeStep_subset_range hsub) (by omega)

theorem conn_mem_closed {es : List Edge} {n : ℕ} {S : Finset ℕ} (hcl : ClosedS es n S)
    (hwf : ∀ e ∈ es, e.1 < n ∧ e.2 < n) {a b : ℕ} (ha : a ∈ S) (h : Conn es a b) :
    b ∈ S := by
  induction h with
  | refl => exact ha
  | tail hab hbc ih =>
    rename_i c cc
    have hlt : cc < n := by
      rcases hbc with h | h
      · exact (hwf _ h).2
      · exact (hwf _ h).1
    exact hcl c ih cc hlt hbc

/-- Correctness of decidable connectivity. -/
theorem connB_iff {es : List Edge} {n a b : ℕ} (hwf : ∀ e ∈ es, e.1 < n ∧ e.2 < n)
    (ha : a < n) : connB es n a b = true ↔ Conn es a b := by
  constructor
  · intro h
    rcases closeIter_sound n {a} b (of_decide_eq_true h) with ⟨x, hx, hc⟩
    rwa [Finset.mem_singleton.1 hx] at hc
  · intro h
    have hcl : ClosedS es n (compOf es n a) :=
      closeIter_closed n {a} (by simpa using ha) (by simp)
    have hmem : a ∈ compOf es n a := subset_closeIter n {a} (Finset.mem_singleton_self a)
    exact decide_eq_true (conn_mem_closed hcl hwf hmem h)

/-- Membership in a component, phrased through `Conn`. -/
theorem mem_compOf {es : List Edge} {n a b : ℕ} (hwf : ∀ e ∈ es, e.1 < n ∧ e.2 < n)
    (ha : a < n) : b ∈ compOf es n a ↔ Conn es a b := by
  rw [← connB_iff hwf ha]
  exact ⟨decide_eq_true, of_decide_eq_true⟩


/-- Update the element at one index of a list, leaving other positions alone. -/
def updRec {α : Type} : List α → ℕ → (α → α) → List α
  | [], _, _ => []
  | r :: rs, 0, f => f r :: rs
  | r :: rs, i + 1, f => r :: updRec rs i f

theorem updRec_length {α : Type} (rs : List α) (i : ℕ) (f : α → α) :
    (updRec rs i f).length = rs.length := by
  induction rs generalizing i with
  | nil => rfl
  | cons r rs ih =>
    cases i with
    | zero => rfl
    | succ i => simpa [updRec] using ih i

theorem filterMap_cons_toList {α β : Type} (g : α → Option β) (a : α) (l : List α) :
    (a :: l).filterMap g = (g a).toList ++ l.filterMap g := by
  cases h : g a <;> simp [List.filterMap_cons, h]

/-- Decomposition of a `filterMap` around an updated index. -/
theorem filterMap_updRec {α β : Type} (g : α → Option β) (rs : List α) (i : ℕ) (f : α → α)
    (r : α) (hg : rs.get? i = some r) :
    ∃ A B, rs.filterMap g = A ++ (g r).toList ++ B ∧
      (updRec rs i f).filterMap g = A ++ (g (f r)).toList ++ B := by
  induction rs generalizing i with
  | nil => simp at hg
  | cons r0 rs ih =>
    cases i with
    | zero =>
      have : r0 = r := by simpa using hg
      subst this
      exact ⟨[], rs.filterMap g, by simp [filterMap_cons_toList],
        by simp [updRec, filterMap_cons_toList]⟩
    | succ i =>
      rcases ih i (by simpa using hg) with ⟨A, B, h1, h2⟩
      refine ⟨(g r0).toList ++ A, B, ?_, ?_⟩
      · rw [filterMap_cons_toList, h1]
        simp [List.append_assoc]
      · rw [show updRec (r0 :: rs) (i + 1) f = r0 :: updRec rs i f from rfl,
          filterMap_cons_toList, h2]
        simp [List.append_assoc]

theorem get?_updRec_self {α : Type} (rs : List α) (i : ℕ) (f : α → α) (r : α)
    (hg : rs.get? i = some r) : (updRec rs i f).get? i = some (f r) := by
  induction rs generalizing i with
  | nil => simp at hg
  | cons r0 rs ih =>
    cases i with
    | zero =>
      have : r0 = r := by simpa using hg
      subst this
      rfl
    | succ i => simpa [updRec] using ih i (by simpa using hg)

theorem get?_updRec_ne {α : Type} (rs : List α) (i j : ℕ) (f : α → α) (hij : i ≠ j) :
    (updRec rs i f).get? j = rs.get? j := by
  induction rs generalizing i j with
  | nil => cases i <;> rfl
  | cons r0 rs ih =>
    cases i with
    | zero => cases j with
      | zero => exact absurd rfl hij
      | succ j => rfl
    | succ i => cases j with
      | zero => rfl
      | succ j => simpa [updRec] using ih i j (by omega)

theorem mem_updRec {α : Type} {rs : List α} {i : ℕ} {f : α → α} {x : α}
    (hx : x ∈ updRec rs i f) : x ∈ rs ∨ ∃ r ∈ rs, x = f r := by
  induction rs generalizing i with
  | nil => simp [updRec] at hx
  | cons r0 rs ih =>
    cases i with
    | zero =>
      rcases List.mem_cons.1 hx with rfl | hx
      · exact Or.inr ⟨r0, List.mem_cons_self _ _, rfl⟩
      · exact Or.inl (List.mem_cons_of_mem _ hx)
    | succ i =>
      rcases List.mem_cons.1 hx with rfl | hx
      · exact Or.inl (List.mem_cons_self _ _)
      · rcases ih hx with h | ⟨r, hr, hxr⟩
        · exact Or.inl (List.mem_cons_of_mem _ h)
        · exact Or.inr ⟨r, List.mem_cons_of_mem _ hr, hxr⟩

theorem filterMap_sublist_mono {α β : Type} (g g' : α → Option β)
    (h : ∀ a b, g a = some b → g' a = some b) (rs : List α) :
    (rs.filterMap g).Sublist (rs.filterMap g') := by
  induction rs with
  | nil => simp
  | cons a l ih =>
    rw [filterMap_cons_toList, filterMap_cons_toList]
    cases hga : g a with
    | none =>
      refine List.Sublist.trans ih ?_
      simp
    | some b =>
      rw [h a b hga]
      exact List.Sublist.cons₂ b ih

/-- A forest stays a forest under any permutation of its edges. -/
theorem isForest_perm {es es' : List Edge} (hp : es.Perm es') (hf : IsForest es) :
    IsForest es' := by
  intro e he hcon
  refine hf e (hp.mem_iff.2 he) ?_
  exact (conn_perm (perm_eraseE hp e)).2 hcon

/-- Shallow embedding of `EdgeInfo` from `dynamic_2core.rs`: the normalized
endpoints, the edge level, whether `levels` is `Some` (a tree edge), and
whether the edge is currently present in `e_to_id`. -/
structure EdgeInfo where
  e : Edge
  level : ℕ
  isTree : Bool
  live : Bool
deriving DecidableEq

/-- Solver state: `n` vertices and the append-only `edge_info` array. -/
structure St where
  n : ℕ
  edge_info : List EdgeInfo
deriving DecidableEq

/-- Edges currently present (the domain of `e_to_id`). -/
def liveEdges (st : St) : List Edge :=
  st.edge_info.filterMap fun r => if r.live then some r.e else none

/-- Edges of the spanning forest at level `j`: live tree edges whose level
is at least `j` (a tree edge has one `EdgeRef` per level `0..=level`). -/
def forestAt (st : St) (j : ℕ) : List Edge :=
  st.edge_info.filterMap fun r =>
    if r.live && r.isTree && decide (j ≤ r.level) then some r.e else none

theorem forestAt_sublist_live (st : St) (j : ℕ) : (forestAt st j).Sublist (liveEdges st) := by
  refine filterMap_sublist_mono _ _ ?_ _
  intro a b h
  by_cases ha : a.live && a.isTree && decide (j ≤ a.level)
  · rw [if_pos ha] at h
    simp only [Bool.and_eq_true, decide_eq_true_eq] at ha
    rw [if_pos ha.1.1]
    exact h
  · rw [if_neg ha] at h
    exact absurd h (by simp)

theorem forestAt_mono (st : St) {j j' : ℕ} (hj : j ≤ j') :
    (forestAt st j').Sublist (forestAt st j) := by
  refine filterMap_sublist_mono _ _ ?_ _
  intro a b h
  by_cases ha : a.live && a.isTree && decide (j' ≤ a.level)
  · rw [if_pos ha] at h
    simp only [Bool.and_eq_true, decide_eq_true_eq] at ha
    rw [if_pos (by simp only [Bool.and_eq_true, decide_eq_true_eq]; exact ⟨ha.1, by omega⟩)]
    exact h
  · rw [if_neg ha] at h
    exact absurd h (by simp)

theorem mem_liveEdges {st : St} {e : Edge} :
    e ∈ liveEdges st ↔ ∃ r ∈ st.edge_info, r.live = true ∧ r.e = e := by
  simp only [liveEdges, List.mem_filterMap]
  constructor
  · rintro ⟨r, hr, hre⟩
    by_cases h : r.live
    · rw [if_pos h] at hre
      exact ⟨r, hr, h, by simpa using hre⟩
    · rw [if_neg h] at hre
      simp at hre
  · rintro ⟨r, hr, hl, rfl⟩
    exact ⟨r, hr, by rw [if_pos hl]⟩

theorem mem_forestAt {st : St} {j : ℕ} {e : Edge} :
    e ∈ forestAt st j ↔
      ∃ r ∈ st.edge_info, r.live = true ∧ r.isTree = true ∧ j ≤ r.level ∧ r.e = e := by
  simp only [forestAt, List.mem_filterMap]
  constructor
  · rintro ⟨r, hr, hre⟩
    by_cases h : r.live && r.isTree && decide (j ≤ r.level)
    · rw [if_pos h] at hre
      simp only [Bool.and_eq_true, decide_eq_true_eq] at h
      exact ⟨r, hr, h.1.1, h.1.2, h.2, by simpa using hre⟩
    · rw [if_neg h] at hre
      simp at hre
  · rintro ⟨r, hr, h1, h2, h3, rfl⟩
    exact ⟨r, hr, by rw [if_pos (by simp [h1, h2, h3])]⟩

/-- Lookup in `e_to_id`: index of the live record holding this pair. -/
def lookupId : List EdgeInfo → Edge → Option ℕ
  | [], _ => none
  | r :: rs, e => if r.live && r.e == e then some 0 else (lookupId rs e).map (· + 1)

theorem lookupId_eq_some {rs : List EdgeInfo} {e : Edge} {i : ℕ}
    (h : lookupId rs e = some i) :
    ∃ r, rs.get? i = some r ∧ r.live = true ∧ r.e = e := by
  induction rs generalizing i with
  | nil => simp [lookupId] at h
  | cons r0 rs ih =>
    by_cases hc : r0.live && r0.e == e
    · rw [lookupId, if_pos hc] at h
      cases h
      simp only [Bool.and_eq_true, beq_iff_eq] at hc
      exact ⟨r0, rfl, hc.1, hc.2⟩
    · rw [lookupId, if_neg hc] at h
      rcases Option.map_eq_some'.1 h with ⟨i0, h0, rfl⟩
      rcases ih h0 with ⟨r, hr, h1, h2⟩
      exact ⟨r, by simpa using hr, h1, h2⟩

theorem lookupId_eq_none {rs : List EdgeInfo} {e : Edge} :
    lookupId rs e = none ↔ ∀ r ∈ rs, r.live = true → r.e ≠ e := by
  induction rs with
  | nil => simp [lookupId]
  | cons r0 rs ih =>
    by_cases hc : r0.live && r0.e == e
    · rw [lookupId, if_pos hc]
      simp only [Bool.and_eq_true, beq_iff_eq] at hc
      constructor
      · intro h
        simp at h
      · intro h
        exact absurd hc.2 (h r0 (List.mem_cons_self _ _) hc.1)
    · rw [lookupId, if_neg hc]
      simp only [Bool.and_eq_true, beq_iff_eq] at hc
      constructor
      · intro h r hr hl
        rcases List.mem_cons.1 hr with rfl | hr
        · intro he
          exact hc ⟨hl, he⟩
        · exact ih.1 (by simpa using h) r hr hl
      · intro h
        simp only [Option.map_eq_none']
        exact ih.2 fun r hr hl => h r (List.mem_cons_of_mem _ hr) hl

/-- Presence test (`e_to_id.contains_key`). -/
def hasEdge (st : St) (e : Edge) : Bool := (lookupId st.edge_info e).isSome

theorem hasEdge_iff {st : St} {e : Edge} : hasEdge st e = true ↔ e ∈ liveEdges st := by
  rw [hasEdge, mem_liveEdges]
  constructor
  · intro h
    rcases Option.isSome_iff_exists.1 h with ⟨i, hi⟩
    rcases lookupId_eq_some hi with ⟨r, hr, h1, h2⟩
    exact ⟨r, List.get?_mem hr, h1, h2⟩
  · rintro ⟨r, hr, h1, h2⟩
    cases hl : lookupId st.edge_info e with
    | some i => rfl
    | none => exact absurd h2 (lookupId_eq_none.1 hl r hr h1)


/-- Pair normalization: `add_edge`/`remove_edge` swap so that `u < v`. -/
def norm (u v : ℕ) : Edge := if u > v then (v, u) else (u, v)

/-- `D2CSolver::add_edge`: reject loops and present edges; otherwise the new
edge is a tree edge exactly when the level-0 `connect` succeeds, i.e. when
the endpoints were not yet connected in forest 0. -/
def addEdge (st : St) (u v : ℕ) : St × Bool :=
  if (norm u v).1 = (norm u v).2 ∨ hasEdge st (norm u v) = true then (st, false)
  else
    ({ st with edge_info := st.edge_info ++
        [⟨norm u v, 0, !connB (forestAt st 0) st.n (norm u v).1 (norm u v).2, true⟩] }, true)

/-- `rem_edge_id`: mark the record at index `i` as removed from `e_to_id`. -/
def killAt (st : St) (i : ℕ) : St :=
  { st with edge_info := updRec st.edge_info i fun r => { r with live := false } }

/-- `add_level_to_edge`: raise the level of edge `i` by one. -/
def bumpAt (st : St) (i : ℕ) : St :=
  { st with edge_info := updRec st.edge_info i fun r => { r with level := r.level + 1 } }

/-- The replacement step: edge `i` gets `levels = Some(refs for 0..=level)`,
turning it into a tree edge of every forest up to its level. -/
def makeTreeAt (st : St) (i : ℕ) : St :=
  { st with edge_info := updRec st.edge_info i fun r => { r with isTree := true } }

/-- Ids of live tree edges of level exactly `i` in the level-`i` component
of `small` (the candidates `find_level_i_tree_edge` can return). -/
def treeCands (st : St) (i small : ℕ) : List ℕ :=
  (List.range st.edge_info.length).filter fun f =>
    match st.edge_info.get? f with
    | some r => r.live && r.isTree && r.level == i &&
        connB (forestAt st i) st.n small r.e.1
    | none => false

/-- Ids of live extra edges of level `i` incident to vertex `a`
(the id set `u_level_to_extras[(a, i)]`). -/
def extrasOf (st : St) (i a : ℕ) : List ℕ :=
  (List.range st.edge_info.length).filter fun f =>
    match st.edge_info.get? f with
    | some r => r.live && !r.isTree && r.level == i && (r.e.1 == a || r.e.2 == a)
    | none => false

/-- Vertices of the level-`i` component of `small` owning a level-`i` extra
edge (the vertices `find_level_i_extra_edge` can return). -/
def vertCands (st : St) (i small : ℕ) : List ℕ :=
  (List.range st.n).filter fun a =>
    connB (forestAt st i) st.n small a && !(extrasOf st i a).isEmpty

/-- Smallest element of a list (`BTreeSet::first` on the id set). -/
def minId : List ℕ → ℕ
  | [] => 0
  | [x] => x
  | x :: y :: xs => min x (minId (y :: xs))

theorem minId_mem : ∀ {l : List ℕ}, l ≠ [] → minId l ∈ l := by
  intro l
  induction l with
  | nil => intro h; exact absurd rfl h
  | cons x xs ih =>
    intro _
    cases xs with
    | nil => simp [minId]
    | cons y ys =>
      rcases Nat.le_total x (minId (y :: ys)) with h | h
      · simp [minId, min_eq_left h]
      · rw [minId, min_eq_right h]
        exact List.mem_cons_of_mem x (ih (by simp))

/-- Number of live tree edges of level exactly `i`. -/
def countTreeAt (st : St) (i : ℕ) : ℕ :=
  (st.edge_info.filterMap fun r =>
    if r.live && r.isTree && r.level == i then some r.e else none).length

/-- Number of live extra edges of level exactly `i`. -/
def countExtraAt (st : St) (i : ℕ) : ℕ :=
  (st.edge_info.filterMap fun r =>
    if r.live && !r.isTree && r.level == i then some r.e else none).length

theorem mem_treeCands {st : St} {i small f : ℕ} (h : f ∈ treeCands st i small) :
    ∃ r, st.edge_info.get? f = some r ∧ r.live = true ∧ r.isTree = true ∧ r.level = i ∧
      connB (forestAt st i) st.n small r.e.1 = true := by
  rcases List.mem_filter.1 h with ⟨_, hc⟩
  cases hg : st.edge_info.get? f with
  | none => rw [hg] at hc; simp at hc
  | some r =>
    rw [hg] at hc
    simp only [Bool.and_eq_true, beq_iff_eq] at hc
    exact ⟨r, rfl, hc.1.1.1, hc.1.1.2, hc.1.2, hc.2⟩

theorem mem_extrasOf {st : St} {i a f : ℕ} (h : f ∈ extrasOf st i a) :
    ∃ r, st.edge_info.get? f = some r ∧ r.live = true ∧ r.isTree = false ∧ r.level = i ∧
      (r.e.1 = a ∨ r.e.2 = a) := by
  rcases List.mem_filter.1 h with ⟨_, hc⟩
  cases hg : st.edge_info.get? f with
  | none => rw [hg] at hc; simp at hc
  | some r =>
    rw [hg] at hc
    simp only [Bool.and_eq_true, Bool.or_eq_true, beq_iff_eq, Bool.not_eq_true'] at hc
    exact ⟨r, rfl, hc.1.1.1, hc.1.1.2, hc.1.2, hc.2⟩

theorem mem_vertCands {st : St} {i small a : ℕ} (h : a ∈ vertCands st i small) :
    a < st.n ∧ connB (forestAt st i) st.n small a = true ∧ extrasOf st i a ≠ [] := by
  rcases List.mem_filter.1 h with ⟨hr, hc⟩
  simp only [Bool.and_eq_true, Bool.not_eq_true'] at hc
  refine ⟨List.mem_range.1 hr, hc.1, ?_⟩
  intro hnil
  rw [hnil] at hc
  simp [List.isEmpty] at hc

theorem filterMap_updRec_length_lt {α β : Type} (g : α → Option β) (rs : List α) (i : ℕ)
    (f : α → α) (r : α) (hg : rs.get? i = some r) (hsome : (g r).isSome = true)
    (hnone : g (f r) = none) :
    ((updRec rs i f).filterMap g).length < (rs.filterMap g).length := by
  rcases filterMap_updRec g rs i f r hg with ⟨A, B, hA, hB⟩
  rcases Option.isSome_iff_exists.1 hsome with ⟨b, hb⟩
  rw [hA, hB, hb, hnone]
  simp

theorem countTreeAt_bump_lt {st : St} {i f : ℕ} {r : EdgeInfo}
    (hg : st.edge_info.get? f = some r) (h1 : r.live = true) (h2 : r.isTree = true)
    (h3 : r.level = i) : countTreeAt (bumpAt st f) i < countTreeAt st i := by
  refine filterMap_updRec_length_lt
    (fun r => if r.live && r.isTree && r.level == i then some r.e else none)
    st.edge_info f (fun r => { r with level := r.level + 1 }) r hg ?_ ?_
  · show (if (r.live && r.isTree && r.level == i) = true then some r.e else none).isSome = true
    rw [if_pos]
    · rfl
    · rw [h1, h2, h3]
      simp
  · refine if_neg ?_
    intro hcon
    rw [show ({ r with level := r.level + 1 } : EdgeInfo).live = r.live from rfl,
      show ({ r with level := r.level + 1 } : EdgeInfo).isTree = r.isTree from rfl,
      show ({ r with level := r.level + 1 } : EdgeInfo).level = r.level + 1 from rfl] at hcon
    simp only [Bool.and_eq_true, beq_iff_eq] at hcon
    omega

theorem countExtraAt_bump_lt {st : St} {i f : ℕ} {r : EdgeInfo}
    (hg : st.edge_info.get? f = some r) (h1 : r.live = true) (h2 : r.isTree = false)
    (h3 : r.level = i) : countExtraAt (bumpAt st f) i < countExtraAt st i := by
  refine filterMap_updRec_length_lt
    (fun r => if r.live && !r.isTree && r.level == i then some r.e else none)
    st.edge_info f (fun r => { r with level := r.level + 1 }) r hg ?_ ?_
  · show (if (r.live && !r.isTree && r.level == i) = true then some r.e else none).isSome = true
    rw [if_pos]
    · rfl
    · rw [h1, h2, h3]
      simp
  · refine if_neg ?_
    intro hcon
    rw [show ({ r with level := r.level + 1 } : EdgeInfo).live = r.live from rfl,
      show ({ r with level := r.level + 1 } : EdgeInfo).isTree = r.isTree from rfl,
      show ({ r with level := r.level + 1 } : EdgeInfo).level = r.level + 1 from rfl] at hcon
    simp only [Bool.and_eq_true, beq_iff_eq] at hcon
    omega

/-- Phase A of `remove_edge`: repeatedly promote a level-`i` tree edge of the
small component to level `i + 1`, until none remains. The stream `orc`
resolves which candidate the tour search finds. -/
def phaseA (orc : ℕ → ℕ) (i small : ℕ) (st : St) (k : ℕ) : St × ℕ :=
  if hc : (treeCands st i small).length = 0 then (st, k)
  else
    phaseA orc i small
      (bumpAt st ((treeCands st i small).get
        ⟨orc k % (treeCands st i small).length, Nat.mod_lt _ (Nat.pos_of_ne_zero hc)⟩))
      (k + 1)
termination_by countTreeAt st i
decreasing_by
  rcases mem_treeCands (List.get_mem (treeCands st i small) _ _) with ⟨r, hg, h1, h2, h3, _⟩
  exact countTreeAt_bump_lt hg h1 h2 h3

/-- Phase B of `remove_edge`: scan level-`i` extra edges incident to the small
component; a crossing edge becomes the replacement tree edge (stop), others
are promoted to level `i + 1`. The vertex is picked by the tour search
(`orc`); the edge id is the smallest in that vertex id set. -/
def phaseB (orc : ℕ → ℕ) (i small : ℕ) (st : St) (k : ℕ) : St × ℕ × Bool :=
  if hv : (vertCands st i small).length = 0 then (st, k, false)
  else
    match hg : st.edge_info.get? (minId (extrasOf st i
        ((vertCands st i small).get
          ⟨orc k % (vertCands st i small).length, Nat.mod_lt _ (Nat.pos_of_ne_zero hv)⟩))) with
    | none => (st, k + 1, false)
    | some r =>
      if connB (forestAt st i) st.n r.e.1 r.e.2 = true then
        phaseB orc i small (bumpAt st (minId (extrasOf st i
          ((vertCands st i small).get
            ⟨orc k % (vertCands st i small).length,
              Nat.mod_lt _ (Nat.pos_of_ne_zero hv)⟩)))) (k + 1)
      else
        (makeTreeAt st (minId (extrasOf st i
          ((vertCands st i small).get
            ⟨orc k % (vertCands st i small).length,
              Nat.mod_lt _ (Nat.pos_of_ne_zero hv)⟩))), k + 1, true)
termination_by countExtraAt st i
decreasing_by
  rcases mem_vertCands (List.get_mem (vertCands st i small) _ _) with ⟨_, _, hne⟩
  rcases mem_extrasOf (minId_mem hne) with ⟨r0, hg0, h1, h2, h3, _⟩
  rw [hg0] at hg
  cases hg
  exact countExtraAt_bump_lt hg0 h1 h2 h3

/-- The main loop of `remove_edge` over levels `l0, l0-1, …, 0` (first
argument is the number of levels still to process). -/
def levelLoop (orc : ℕ → ℕ) (sm : ℕ → ℕ) : ℕ → St → ℕ → St × ℕ × Bool
  | 0, st, k => (st, k, false)
  | i + 1, st, k =>
    match phaseB orc i (sm i) (phaseA orc i (sm i) st k).1 (phaseA orc i (sm i) st k).2 with
    | (st2, k2, true) => (st2, k2, true)
    | (st2, k2, false) => levelLoop orc sm i st2 k2

/-- The side kept as `small` per level: the strictly smaller component after
the disconnect, with ties resolved by the tour layout (`orc`). -/
def pickSmall (orc : ℕ → ℕ) (st : St) (u v lvl k : ℕ) : ℕ :=
  if (compOf (forestAt st lvl) st.n u).card < (compOf (forestAt st lvl) st.n v).card then u
  else if (compOf (forestAt st lvl) st.n v).card < (compOf (forestAt st lvl) st.n u).card then v
  else if orc k % 2 = 0 then u else v

/-- `D2CSolver::remove_edge`. -/
def removeEdge (orc : ℕ → ℕ) (st : St) (u v : ℕ) (k : ℕ) : St × ℕ × Bool :=
  match lookupId st.edge_info (norm u v) with
  | none => (st, k, false)
  | some eid =>
    match st.edge_info.get? eid with
    | none => (st, k, false)
    | some r =>
      if r.isTree = true then
        ((levelLoop orc
            (fun lvl => pickSmall orc (killAt st eid) (norm u v).1 (norm u v).2 lvl (k + lvl))
            (r.level + 1) (killAt st eid) (k + r.level + 1)).1,
          (levelLoop orc
            (fun lvl => pickSmall orc (killAt st eid) (norm u v).1 (norm u v).2 lvl (k + lvl))
            (r.level + 1) (killAt st eid) (k + r.level + 1)).2.1,
          true)
      else
        (killAt st eid, k, true)

/-- One user-facing mutation. -/
inductive Op where
  | add (u v : ℕ)
  | rem (u v : ℕ)
deriving DecidableEq

/-- `D2CSolver::new`: empty graph on `n` vertices. -/
def initSt (n : ℕ) : St := ⟨n, []⟩

/-- Run a sequence of operations, threading the choice stream counter. -/
def runOps (orc : ℕ → ℕ) : List Op → St → ℕ → St × ℕ
  | [], st, k => (st, k)
  | Op.add u v :: ops, st, k => runOps orc ops (addEdge st u v).1 k
  | Op.rem u v :: ops, st, k =>
    runOps orc ops (removeEdge orc st u v k).1 (removeEdge orc st u v k).2.1

/-- The booleans returned by each operation. -/
def runOuts (orc : ℕ → ℕ) : List Op → St → ℕ → List Bool
  | [], _, _ => []
  | Op.add u v :: ops, st, k => (addEdge st u v).2 :: runOuts orc ops (addEdge st u v).1 k
  | Op.rem u v :: ops, st, k =>
    (removeEdge orc st u v k).2.2 ::
      runOuts orc ops (removeEdge orc st u v k).1 (removeEdge orc st u v k).2.1

/-- Naive reference semantics: the multiset of present edges. -/
def naiveStep (es : List Edge) : Op → List Edge
  | Op.add u v => if (norm u v).1 = (norm u v).2 ∨ norm u v ∈ es then es else es ++ [norm u v]
  | Op.rem u v => eraseE es (norm u v)

def naiveAcc (es : List Edge) : List Op → List Edge
  | [] => es
  | op :: ops => naiveAcc (naiveStep es op) ops

/-- The reference edge list after a whole history. -/
def naiveRun (ops : List Op) : List Edge := naiveAcc [] ops

/-- The booleans a naive reference implementation returns. -/
def naiveOut (es : List Edge) : Op → Bool
  | Op.add u v => !decide ((norm u v).1 = (norm u v).2 ∨ norm u v ∈ es)
  | Op.rem u v => decide (norm u v ∈ es)

def naiveOuts (es : List Edge) : List Op → List Bool
  | [] => []
  | op :: ops => naiveOut es op :: naiveOuts (naiveStep es op) ops

/-- `D2CSolver::is_connected`: connectivity in the level-0 forest. -/
def isConnQ (st : St) (u v : ℕ) : Bool := connB (forestAt st 0) st.n u v

/-- `D2CSolver::is_in_1core`: `ett[0].tree_size(u) > 1`. -/
def in1core (st : St) (u : ℕ) : Bool := decide (1 < (compOf (forestAt st 0) st.n u).card)


theorem bool_false_of_not_true {b : Bool} (h : ¬ b = true) : b = false := by
  cases b
  · rfl
  · exact absurd rfl h

theorem norm_lt {u v : ℕ} (h : u ≠ v) : (norm u v).1 < (norm u v).2 := by
  rw [norm]
  split_ifs with hgt
  · simpa using hgt
  · simp only []
    omega

theorem norm_bound {u v n : ℕ} (hu : u < n) (hv : v < n) :
    (norm u v).1 < n ∧ (norm u v).2 < n := by
  rw [norm]
  split_ifs <;> exact ⟨by omega, by omega⟩

theorem filterMap_append_singleton {α β : Type} (g : α → Option β) (rs : List α) (a : α) :
    (rs ++ [a]).filterMap g = rs.filterMap g ++ (g a).toList := by
  rw [List.filterMap_append]
  cases h : g a <;> simp [h]

theorem filterMap_updRec_eq {α β : Type} (g : α → Option β) (rs : List α) (i : ℕ)
    (f : α → α) (r : α) (hg : rs.get? i = some r) (heq : g (f r) = g r) :
    (updRec rs i f).filterMap g = rs.filterMap g := by
  rcases filterMap_updRec g rs i f r hg with ⟨A, B, hA, hB⟩
  rw [hB, heq, ← hA]

/-- The solver invariant: live edges are normalized and in range, live pairs
are distinct, every level forest is acyclic, and every live extra edge has
its endpoints connected in the forest of its own level. -/
structure Inv (st : St) : Prop where
  wf : ∀ r ∈ st.edge_info, r.live = true → r.e.1 < r.e.2 ∧ r.e.2 < st.n
  nd : (liveEdges st).Nodup
  forest : ∀ j, IsForest (forestAt st j)
  span : ∀ r ∈ st.edge_info, r.live = true → r.isTree = false →
    Conn (forestAt st r.level) r.e.1 r.e.2

theorem liveEdges_wf {st : St} (hi : Inv st) :
    ∀ e ∈ liveEdges st, e.1 < st.n ∧ e.2 < st.n := by
  intro e he
  rcases mem_liveEdges.1 he with ⟨r, hr, hl, rfl⟩
  have := hi.wf r hr hl
  omega

theorem forestAt_wf {st : St} (hi : Inv st) (j : ℕ) :
    ∀ e ∈ forestAt st j, e.1 < st.n ∧ e.2 < st.n :=
  fun e he => liveEdges_wf hi e ((forestAt_sublist_live st j).mem he)

/-- I5 of the spec: connectivity in forest 0 coincides with connectivity in
the full current graph. -/
theorem conn_forest0_iff {st : St} (hi : Inv st) {a b : ℕ} :
    Conn (forestAt st 0) a b ↔ Conn (liveEdges st) a b := by
  constructor
  · exact conn_mono fun e he => (forestAt_sublist_live st 0).mem he
  · intro h
    induction h with
    | refl => exact Conn.refl _
    | tail hab hbc ih =>
      rename_i c cc
      refine ih.trans ?_
      have hrec : ∃ r ∈ st.edge_info, r.live = true ∧ (r.e = (c, cc) ∨ r.e = (cc, c)) := by
        rcases hbc with h | h
        · rcases mem_liveEdges.1 h with ⟨r, hr, hl, he⟩
          exact ⟨r, hr, hl, Or.inl he⟩
        · rcases mem_liveEdges.1 h with ⟨r, hr, hl, he⟩
          exact ⟨r, hr, hl, Or.inr he⟩
      rcases hrec with ⟨r, hr, hl, hor⟩
      by_cases ht : r.isTree = true
      · have hmem : r.e ∈ forestAt st 0 :=
          mem_forestAt.2 ⟨r, hr, hl, ht, Nat.zero_le _, rfl⟩
        rcases hor with he | he
        · exact Conn.of_adj (Or.inl (he ▸ hmem))
        · exact Conn.of_adj (Or.inr (he ▸ hmem))
      · have hsp : Conn (forestAt st r.level) r.e.1 r.e.2 :=
          hi.span r hr hl (bool_false_of_not_true ht)
        have hsp0 : Conn (forestAt st 0) r.e.1 r.e.2 :=
          conn_mono (fun e he => (forestAt_mono st (Nat.zero_le _)).mem he) hsp
        rcases hor with he | he
        · rw [he] at hsp0
          exact hsp0
        · rw [he] at hsp0
          exact hsp0.symm

theorem addEdge_n (st : St) (u v : ℕ) : (addEdge st u v).1.n = st.n := by
  rw [addEdge]
  split_ifs <;> rfl

/-- `add_edge` preserves the invariant and tracks the naive edge list. -/
theorem addEdge_inv {st : St} (hi : Inv st) {u v : ℕ} (hu : u < st.n) (hv : v < st.n) :
    Inv (addEdge st u v).1 ∧
      liveEdges (addEdge st u v).1 = naiveStep (liveEdges st) (Op.add u v) := by
  have hcond : ((norm u v).1 = (norm u v).2 ∨ hasEdge st (norm u v) = true) ↔
      ((norm u v).1 = (norm u v).2 ∨ norm u v ∈ liveEdges st) := by
    rw [hasEdge_iff]
  by_cases h1 : (norm u v).1 = (norm u v).2 ∨ hasEdge st (norm u v) = true
  · rw [addEdge, if_pos h1, naiveStep, if_pos (hcond.1 h1)]
    exact ⟨hi, rfl⟩
  · rw [addEdge, if_neg h1, naiveStep, if_neg (fun h => h1 (hcond.2 h))]
    have hne : (norm u v).1 ≠ (norm u v).2 := fun h => h1 (Or.inl h)
    have hnm : norm u v ∉ liveEdges st := fun h => h1 (Or.inr (hasEdge_iff.2 h))
    have huv : u ≠ v := by
      intro h
      refine hne ?_
      rw [h, norm, if_neg (by omega)]
    have hlt : (norm u v).1 < (norm u v).2 := norm_lt huv
    have hbnd := norm_bound hu hv
    set rec : EdgeInfo :=
      ⟨norm u v, 0, !connB (forestAt st 0) st.n (norm u v).1 (norm u v).2, true⟩ with hrec
    have hlive : liveEdges { st with edge_info := st.edge_info ++ [rec] } =
        liveEdges st ++ [norm u v] := by
      show (st.edge_info ++ [rec]).filterMap _ = _
      rw [filterMap_append_singleton]
      rfl
    have hforest : ∀ j, forestAt { st with edge_info := st.edge_info ++ [rec] } j =
        forestAt st j ++
          (if rec.live && rec.isTree && decide (j ≤ rec.level) then [rec.e] else []) := by
      intro j
      show (st.edge_info ++ [rec]).filterMap _ = _
      rw [filterMap_append_singleton]
      by_cases hc : rec.live && rec.isTree && decide (j ≤ rec.level)
      · rw [if_pos hc, if_pos hc]
        rfl
      · rw [if_neg hc, if_neg hc]
        rfl
    refine ⟨⟨?_, ?_, ?_, ?_⟩, ?_⟩
    · intro r hr hl
      rcases List.mem_append.1 hr with hr | hr
      · exact hi.wf r hr hl
      · rcases List.mem_singleton.1 hr with rfl
        exact ⟨hlt, hbnd.2⟩
    · show (liveEdges { st with edge_info := st.edge_info ++ [rec] }).Nodup
      rw [hlive]
      refine List.Nodup.append hi.nd (by simp) ?_
      intro a ha hb
      rw [List.mem_singleton] at hb
      exact hnm (hb ▸ ha)
    · intro j
      rw [hforest j]
      by_cases hc : rec.live && rec.isTree && decide (j ≤ rec.level)
      · rw [if_pos hc]
        have hj0 : j = 0 := by
          simp only [Bool.and_eq_true, decide_eq_true_eq] at hc
          have h5 : rec.level = 0 := rfl
          have h6 := hc.2
          omega
        subst hj0
        have htree : rec.isTree = true := by
          simp only [Bool.and_eq_true] at hc
          exact hc.1.2
        have hnc : ¬ Conn (forestAt st 0) (norm u v).1 (norm u v).2 := by
          intro hcon
          have hcb : connB (forestAt st 0) st.n (norm u v).1 (norm u v).2 = true :=
            (connB_iff (forestAt_wf hi 0) hbnd.1).2 hcon
          have h7 : rec.isTree =
              (!connB (forestAt st 0) st.n (norm u v).1 (norm u v).2) := rfl
          rw [htree, hcb] at h7
          simp at h7
        exact isForest_perm (List.perm_append_singleton _ _).symm
          (isForest_cons (hi.forest 0) hnc)
      · rw [if_neg hc]
        simpa using hi.forest j
    · intro r hr hl hx
      rcases List.mem_append.1 hr with hr | hr
      · have hsp := hi.span r hr hl hx
        refine conn_mono ?_ hsp
        intro e he
        rw [hforest r.level]
        exact List.mem_append_left _ he
      · rcases List.mem_singleton.1 hr with rfl
        have hcb : connB (forestAt st 0) st.n (norm u v).1 (norm u v).2 = true := by
          have h8 : rec.isTree =
              (!connB (forestAt st 0) st.n (norm u v).1 (norm u v).2) := rfl
          rw [hx] at h8
          cases hcx : connB (forestAt st 0) st.n (norm u v).1 (norm u v).2
          · rw [hcx] at h8
            simp at h8
          · rfl
        have hcn := (connB_iff (forestAt_wf hi 0) hbnd.1).1 hcb
        refine conn_mono ?_ hcn
        intro e he
        have hlv : rec.level = 0 := rfl
        rw [hlv, hforest 0]
        exact List.mem_append_left _ he
    · rw [hlive]


theorem filterMap_updRec2 {α β : Type} (g : α → Option β) (rs : List α) (i : ℕ) (f : α → α)
    (r : α) (hg : rs.get? i = some r) :
    rs.filterMap g =
        (rs.take i).filterMap g ++ (g r).toList ++ (rs.drop (i + 1)).filterMap g ∧
      (updRec rs i f).filterMap g =
        (rs.take i).filterMap g ++ (g (f r)).toList ++ (rs.drop (i + 1)).filterMap g := by
  induction rs generalizing i with
  | nil => simp at hg
  | cons r0 rs ih =>
    cases i with
    | zero =>
      have : r0 = r := by simpa using hg
      subst this
      exact ⟨by simp [filterMap_cons_toList], by simp [updRec, filterMap_cons_toList]⟩
    | succ i =>
      rcases ih i (by simpa using hg) with ⟨h1, h2⟩
      constructor
      · rw [show (r0 :: rs).take (i + 1) = r0 :: rs.take i from rfl,
          show (r0 :: rs).drop (i + 2) = rs.drop (i + 1) from rfl,
          filterMap_cons_toList, filterMap_cons_toList, h1]
        simp [List.append_assoc]
      · rw [show updRec (r0 :: rs) (i + 1) f = r0 :: updRec rs i f from rfl,
          show (r0 :: rs).take (i + 1) = r0 :: rs.take i from rfl,
          show (r0 :: rs).drop (i + 2) = rs.drop (i + 1) from rfl,
          filterMap_cons_toList, filterMap_cons_toList, h2]
        simp [List.append_assoc]

/-- Updating an index whose image drops out of the `filterMap`. -/
theorem filterMap_updRec_decomp {α β : Type} (g : α → Option β) (rs : List α) (i : ℕ)
    (f : α → α) (r : α) (hg : rs.get? i = some r) (b : β)
    (hb : g r = some b) (hn : g (f r) = none) :
    rs.filterMap g = (rs.take i).filterMap g ++ b :: (rs.drop (i + 1)).filterMap g ∧
      (updRec rs i f).filterMap g =
        (rs.take i).filterMap g ++ (rs.drop (i + 1)).filterMap g := by
  rcases filterMap_updRec2 g rs i f r hg with ⟨h1, h2⟩
  rw [hb] at h1
  rw [hn] at h2
  constructor
  · rw [h1]
    simp
  · rw [h2]
    simp

/-- Updating an index whose image enters the `filterMap`. -/
theorem filterMap_updRec_grow {α β : Type} (g : α → Option β) (rs : List α) (i : ℕ)
    (f : α → α) (r : α) (hg : rs.get? i = some r) (b : β)
    (hb : g r = none) (hn : g (f r) = some b) :
    rs.filterMap g = (rs.take i).filterMap g ++ (rs.drop (i + 1)).filterMap g ∧
      (updRec rs i f).filterMap g =
        (rs.take i).filterMap g ++ b :: (rs.drop (i + 1)).filterMap g := by
  rcases filterMap_updRec2 g rs i f r hg with ⟨h1, h2⟩
  rw [hb] at h1
  rw [hn] at h2
  constructor
  · rw [h1]
    simp
  · rw [h2]
    simp

theorem sublist_skip_middle {α : Type} (A B : List α) (e : α) :
    (A ++ B).Sublist (A ++ e :: B) := by
  induction A with
  | nil => exact List.sublist_cons_self e B
  | cons a A ih => exact List.Sublist.cons₂ a ih

theorem not_mem_of_nodup_middle {α : Type} {A B : List α} {e : α}
    (h : (A ++ e :: B).Nodup) : e ∉ A ∧ e ∉ B := by
  rw [List.nodup_middle] at h
  rcases List.nodup_cons.1 h with ⟨hna, _⟩
  constructor <;> intro hm <;> exact hna (by simp [hm])

/-- Live edges contributed by records before index `i`. -/
def liveTake (st : St) (i : ℕ) : List Edge :=
  (st.edge_info.take i).filterMap fun r => if r.live then some r.e else none

/-- Live edges contributed by records after index `i`. -/
def liveDrop (st : St) (i : ℕ) : List Edge :=
  (st.edge_info.drop (i + 1)).filterMap fun r => if r.live then some r.e else none

/-- Level-`j` forest edges contributed by records before index `i`. -/
def forestTake (st : St) (j i : ℕ) : List Edge :=
  (st.edge_info.take i).filterMap fun r =>
    if r.live && r.isTree && decide (j ≤ r.level) then some r.e else none

/-- Level-`j` forest edges contributed by records after index `i`. -/
def forestDrop (st : St) (j i : ℕ) : List Edge :=
  (st.edge_info.drop (i + 1)).filterMap fun r =>
    if r.live && r.isTree && decide (j ≤ r.level) then some r.e else none

theorem liveEdges_killAt {st : St} {eid : ℕ} {r0 : EdgeInfo}
    (hg : st.edge_info.get? eid = some r0) (hl : r0.live = true) :
    liveEdges st = liveTake st eid ++ r0.e :: liveDrop st eid ∧
      liveEdges (killAt st eid) = liveTake st eid ++ liveDrop st eid :=
  filterMap_updRec_decomp _ _ _ _ r0 hg r0.e (by simp [hl]) (by simp)

theorem forestAt_killAt_low {st : St} {eid : ℕ} {r0 : EdgeInfo} {j : ℕ}
    (hg : st.edge_info.get? eid = some r0) (hl : r0.live = true) (ht : r0.isTree = true)
    (hj : j ≤ r0.level) :
    forestAt st j = forestTake st j eid ++ r0.e :: forestDrop st j eid ∧
      forestAt (killAt st eid) j = forestTake st j eid ++ forestDrop st j eid :=
  filterMap_updRec_decomp _ _ _ _ r0 hg r0.e (by simp [hl, ht, hj]) (by simp)

theorem forestAt_killAt_high {st : St} {eid : ℕ} {r0 : EdgeInfo} {j : ℕ}
    (hg : st.edge_info.get? eid = some r0) (hj : r0.level < j) :
    forestAt (killAt st eid) j = forestAt st j :=
  filterMap_updRec_eq _ _ _ _ r0 hg
    (by have h5 : ¬ j ≤ r0.level := by omega
        simp [h5])

theorem liveEdges_bumpAt {st : St} {f : ℕ} {r : EdgeInfo}
    (hg : st.edge_info.get? f = some r) :
    liveEdges (bumpAt st f) = liveEdges st :=
  filterMap_updRec_eq _ _ _ _ r hg (by simp)

theorem forestAt_bumpAt_low {st : St} {f : ℕ} {r : EdgeInfo} {j : ℕ}
    (hg : st.edge_info.get? f = some r) (hj : j ≤ r.level) :
    forestAt (bumpAt st f) j = forestAt st j :=
  filterMap_updRec_eq _ _ _ _ r hg
    (by have h5 : j ≤ r.level + 1 := by omega
        simp [hj, h5])

theorem forestAt_bumpAt_at {st : St} {f : ℕ} {r : EdgeInfo} {j : ℕ}
    (hg : st.edge_info.get? f = some r) (hl : r.live = true) (ht : r.isTree = true)
    (hj : j = r.level + 1) :
    forestAt st j = forestTake st j f ++ forestDrop st j f ∧
      forestAt (bumpAt st f) j = forestTake st j f ++ r.e :: forestDrop st j f :=
  filterMap_updRec_grow _ _ _ _ r hg r.e
    (by have h5 : ¬ j ≤ r.level := by omega
        simp [h5])
    (by have h5 : j ≤ r.level + 1 := by omega
        simp [hl, ht, h5])

theorem forestAt_bumpAt_high {st : St} {f : ℕ} {r : EdgeInfo} {j : ℕ}
    (hg : st.edge_info.get? f = some r) (hj : r.level + 1 < j) :
    forestAt (bumpAt st f) j = forestAt st j :=
  filterMap_updRec_eq _ _ _ _ r hg
    (by have h5 : ¬ j ≤ r.level := by omega
        have h6 : ¬ j ≤ r.level + 1 := by omega
        simp [h5, h6])

theorem forestAt_bumpAt_extra {st : St} {f : ℕ} {r : EdgeInfo}
    (hg : st.edge_info.get? f = some r) (ht : r.isTree = false) (j : ℕ) :
    forestAt (bumpAt st f) j = forestAt st j :=
  filterMap_updRec_eq _ _ _ _ r hg (by simp [ht])

theorem liveEdges_makeTreeAt {st : St} {f : ℕ} {r : EdgeInfo}
    (hg : st.edge_info.get? f = some r) :
    liveEdges (makeTreeAt st f) = liveEdges st :=
  filterMap_updRec_eq _ _ _ _ r hg (by simp)

theorem forestAt_makeTreeAt_low {st : St} {f : ℕ} {r : EdgeInfo} {j : ℕ}
    (hg : st.edge_info.get? f = some r) (hl : r.live = true) (ht : r.isTree = false)
    (hj : j ≤ r.level) :
    forestAt st j = forestTake st j f ++ forestDrop st j f ∧
      forestAt (makeTreeAt st f) j = forestTake st j f ++ r.e :: forestDrop st j f :=
  filterMap_updRec_grow _ _ _ _ r hg r.e (by simp [ht]) (by simp [hl, hj])

theorem forestAt_makeTreeAt_high {st : St} {f : ℕ} {r : EdgeInfo} {j : ℕ}
    (hg : st.edge_info.get? f = some r) (hj : r.level < j) :
    forestAt (makeTreeAt st f) j = forestAt st j :=
  filterMap_updRec_eq _ _ _ _ r hg
    (by have h5 : ¬ j ≤ r.level := by omega
        simp [h5])

/-- Working invariant while `remove_edge` processes levels from the top down.
`t` is the number of levels still to process: forests below `t` are still the
raw cut forests of `base` (the state right after the tree edge `uv` was
deleted), extra edges of level `≥ t` already span at their own level, and
extra edges of lower levels span once the deleted edge `uv` is put back. -/
structure WInv (n : ℕ) (uv : Edge) (t : ℕ) (base s : St) : Prop where
  hn : s.n = n
  wf : ∀ r ∈ s.edge_info, r.live = true → r.e.1 < r.e.2 ∧ r.e.2 < n
  nd : (liveEdges s).Nodup
  live_eq : liveEdges s = liveEdges base
  forest : ∀ j, IsForest (forestAt s j)
  low_eq : ∀ j < t, forestAt s j = forestAt base j
  span_hi : ∀ r ∈ s.edge_info, r.live = true → r.isTree = false → t ≤ r.level →
    Conn (forestAt s r.level) r.e.1 r.e.2
  span_lo : ∀ r ∈ s.edge_info, r.live = true → r.isTree = false → r.level < t →
    Conn (uv :: forestAt s r.level) r.e.1 r.e.2

theorem pickSmall_cases (orc : ℕ → ℕ) (st : St) (u v lvl k : ℕ) :
    pickSmall orc st u v lvl k = u ∨ pickSmall orc st u v lvl k = v := by
  rw [pickSmall]
  split_ifs <;> simp

/-- Deleting the tree edge establishes the working invariant at `t = l0 + 1`,
cuts its endpoints apart in every forest up to `l0`, and erases one live
edge. -/
theorem kill_tree_start {st : St} (hi : Inv st) {eid : ℕ} {r0 : EdgeInfo}
    (hg : st.edge_info.get? eid = some r0) (hl : r0.live = true) (ht : r0.isTree = true) :
    WInv st.n r0.e (r0.level + 1) (killAt st eid) (killAt st eid) ∧
      (∀ j, j ≤ r0.level → ¬ Conn (forestAt (killAt st eid) j) r0.e.1 r0.e.2) ∧
      liveEdges (killAt st eid) = eraseE (liveEdges st) r0.e := by
  rcases liveEdges_killAt hg hl with ⟨hldA, hldB⟩
  have hnd0 : (liveTake st eid ++ r0.e :: liveDrop st eid).Nodup := hldA ▸ hi.nd
  have hnm := not_mem_of_nodup_middle hnd0
  have hcut : ∀ j, j ≤ r0.level →
      ¬ Conn (forestAt (killAt st eid) j) r0.e.1 r0.e.2 := by
    intro j hj
    rcases forestAt_killAt_low hg hl ht hj with ⟨h1, h2⟩
    have hmem : r0.e ∈ forestAt st j := by
      rw [h1]
      simp
    have hndf : (forestAt st j).Nodup := (forestAt_sublist_live st j).nodup hi.nd
    have hnmf : r0.e ∉ forestTake st j eid := by
      rw [h1] at hndf
      exact (not_mem_of_nodup_middle hndf).1
    have her : eraseE (forestAt st j) r0.e = forestAt (killAt st eid) j := by
      rw [h1, h2, eraseE_append hnmf]
    rw [← her]
    exact hi.forest j r0.e hmem
  refine ⟨⟨rfl, ?_, ?_, rfl, ?_, fun j _ => rfl, ?_, ?_⟩, hcut, ?_⟩
  · intro r hr hlr
    rcases mem_updRec hr with hr | ⟨r1, hr1, rfl⟩
    · exact hi.wf r hr hlr
    · simp at hlr
  · rw [hldB]
    exact (sublist_skip_middle _ _ r0.e).nodup hnd0
  · intro j
    rcases le_or_lt j r0.level with hj | hj
    · rcases forestAt_killAt_low hg hl ht hj with ⟨h1, h2⟩
      refine isForest_sublist (hi.forest j) ?_
      rw [h1, h2]
      exact sublist_skip_middle _ _ _
    · rw [forestAt_killAt_high hg hj]
      exact hi.forest j
  · intro r hr hlr hxr htl
    rcases mem_updRec hr with hr | ⟨r1, hr1, rfl⟩
    · have hsp := hi.span r hr hlr hxr
      rw [@forestAt_killAt_high st eid r0 r.level hg (by omega)]
      exact hsp
    · simp at hlr
  · intro r hr hlr hxr htl
    rcases mem_updRec hr with hr | ⟨r1, hr1, rfl⟩
    · have hsp := hi.span r hr hlr hxr
      rcases @forestAt_killAt_low st eid r0 r.level hg hl ht (by omega) with ⟨h1, h2⟩
      refine (conn_perm ?_).1 hsp
      rw [h1, h2]
      exact List.perm_middle
    · simp at hlr
  · rw [hldB, hldA, eraseE_append hnm.1]


theorem filterMap_decomp {α β : Type} (g : α → Option β) (rs : List α) (i : ℕ) (r : α)
    (hg : rs.get? i = some r) (b : β) (hb : g r = some b) :
    rs.filterMap g = (rs.take i).filterMap g ++ b :: (rs.drop (i + 1)).filterMap g := by
  have h := (filterMap_updRec2 g rs i id r hg).1
  rw [hb] at h
  simpa using h

theorem forestAt_decomp {st : St} {f : ℕ} {r : EdgeInfo} {j : ℕ}
    (hg : st.edge_info.get? f = some r) (hl : r.live = true) (ht : r.isTree = true)
    (hj : j ≤ r.level) :
    forestAt st j = forestTake st j f ++ r.e :: forestDrop st j f :=
  filterMap_decomp _ _ _ r hg r.e (by simp [hl, ht, hj])

theorem forestTake_mono {st : St} {f : ℕ} {j j' : ℕ} (hj : j ≤ j') :
    (forestTake st j' f).Sublist (forestTake st j f) := by
  refine filterMap_sublist_mono _ _ ?_ _
  intro a b h
  by_cases ha : a.live && a.isTree && decide (j' ≤ a.level)
  · rw [if_pos ha] at h
    simp only [Bool.and_eq_true, decide_eq_true_eq] at ha
    rw [if_pos (by simp only [Bool.and_eq_true, decide_eq_true_eq]; exact ⟨ha.1, by omega⟩)]
    exact h
  · rw [if_neg ha] at h
    exact absurd h (by simp)

theorem forestDrop_mono {st : St} {f : ℕ} {j j' : ℕ} (hj : j ≤ j') :
    (forestDrop st j' f).Sublist (forestDrop st j f) := by
  refine filterMap_sublist_mono _ _ ?_ _
  intro a b h
  by_cases ha : a.live && a.isTree && decide (j' ≤ a.level)
  · rw [if_pos ha] at h
    simp only [Bool.and_eq_true, decide_eq_true_eq] at ha
    rw [if_pos (by simp only [Bool.and_eq_true, decide_eq_true_eq]; exact ⟨ha.1, by omega⟩)]
    exact h
  · rw [if_neg ha] at h
    exact absurd h (by simp)

theorem mem_updRec_strong {α : Type} {rs : List α} {i : ℕ} {f : α → α} {x : α} (r : α)
    (hg : rs.get? i = some r) (hx : x ∈ updRec rs i f) : x ∈ rs ∨ x = f r := by
  rcases List.mem_iff_get?.1 hx with ⟨p, hp⟩
  by_cases hpi : p = i
  · subst hpi
    rw [get?_updRec_self rs p f r hg] at hp
    exact Or.inr (Option.some_inj.1 hp).symm
  · rw [get?_updRec_ne rs i p f (fun h => hpi h.symm)] at hp
    exact Or.inl (List.get?_mem hp)

/-- Phase A step preserves the working invariant: promoting a level-`i` tree
edge to level `i + 1` keeps every forest a forest (the nested-forests
argument) and changes no forest below `i + 1`. -/
theorem winv_bump_tree {n : ℕ} {uv : Edge} {i : ℕ} {base s : St}
    (hw : WInv n uv (i + 1) base s) {f : ℕ} {r : EdgeInfo}
    (hg : s.edge_info.get? f = some r) (hl : r.live = true) (ht : r.isTree = true)
    (hlev : r.level = i) :
    WInv n uv (i + 1) base (bumpAt s f) := by
  have hle : liveEdges (bumpAt s f) = liveEdges s := liveEdges_bumpAt hg
  refine ⟨hw.hn, ?_, ?_, ?_, ?_, ?_, ?_, ?_⟩
  · intro x hx hlx
    rcases mem_updRec_strong r hg hx with hxo | rfl
    · exact hw.wf x hxo hlx
    · exact hw.wf r (List.get?_mem hg) hl
  · rw [hle]
    exact hw.nd
  · rw [hle]
    exact hw.live_eq
  · intro j
    rcases le_or_lt j i with hj | hj
    · rw [@forestAt_bumpAt_low s f r j hg (by omega)]
      exact hw.forest j
    · rcases Nat.eq_or_lt_of_le hj with hj1 | hj1
      · -- j = i + 1: the forest gains the promoted edge
        rcases @forestAt_bumpAt_at s f r j hg hl ht (by omega) with ⟨h1, h2⟩
        rw [h2]
        refine isForest_perm List.perm_middle.symm ?_
        have hdi : forestAt s i = forestTake s i f ++ r.e :: forestDrop s i f :=
          forestAt_decomp hg hl ht (by omega)
        have hndi : (forestAt s i).Nodup := (forestAt_sublist_live s i).nodup hw.nd
        have hnmi : r.e ∉ forestTake s i f := by
          rw [hdi] at hndi
          exact (not_mem_of_nodup_middle hndi).1
        have her : eraseE (forestAt s i) r.e = forestTake s i f ++ forestDrop s i f := by
          rw [hdi, eraseE_append hnmi]
        refine isForest_cons (by rw [← h1]; exact hw.forest j) ?_
        intro hcon
        refine hw.forest i r.e (by rw [hdi]; simp) ?_
        rw [her]
        refine conn_mono ?_ hcon
        intro e he
        rcases List.mem_append.1 he with he | he
        · exact List.mem_append_left _ ((forestTake_mono (by omega)).mem he)
        · exact List.mem_append_right _ ((forestDrop_mono (by omega)).mem he)
      · rw [@forestAt_bumpAt_high s f r j hg (by omega)]
        exact hw.forest j
  · intro j hjt
    rw [@forestAt_bumpAt_low s f r j hg (by omega)]
    exact hw.low_eq j hjt
  · intro x hx hlx hxx htlx
    rcases mem_updRec_strong r hg hx with hxo | rfl
    · have hsp := hw.span_hi x hxo hlx hxx htlx
      rcases Nat.eq_or_lt_of_le htlx with hj1 | hj1
      · rcases @forestAt_bumpAt_at s f r x.level hg hl ht (by omega) with ⟨h1, h2⟩
        rw [h2]
        rw [h1] at hsp
        exact conn_mono (fun e he => (sublist_skip_middle _ _ _).mem he) hsp
      · rw [@forestAt_bumpAt_high s f r x.level hg (by omega)]
        exact hsp
    · rw [show ({ r with level := r.level + 1 } : EdgeInfo).isTree = r.isTree from rfl,
        ht] at hxx
      exact absurd hxx (by simp)
  · intro x hx hlx hxx htlx
    rcases mem_updRec_strong r hg hx with hxo | rfl
    · have hsp := hw.span_lo x hxo hlx hxx htlx
      rw [@forestAt_bumpAt_low s f r x.level hg (by omega)]
      exact hsp
    · rw [show ({ r with level := r.level + 1 } : EdgeInfo).isTree = r.isTree from rfl,
        ht] at hxx
      exact absurd hxx (by simp)

/-- Once no level-`i` tree edge of the small component remains, every
level-`i` forest path inside that component lifts to level `i + 1`. -/
theorem lift_path {s : St} {i small : ℕ}
    (hwf : ∀ e ∈ forestAt s i, e.1 < s.n ∧ e.2 < s.n) (hsm : small < s.n)
    (hcands : treeCands s i small = []) {x y : ℕ}
    (hxy : Conn (forestAt s i) x y) (hsx : Conn (forestAt s i) small x) :
    Conn (forestAt s (i + 1)) x y := by
  induction hxy with
  | refl => exact Conn.refl _
  | tail hab hbc ih =>
    rename_i c cc
    refine ih.trans ?_
    have hsc : Conn (forestAt s i) small c := hsx.trans hab
    have key : ∀ r : EdgeInfo, r ∈ s.edge_info → r.live = true → r.isTree = true →
        i ≤ r.level → Conn (forestAt s i) small r.e.1 → i + 1 ≤ r.level := by
      intro r hr hlr htr hjr hcr
      by_cases hli : r.level = i
      · exfalso
        rcases List.mem_iff_get?.1 hr with ⟨p, hp⟩
        rcases List.get?_eq_some.1 hp with ⟨hplen, _⟩
        have hpc : p ∈ treeCands s i small := by
          refine List.mem_filter.2 ⟨List.mem_range.2 hplen, ?_⟩
          rw [hp]
          have hc1 : connB (forestAt s i) s.n small r.e.1 = true :=
            (connB_iff hwf hsm).2 hcr
          simp [hlr, htr, hli, hc1]
        rw [hcands] at hpc
        simp at hpc
      · omega
    rcases hbc with hm | hm
    · rcases mem_forestAt.1 hm with ⟨r, hr, hlr, htr, hjr, her⟩
      have hcr : Conn (forestAt s i) small r.e.1 := by
        rw [her]
        exact hsc
      have hup := key r hr hlr htr hjr hcr
      have hmem : r.e ∈ forestAt s (i + 1) := mem_forestAt.2 ⟨r, hr, hlr, htr, hup, rfl⟩
      exact Conn.of_adj (Or.inl (her ▸ hmem))
    · rcases mem_forestAt.1 hm with ⟨r, hr, hlr, htr, hjr, her⟩
      have hcr : Conn (forestAt s i) small r.e.1 := by
        rw [her]
        exact hsc.trans (Conn.of_adj (Or.inr hm))
      have hup := key r hr hlr htr hjr hcr
      have hmem : r.e ∈ forestAt s (i + 1) := mem_forestAt.2 ⟨r, hr, hlr, htr, hup, rfl⟩
      exact Conn.of_adj (Or.inr (her ▸ hmem))

/-- Phase A terminates with the working invariant intact and no remaining
level-`i` tree candidates. -/
theorem phaseA_spec (orc : ℕ → ℕ) (i small : ℕ) {n : ℕ} {uv : Edge} {base : St} :
    ∀ m s k, countTreeAt s i = m → WInv n uv (i + 1) base s →
      WInv n uv (i + 1) base (phaseA orc i small s k).1 ∧
        treeCands (phaseA orc i small s k).1 i small = [] ∧
        (phaseA orc i small s k).1.n = s.n := by
  intro m
  induction m using Nat.strong_induction_on with
  | _ m ih =>
    intro s k hm hw
    rw [phaseA]
    by_cases hc : (treeCands s i small).length = 0
    · rw [dif_pos hc]
      exact ⟨hw, List.length_eq_zero.1 hc, rfl⟩
    · rw [dif_neg hc]
      have hmem : (treeCands s i small).get
          ⟨orc k % (treeCands s i small).length, Nat.mod_lt _ (Nat.pos_of_ne_zero hc)⟩ ∈
            treeCands s i small := List.get_mem _ _ _
      rcases mem_treeCands hmem with ⟨r, hg, h1, h2, h3, _⟩
      have hlt := countTreeAt_bump_lt hg h1 h2 h3
      have hres := ih _ (hm ▸ hlt) _ (k + 1) rfl (winv_bump_tree hw hg h1 h2 h3)
      exact ⟨hres.1, hres.2.1, hres.2.2⟩


theorem winv_forest_wf {n : ℕ} {uv : Edge} {t : ℕ} {base s : St}
    (hw : WInv n uv t base s) (j : ℕ) :
    ∀ e ∈ forestAt s j, e.1 < s.n ∧ e.2 < s.n := by
  intro e he
  rcases mem_forestAt.1 he with ⟨r, hr, hlr, _, _, rfl⟩
  have := hw.wf r hr hlr
  rw [hw.hn]
  omega

/-- Phase B promotion step: an extra edge of level `i` whose endpoints are
still connected at level `i` (inside the small component) moves to level
`i + 1`; no forest changes, and the promoted edge spans at `i + 1` by the
path-lifting argument. -/
theorem winv_bump_extra {n : ℕ} {uv : Edge} {i small : ℕ} {base s : St}
    (hw : WInv n uv (i + 1) base s) {f : ℕ} {r : EdgeInfo}
    (hg : s.edge_info.get? f = some r) (hl : r.live = true) (ht : r.isTree = false)
    (hlev : r.level = i) (hsm : small < s.n)
    (hcands : treeCands s i small = [])
    (hconn : Conn (forestAt s i) r.e.1 r.e.2)
    (hsmc : Conn (forestAt s i) small r.e.1) :
    WInv n uv (i + 1) base (bumpAt s f) := by
  have hle : liveEdges (bumpAt s f) = liveEdges s := liveEdges_bumpAt hg
  have hfa : ∀ j, forestAt (bumpAt s f) j = forestAt s j := forestAt_bumpAt_extra hg ht
  refine ⟨hw.hn, ?_, ?_, ?_, ?_, ?_, ?_, ?_⟩
  · intro x hx hlx
    rcases mem_updRec_strong r hg hx with hxo | rfl
    · exact hw.wf x hxo hlx
    · exact hw.wf r (List.get?_mem hg) hl
  · rw [hle]
    exact hw.nd
  · rw [hle]
    exact hw.live_eq
  · intro j
    rw [hfa j]
    exact hw.forest j
  · intro j hjt
    rw [hfa j]
    exact hw.low_eq j hjt
  · intro x hx hlx hxx htlx
    rcases mem_updRec_strong r hg hx with hxo | rfl
    · rw [hfa x.level]
      exact hw.span_hi x hxo hlx hxx htlx
    · rw [show ({ r with level := r.level + 1 } : EdgeInfo).level = r.level + 1 from rfl,
        hfa (r.level + 1), hlev]
      exact lift_path (winv_forest_wf hw i) hsm hcands hconn hsmc
  · intro x hx hlx hxx htlx
    rcases mem_updRec_strong r hg hx with hxo | rfl
    · rw [hfa x.level]
      exact hw.span_lo x hxo hlx hxx htlx
    · rw [show ({ r with level := r.level + 1 } : EdgeInfo).level = r.level + 1 from rfl] at htlx
      omega

theorem treeCands_bump_extra {s : St} {f : ℕ} {r : EdgeInfo} (i small : ℕ)
    (hg : s.edge_info.get? f = some r) (ht : r.isTree = false) :
    treeCands (bumpAt s f) i small = treeCands s i small := by
  have hfa : forestAt (bumpAt s f) i = forestAt s i := forestAt_bumpAt_extra hg ht i
  rw [treeCands, treeCands,
    show (bumpAt s f).edge_info =
      updRec s.edge_info f (fun r => { r with level := r.level + 1 }) from rfl,
    updRec_length, hfa, show (bumpAt s f).n = s.n from rfl]
  refine List.filter_congr ?_
  intro p hp
  by_cases hpf : p = f
  · subst hpf
    rw [get?_updRec_self s.edge_info p _ r hg, hg]
    simp [ht]
  · rw [get?_updRec_ne s.edge_info f p _ (fun h => hpf h.symm)]

/-- Exhausting the level-`i` extra candidates shifts the working invariant
down one level: remaining level-`i` extras are not incident to the small
component, so they cannot cross the cut and they span at level `i`. -/
theorem winv_shift {n : ℕ} {uv : Edge} {i small : ℕ} {base s : St}
    (hw : WInv n uv (i + 1) base s) (hsm : small < s.n)
    (hsmuv : small = uv.1 ∨ small = uv.2)
    (hvempty : vertCands s i small = []) : WInv n uv i base s := by
  have hvc : ∀ w, w < s.n → Conn (forestAt s i) small w →
      (∃ p r', s.edge_info.get? p = some r' ∧ r'.live = true ∧ r'.isTree = false ∧
        r'.level = i ∧ (r'.e.1 = w ∨ r'.e.2 = w)) → False := by
    rintro w hwn hcw ⟨p, r', hp, h1, h2, h3, h4⟩
    rcases List.get?_eq_some.1 hp with ⟨hplen, _⟩
    have hpx : p ∈ extrasOf s i w := by
      refine List.mem_filter.2 ⟨List.mem_range.2 hplen, ?_⟩
      rw [hp]
      rcases h4 with h4 | h4 <;> simp [h1, h2, h3, h4]
    have hwc : w ∈ vertCands s i small := by
      refine List.mem_filter.2 ⟨List.mem_range.2 hwn, ?_⟩
      have hc1 : connB (forestAt s i) s.n small w = true :=
        (connB_iff (winv_forest_wf hw i) hsm).2 hcw
      cases hex : extrasOf s i w with
      | nil =>
        rw [hex] at hpx
        simp at hpx
      | cons a l => simp [hc1, hex]
    rw [hvempty] at hwc
    simp at hwc
  refine ⟨hw.hn, hw.wf, hw.nd, hw.live_eq, hw.forest, ?_, ?_, ?_⟩
  · intro j hj
    exact hw.low_eq j (by omega)
  · intro x hx hlx hxx htlx
    rcases Nat.eq_or_lt_of_le htlx with hli | hli
    · have hlevx : x.level = i := hli.symm
      have hsp := hw.span_lo x hx hlx hxx (by omega)
      have hbx := hw.wf x hx hlx
      have hbx1 : x.e.1 < s.n := by rw [hw.hn]; omega
      have hbx2 : x.e.2 < s.n := by rw [hw.hn]; omega
      rw [hlevx] at hsp ⊢
      rcases conn_cons.1 hsp with h | ⟨ha, hb⟩ | ⟨ha, hb⟩
      · exact h
      · exfalso
        rcases List.mem_iff_get?.1 hx with ⟨p, hpg⟩
        rcases hsmuv with hsv | hsv
        · refine hvc x.e.1 hbx1 ?_ ⟨p, x, hpg, hlx, hxx, hlevx, Or.inl rfl⟩
          rw [hsv]
          exact ha.symm
        · refine hvc x.e.2 hbx2 ?_ ⟨p, x, hpg, hlx, hxx, hlevx, Or.inr rfl⟩
          rw [hsv]
          exact hb
      · exfalso
        rcases List.mem_iff_get?.1 hx with ⟨p, hpg⟩
        rcases hsmuv with hsv | hsv
        · refine hvc x.e.2 hbx2 ?_ ⟨p, x, hpg, hlx, hxx, hlevx, Or.inr rfl⟩
          rw [hsv]
          exact hb
        · refine hvc x.e.1 hbx1 ?_ ⟨p, x, hpg, hlx, hxx, hlevx, Or.inl rfl⟩
          rw [hsv]
          exact ha.symm
    · exact hw.span_hi x hx hlx hxx (by omega)
  · intro x hx hlx hxx htlx
    exact hw.span_lo x hx hlx hxx (by omega)

/-- The replacement step restores the full invariant: the crossing extra edge
becomes a tree edge of every level up to `i`, reconnecting the cut. -/
theorem winv_makeTree {n : ℕ} {uv : Edge} {i : ℕ} {base s : St}
    (hw : WInv n uv (i + 1) base s)
    (hcut : ∀ j, j ≤ i → ¬ Conn (forestAt s j) uv.1 uv.2)
    {f : ℕ} {r : EdgeInfo}
    (hg : s.edge_info.get? f = some r) (hl : r.live = true) (ht : r.isTree = false)
    (hlev : r.level = i)
    (hnc : ¬ Conn (forestAt s i) r.e.1 r.e.2) :
    Inv (makeTreeAt s f) ∧ liveEdges (makeTreeAt s f) = liveEdges base ∧
      (makeTreeAt s f).n = n := by
  have hsp := hw.span_lo r (List.get?_mem hg) hl ht (by omega)
  rw [hlev] at hsp
  have hcross : (Conn (forestAt s i) r.e.1 uv.1 ∧ Conn (forestAt s i) uv.2 r.e.2) ∨
      (Conn (forestAt s i) r.e.1 uv.2 ∧ Conn (forestAt s i) uv.1 r.e.2) := by
    rcases conn_cons.1 hsp with h | ⟨h1, h2⟩ | ⟨h1, h2⟩
    · exact absurd h hnc
    · exact Or.inl ⟨h1, h2⟩
    · exact Or.inr ⟨h1, h2⟩
  have hle : liveEdges (makeTreeAt s f) = liveEdges s := liveEdges_makeTreeAt hg
  have hlow : ∀ j, j ≤ i → forestAt s j = forestTake s j f ++ forestDrop s j f ∧
      forestAt (makeTreeAt s f) j = forestTake s j f ++ r.e :: forestDrop s j f := by
    intro j hj
    exact @forestAt_makeTreeAt_low s f r j hg hl ht (by omega)
  have hhigh : ∀ j, i < j → forestAt (makeTreeAt s f) j = forestAt s j := by
    intro j hj
    exact @forestAt_makeTreeAt_high s f r j hg (by omega)
  have hncj : ∀ j, j ≤ i → ¬ Conn (forestAt s j) r.e.1 r.e.2 := by
    intro j hj hcon
    refine hcut j hj ?_
    have m : ∀ {a b : ℕ}, Conn (forestAt s i) a b → Conn (forestAt s j) a b :=
      fun hab => conn_mono (fun e he => (forestAt_mono s hj).mem he) hab
    rcases hcross with ⟨h1, h2⟩ | ⟨h1, h2⟩
    · exact ((m h1).symm.trans hcon).trans (m h2).symm
    · exact ((m h2).trans hcon.symm).trans (m h1)
  have huvc : ∀ j, j ≤ i → Conn (forestAt (makeTreeAt s f) j) uv.1 uv.2 := by
    intro j hj
    rcases hlow j hj with ⟨h1, h2⟩
    have hmem : r.e ∈ forestAt (makeTreeAt s f) j := by
      rw [h2]
      simp
    have msub : ∀ {a b : ℕ}, Conn (forestAt s j) a b →
        Conn (forestAt (makeTreeAt s f) j) a b := by
      intro a b hab
      refine conn_mono ?_ hab
      intro e he
      rw [h2]
      rw [h1] at he
      exact (sublist_skip_middle _ _ _).mem he
    have hedge : Conn (forestAt (makeTreeAt s f) j) r.e.1 r.e.2 :=
      Conn.of_adj (Or.inl hmem)
    have m : ∀ {a b : ℕ}, Conn (forestAt s i) a b → Conn (forestAt s j) a b :=
      fun hab => conn_mono (fun e he => (forestAt_mono s hj).mem he) hab
    rcases hcross with ⟨h1x, h2x⟩ | ⟨h1x, h2x⟩
    · exact ((msub (m h1x)).symm.trans hedge).trans (msub (m h2x)).symm
    · exact ((msub (m h2x)).trans hedge.symm).trans (msub (m h1x))
  refine ⟨⟨?_, ?_, ?_, ?_⟩, by rw [hle]; exact hw.live_eq, hw.hn⟩
  · intro x hx hlx
    rcases mem_updRec_strong r hg hx with hxo | rfl
    · have := hw.wf x hxo hlx
      rw [show (makeTreeAt s f).n = s.n from rfl, hw.hn]
      exact this
    · have := hw.wf r (List.get?_mem hg) hl
      rw [show (makeTreeAt s f).n = s.n from rfl, hw.hn]
      exact this
  · rw [show liveEdges (makeTreeAt s f) = liveEdges s from hle]
    exact hw.nd
  · intro j
    rcases le_or_lt j i with hj | hj
    · rcases hlow j hj with ⟨h1, h2⟩
      rw [h2]
      refine isForest_perm List.perm_middle.symm (isForest_cons ?_ ?_)
      · rw [← h1]
        exact hw.forest j
      · rw [← h1]
        exact hncj j hj
    · rw [hhigh j hj]
      exact hw.forest j
  · intro x hx hlx hxx
    rcases mem_updRec_strong r hg hx with hxo | rfl
    · rcases le_or_lt x.level i with hxl | hxl
      · have hsp2 := hw.span_lo x hxo hlx hxx (by omega)
        rcases hlow x.level hxl with ⟨h1, h2⟩
        have msub : ∀ {a b : ℕ}, Conn (forestAt s x.level) a b →
            Conn (forestAt (makeTreeAt s f) x.level) a b := by
          intro a b hab
          refine conn_mono ?_ hab
          intro e he
          rw [h2]
          rw [h1] at he
          exact (sublist_skip_middle _ _ _).mem he
        rcases conn_cons.1 hsp2 with h | ⟨ha, hb⟩ | ⟨ha, hb⟩
        · exact msub h
        · exact ((msub ha).trans (huvc x.level hxl)).trans (msub hb)
        · exact ((msub ha).trans (huvc x.level hxl).symm).trans (msub hb)
      · rw [hhigh x.level hxl]
        exact hw.span_hi x hxo hlx hxx (by omega)
    · rw [show ({ r with isTree := true } : EdgeInfo).isTree = true from rfl] at hxx
      exact absurd hxx (by simp)


/-- Phase B terminates either by finding a replacement (full invariant
restored, same live edges) or by exhausting the candidates (working
invariant shifts down one level). -/
theorem phaseB_spec (orc : ℕ → ℕ) (i small : ℕ) {n : ℕ} {uv : Edge} {base : St}
    (hsmuv : small = uv.1 ∨ small = uv.2)
    (huv1 : uv.1 < n) (huv2 : uv.2 < n)
    (hcutb : ∀ j, j ≤ i → ¬ Conn (forestAt base j) uv.1 uv.2) :
    ∀ m s k, countExtraAt s i = m → WInv n uv (i + 1) base s →
      treeCands s i small = [] →
      ((phaseB orc i small s k).2.2 = true →
        Inv (phaseB orc i small s k).1 ∧
          liveEdges (phaseB orc i small s k).1 = liveEdges base ∧
          (phaseB orc i small s k).1.n = n) ∧
      ((phaseB orc i small s k).2.2 = false →
        WInv n uv i base (phaseB orc i small s k).1) := by
  intro m
  induction m using Nat.strong_induction_on with
  | _ m ih =>
    intro s k hm hw hcands
    have hsm : small < s.n := by
      rw [hw.hn]
      rcases hsmuv with rfl | rfl
      · exact huv1
      · exact huv2
    rw [phaseB]
    by_cases hv : (vertCands s i small).length = 0
    · rw [dif_pos hv]
      refine ⟨fun h => absurd h (by simp), fun _ => ?_⟩
      exact winv_shift hw hsm hsmuv (List.length_eq_zero.1 hv)
    · rw [dif_neg hv]
      have hamem : (vertCands s i small).get
          ⟨orc k % (vertCands s i small).length, Nat.mod_lt _ (Nat.pos_of_ne_zero hv)⟩ ∈
            vertCands s i small := List.get_mem _ _ _
      rcases mem_vertCands hamem with ⟨han, hac, hane⟩
      rcases mem_extrasOf (minId_mem hane) with ⟨r0, hg0, h1, h2, h3, h4⟩
      split
      · rename_i hgx
        rw [hg0] at hgx
        simp at hgx
      · rename_i r hgx
        rw [hgx] at hg0
        have hrr : r0 = r := (Option.some_inj.1 hg0).symm
        subst hrr
        have hbnd := hw.wf r0 (List.get?_mem hgx) h1
        have hb1 : r0.e.1 < s.n := by
          rw [hw.hn]
          omega
        have hconnSm : Conn (forestAt s i) small
            ((vertCands s i small).get
              ⟨orc k % (vertCands s i small).length, Nat.mod_lt _ (Nat.pos_of_ne_zero hv)⟩) :=
          (connB_iff (winv_forest_wf hw i) hsm).1 hac
        by_cases hconn : connB (forestAt s i) s.n r0.e.1 r0.e.2 = true
        · rw [if_pos hconn]
          have hconnC : Conn (forestAt s i) r0.e.1 r0.e.2 :=
            (connB_iff (winv_forest_wf hw i) hb1).1 hconn
          have hsmc : Conn (forestAt s i) small r0.e.1 := by
            rcases h4 with h4 | h4
            · rw [← h4] at hconnSm
              exact hconnSm
            · rw [← h4] at hconnSm
              exact hconnSm.trans hconnC.symm
          have hlt := countExtraAt_bump_lt hgx h1 h2 h3
          have hw2 := winv_bump_extra hw hgx h1 h2 h3 hsm hcands hconnC hsmc
          have hc2 := treeCands_bump_extra i small hgx h2
          exact ih _ (hm ▸ hlt) _ (k + 1) rfl hw2 (by rw [hc2]; exact hcands)
        · rw [if_neg hconn]
          have hcut_s : ∀ j, j ≤ i → ¬ Conn (forestAt s j) uv.1 uv.2 := by
            intro j hj
            rw [hw.low_eq j (by omega)]
            exact hcutb j hj
          have hncC : ¬ Conn (forestAt s i) r0.e.1 r0.e.2 := by
            intro hc
            exact hconn ((connB_iff (winv_forest_wf hw i) hb1).2 hc)
          have hres := winv_makeTree hw hcut_s hgx h1 h2 h3 hncC
          exact ⟨fun _ => hres, fun h => absurd h (by simp)⟩


/-- The level loop of `remove_edge` ends with the full invariant restored and
the live edge list unchanged from the post-deletion state. -/
theorem levelLoop_spec (orc : ℕ → ℕ) (sm : ℕ → ℕ) {n : ℕ} {uv : Edge} {base : St}
    (huv1 : uv.1 < n) (huv2 : uv.2 < n)
    (hsm : ∀ i, sm i = uv.1 ∨ sm i = uv.2) :
    ∀ t s k, (∀ j, j < t → ¬ Conn (forestAt base j) uv.1 uv.2) → WInv n uv t base s →
      Inv (levelLoop orc sm t s k).1 ∧
        liveEdges (levelLoop orc sm t s k).1 = liveEdges base ∧
        (levelLoop orc sm t s k).1.n = n := by
  intro t
  induction t with
  | zero =>
    intro s k _ hw
    have hInv : Inv s :=
      ⟨by intro r hr hl
          rw [hw.hn]
          exact hw.wf r hr hl,
        hw.nd, hw.forest, fun r hr hl hx => hw.span_hi r hr hl hx (Nat.zero_le _)⟩
    exact ⟨hInv, hw.live_eq, hw.hn⟩
  | succ i ih =>
    intro s k hcut hw
    have hA := phaseA_spec orc i (sm i) (countTreeAt s i) s k rfl hw
    have hB := phaseB_spec orc i (sm i) (hsm i) huv1 huv2 (fun j hj => hcut j (by omega))
      (countExtraAt (phaseA orc i (sm i) s k).1 i) (phaseA orc i (sm i) s k).1
      (phaseA orc i (sm i) s k).2 rfl hA.1 hA.2.1
    rw [levelLoop]
    split
    · rename_i st2 k2 heq
      have hres := hB.1 (by rw [heq])
      rw [heq] at hres
      exact hres
    · rename_i st2 k2 heq
      have hBf := hB.2 (by rw [heq])
      rw [heq] at hBf
      exact ih st2 k2 (fun j hj => hcut j (by omega)) hBf


/-- `remove_edge` preserves the invariant, erases exactly the removed edge,
keeps `n`, and returns `true` exactly when the edge was present. -/
theorem removeEdge_inv {st : St} (hi : Inv st) (orc : ℕ → ℕ) (u v k : ℕ) :
    Inv (removeEdge orc st u v k).1 ∧
      liveEdges (removeEdge orc st u v k).1 = eraseE (liveEdges st) (norm u v) ∧
      (removeEdge orc st u v k).1.n = st.n ∧
      ((removeEdge orc st u v k).2.2 = true ↔ norm u v ∈ liveEdges st) := by
  rw [removeEdge]
  cases hlk : lookupId st.edge_info (norm u v) with
  | none =>
    simp only [hlk]
    have hnm : norm u v ∉ liveEdges st := by
      intro hm
      rcases mem_liveEdges.1 hm with ⟨r, hr, hl, he⟩
      exact lookupId_eq_none.1 hlk r hr hl he
    refine ⟨hi, (eraseE_of_not_mem hnm).symm, trivial, ?_⟩
    constructor
    · intro h
      simp at h
    · intro h
      exact absurd h hnm
  | some eid =>
    simp only [hlk]
    cases hge : st.edge_info.get? eid with
    | none =>
      rcases lookupId_eq_some hlk with ⟨r0, hg0, _, _⟩
      rw [hge] at hg0
      exact absurd hg0 (by simp)
    | some r0 =>
      simp only [hge]
      rcases lookupId_eq_some hlk with ⟨r0x, hg0x, hl0, he0⟩
      rw [hge] at hg0x
      have hr0 : r0x = r0 := (Option.some_inj.1 hg0x).symm
      subst hr0
      have hmemlive : norm u v ∈ liveEdges st :=
        mem_liveEdges.2 ⟨r0x, List.get?_mem hge, hl0, he0⟩
      by_cases htr : r0x.isTree = true
      · rw [if_pos htr]
        rcases kill_tree_start hi hge hl0 htr with ⟨hw0, hcut0, herase⟩
        have hbnds := hi.wf r0x (List.get?_mem hge) hl0
        have hsmf : ∀ i, pickSmall orc (killAt st eid) (norm u v).1 (norm u v).2 i (k + i) =
            r0x.e.1 ∨
            pickSmall orc (killAt st eid) (norm u v).1 (norm u v).2 i (k + i) = r0x.e.2 := by
          intro i
          rcases pickSmall_cases orc (killAt st eid) (norm u v).1 (norm u v).2 i (k + i)
            with h | h
          · left
            rw [h, ← he0]
          · right
            rw [h, ← he0]
        have hLL := levelLoop_spec orc
          (fun lvl => pickSmall orc (killAt st eid) (norm u v).1 (norm u v).2 lvl (k + lvl))
          (show r0x.e.1 < st.n by omega) (show r0x.e.2 < st.n by omega) hsmf
          (r0x.level + 1) (killAt st eid) (k + r0x.level + 1)
          (fun j hj => hcut0 j (by omega)) hw0
        refine ⟨hLL.1, ?_, hLL.2.2, by simp [hmemlive]⟩
        rw [hLL.2.1, herase, he0]
      · rw [if_neg htr]
        have htf : r0x.isTree = false := bool_false_of_not_true htr
        rcases liveEdges_killAt hge hl0 with ⟨hldA, hldB⟩
        have hnd0 : (liveTake st eid ++ r0x.e :: liveDrop st eid).Nodup := hldA ▸ hi.nd
        have hnm2 := not_mem_of_nodup_middle hnd0
        have hfa : ∀ j, forestAt (killAt st eid) j = forestAt st j := by
          intro j
          exact filterMap_updRec_eq _ _ _ _ r0x hge (by simp [htf])
        have herase2 : liveEdges (killAt st eid) = eraseE (liveEdges st) (norm u v) := by
          rw [hldB, hldA, ← he0, eraseE_append hnm2.1]
        refine ⟨⟨?_, ?_, ?_, ?_⟩, herase2, rfl, by simp [hmemlive]⟩
        · intro x hx hlx
          rcases mem_updRec_strong r0x hge hx with hxo | rfl
          · exact hi.wf x hxo hlx
          · simp at hlx
        · rw [hldB]
          exact (sublist_skip_middle _ _ r0x.e).nodup hnd0
        · intro j
          rw [hfa j]
          exact hi.forest j
        · intro x hx hlx hxx
          rcases mem_updRec_strong r0x hge hx with hxo | rfl
          · rw [hfa x.level]
            exact hi.span x hxo hlx hxx
          · simp at hlx


/-- Well-formed operation: endpoints below `n`. -/
def opWf (n : ℕ) : Op → Prop
  | Op.add u v => u < n ∧ v < n
  | Op.rem u v => u < n ∧ v < n

instance instDecOpWf (n : ℕ) (op : Op) : Decidable (opWf n op) :=
  match op with
  | Op.add u v => inferInstanceAs (Decidable (u < n ∧ v < n))
  | Op.rem u v => inferInstanceAs (Decidable (u < n ∧ v < n))

theorem initSt_inv (n : ℕ) : Inv (initSt n) := by
  refine ⟨?_, ?_, ?_, ?_⟩
  · intro r hr
    simp [initSt] at hr
  · rw [show liveEdges (initSt n) = [] from rfl]
    exact List.nodup_nil
  · intro j
    rw [show forestAt (initSt n) j = [] from rfl]
    exact isForest_nil
  · intro r hr
    simp [initSt] at hr

/-- Running a history preserves the invariant and tracks the naive
edge-list semantics step by step. -/
theorem runOps_inv (orc : ℕ → ℕ) (ops : List Op) :
    ∀ st k es, Inv st → liveEdges st = es →
      (∀ op ∈ ops, opWf st.n op) →
      Inv (runOps orc ops st k).1 ∧
        liveEdges (runOps orc ops st k).1 = naiveAcc es ops ∧
        (runOps orc ops st k).1.n = st.n := by
  induction ops with
  | nil =>
    intro st k es hi hes _
    exact ⟨hi, hes, rfl⟩
  | cons op ops ih =>
    intro st k es hi hes hwf
    cases op with
    | add u v =>
      have hb := hwf (Op.add u v) (List.mem_cons_self _ _)
      have h1 := addEdge_inv hi hb.1 hb.2
      have hn1 : (addEdge st u v).1.n = st.n := addEdge_n st u v
      have hrec := ih (addEdge st u v).1 k (naiveStep es (Op.add u v)) h1.1
        (by rw [h1.2, hes])
        (fun op hop => by rw [hn1]; exact hwf op (List.mem_cons_of_mem _ hop))
      rw [show runOps orc (Op.add u v :: ops) st k =
            runOps orc ops (addEdge st u v).1 k from rfl,
        show naiveAcc es (Op.add u v :: ops) =
            naiveAcc (naiveStep es (Op.add u v)) ops from rfl]
      exact ⟨hrec.1, hrec.2.1, by rw [hrec.2.2, hn1]⟩
    | rem u v =>
      have h1 := removeEdge_inv hi orc u v k
      have hn1 : (removeEdge orc st u v k).1.n = st.n := h1.2.2.1
      have hrec := ih (removeEdge orc st u v k).1 (removeEdge orc st u v k).2.1
        (naiveStep es (Op.rem u v)) h1.1
        (by rw [h1.2.1, hes, show naiveStep es (Op.rem u v) = eraseE es (norm u v) from rfl])
        (fun op hop => by rw [hn1]; exact hwf op (List.mem_cons_of_mem _ hop))
      rw [show runOps orc (Op.rem u v :: ops) st k =
            runOps orc ops (removeEdge orc st u v k).1 (removeEdge orc st u v k).2.1 from rfl,
        show naiveAcc es (Op.rem u v :: ops) =
            naiveAcc (naiveStep es (Op.rem u v)) ops from rfl]
      exact ⟨hrec.1, hrec.2.1, by rw [hrec.2.2, hn1]⟩

theorem solver_is_connected_aux (orc : ℕ → ℕ) (n : ℕ) (ops : List Op) (u v : ℕ)
    (hwf : ∀ op ∈ ops, opWf n op) (hu : u < n) (hv : v < n) :
    (isConnQ (runOps orc ops (initSt n) 0).1 u v = true ↔
      Conn (naiveRun ops) u v) := by
  have hrun := runOps_inv orc ops (initSt n) 0 [] (initSt_inv n) rfl hwf
  have hn' : (runOps orc ops (initSt n) 0).1.n = n := hrun.2.2
  have hwfe : ∀ e ∈ forestAt (runOps orc ops (initSt n) 0).1 0, e.1 < n ∧ e.2 < n := by
    intro e he
    have := forestAt_wf hrun.1 0 e he
    rw [hn'] at this
    exact this
  rw [isConnQ, hn', @connB_iff (forestAt (runOps orc ops (initSt n) 0).1 0) n u v hwfe hu,
    conn_forest0_iff hrun.1, hrun.2.1, naiveRun]

/-- C1: after any history of `add_edge`/`remove_edge` operations on a solver
built by `new(n)`, `is_connected(u, v)` returns `true` exactly when `u` and
`v` are joined by a path of currently-present edges, i.e. it agrees with a
naive union-find reference maintained over the same history. The HDT
replacement search is covered for every possible resolution `orc` of its
tour-dependent choices. -/
theorem solver_is_connected_ok (orc : ℕ → ℕ) (n : ℕ) (ops : List Op) (u v : ℕ)
    (hwf : ∀ op ∈ ops, opWf n op) (hu : u < n) (hv : v < n) :
    (isConnQ (runOps orc ops (initSt n) 0).1 u v = true ↔
      Conn (naiveRun ops) u v) :=
  solver_is_connected_aux orc n ops u v hwf hu hv

theorem solver_is_connected_ok_witness :
    isConnQ (runOps (fun _ => 0) [Op.add 0 1] (initSt 2) 0).1 0 1 = true :=
  (solver_is_connected_ok (fun _ => 0) 2 [Op.add 0 1] 0 1 (by decide) (by omega)
      (by omega)).2
    (show Conn [(0, 1)] 0 1 from Conn.of_adj (Or.inl (List.mem_singleton_self _)))


/-- C4: `add_edge` returns `false` and leaves the state unchanged exactly
when `u = v` or the edge is already present; `remove_edge` returns `false`
and leaves the state unchanged exactly when the edge is absent. -/
theorem add_remove_noop_ok (st : St) (orc : ℕ → ℕ) (u v k : ℕ) :
    ((addEdge st u v).2 = false ↔
      ((norm u v).1 = (norm u v).2 ∨ norm u v ∈ liveEdges st)) ∧
    ((addEdge st u v).2 = false → (addEdge st u v).1 = st) ∧
    ((removeEdge orc st u v k).2.2 = false ↔ norm u v ∉ liveEdges st) ∧
    ((removeEdge orc st u v k).2.2 = false → (removeEdge orc st u v k).1 = st) := by
  have hcond : ((norm u v).1 = (norm u v).2 ∨ hasEdge st (norm u v) = true) ↔
      ((norm u v).1 = (norm u v).2 ∨ norm u v ∈ liveEdges st) := by
    rw [hasEdge_iff]
  refine ⟨?_, ?_, ?_, ?_⟩
  · rw [addEdge]
    split_ifs with h
    · exact ⟨fun _ => hcond.1 h, fun _ => rfl⟩
    · exact ⟨fun hf => absurd hf (by simp), fun hC => absurd (hcond.2 hC) h⟩
  · rw [addEdge]
    split_ifs with h
    · exact fun _ => rfl
    · exact fun hf => absurd hf (by simp)
  · rw [removeEdge]
    cases hlk : lookupId st.edge_info (norm u v) with
    | none =>
      simp only [hlk]
      constructor
      · intro _ hm
        rcases mem_liveEdges.1 hm with ⟨r, hr, hl, he⟩
        exact lookupId_eq_none.1 hlk r hr hl he
      · intro _
        trivial
    | some eid =>
      simp only [hlk]
      cases hge : st.edge_info.get? eid with
      | none =>
        rcases lookupId_eq_some hlk with ⟨r0, hg0, _, _⟩
        rw [hge] at hg0
        exact absurd hg0 (by simp)
      | some r0 =>
        simp only [hge]
        rcases lookupId_eq_some hlk with ⟨r0x, hg0x, hl0, he0⟩
        rw [hge] at hg0x
        have hr0 : r0x = r0 := (Option.some_inj.1 hg0x).symm
        subst hr0
        have hmemlive : norm u v ∈ liveEdges st :=
          mem_liveEdges.2 ⟨r0x, List.get?_mem hge, hl0, he0⟩
        split_ifs with htr
        · exact ⟨fun hf => absurd hf (by simp), fun hnm => absurd hmemlive hnm⟩
        · exact ⟨fun hf => absurd hf (by simp), fun hnm => absurd hmemlive hnm⟩
  · rw [removeEdge]
    cases hlk : lookupId st.edge_info (norm u v) with
    | none =>
      simp only [hlk]
      exact fun _ => trivial
    | some eid =>
      simp only [hlk]
      cases hge : st.edge_info.get? eid with
      | none =>
        rcases lookupId_eq_some hlk with ⟨r0, hg0, _, _⟩
        rw [hge] at hg0
        exact absurd hg0 (by simp)
      | some r0 =>
        simp only [hge]
        split_ifs with htr
        · exact fun hf => absurd hf (by simp)
        · exact fun hf => absurd hf (by simp)

theorem solver_in1core_aux (orc : ℕ → ℕ) (n : ℕ) (ops : List Op) (u : ℕ)
    (hwf : ∀ op ∈ ops, opWf n op) (hu : u < n) :
    (in1core (runOps orc ops (initSt n) 0).1 u = true ↔
      ∃ e ∈ naiveRun ops, e.1 = u ∨ e.2 = u) := by
  have hrun := runOps_inv orc ops (initSt n) 0 [] (initSt_inv n) rfl hwf
  have hn' : (runOps orc ops (initSt n) 0).1.n = n := hrun.2.2
  have hwfe : ∀ e ∈ forestAt (runOps orc ops (initSt n) 0).1 0, e.1 < n ∧ e.2 < n := by
    intro e he
    have := forestAt_wf hrun.1 0 e he
    rw [hn'] at this
    exact this
  have hnaive : liveEdges (runOps orc ops (initSt n) 0).1 = naiveRun ops := by
    rw [hrun.2.1, naiveRun]
  rw [in1core, hn', decide_eq_true_iff]
  constructor
  · intro hcard
    rcases Finset.exists_ne_of_one_lt_card hcard u with ⟨b, hb, hbne⟩
    have hconn : Conn (liveEdges (runOps orc ops (initSt n) 0).1) u b :=
      (conn_forest0_iff hrun.1).1 ((mem_compOf hwfe hu).1 hb)
    rcases Relation.ReflTransGen.cases_head hconn with heq | ⟨c, hadj, _⟩
    · exact absurd heq.symm hbne
    · rcases hadj with hm | hm
      · rw [hnaive] at hm
        exact ⟨(u, c), hm, Or.inl rfl⟩
      · rw [hnaive] at hm
        exact ⟨(c, u), hm, Or.inr rfl⟩
  · rintro ⟨e, he, hinc⟩
    rw [← hnaive] at he
    have hwfl := liveEdges_wf hrun.1 e he
    rw [hn'] at hwfl
    have hord : e.1 < e.2 := by
      rcases mem_liveEdges.1 he with ⟨r, hr, hl, hre⟩
      have := hrun.1.wf r hr hl
      rw [hre] at this
      rw [hn'] at this
      omega
    have hadj : adjacent (liveEdges (runOps orc ops (initSt n) 0).1) e.1 e.2 :=
      Or.inl (by cases e; exact he)
    rcases hinc with hinc | hinc
    · -- u = e.1; other endpoint e.2 ≠ u
      have hconn : Conn (forestAt (runOps orc ops (initSt n) 0).1 0) u e.2 :=
        (conn_forest0_iff hrun.1).2 (hinc ▸ Conn.of_adj hadj)
      have hmem2 : e.2 ∈ compOf (forestAt (runOps orc ops (initSt n) 0).1 0) n u :=
        (mem_compOf hwfe hu).2 hconn
      have hmemu : u ∈ compOf (forestAt (runOps orc ops (initSt n) 0).1 0) n u :=
        (mem_compOf hwfe hu).2 (Conn.refl u)
      refine Finset.one_lt_card.2 ⟨u, hmemu, e.2, hmem2, ?_⟩
      omega
    · have hconn : Conn (forestAt (runOps orc ops (initSt n) 0).1 0) u e.1 :=
        (conn_forest0_iff hrun.1).2 (hinc ▸ (Conn.of_adj hadj).symm)
      have hmem2 : e.1 ∈ compOf (forestAt (runOps orc ops (initSt n) 0).1 0) n u :=
        (mem_compOf hwfe hu).2 hconn
      have hmemu : u ∈ compOf (forestAt (runOps orc ops (initSt n) 0).1 0) n u :=
        (mem_compOf hwfe hu).2 (Conn.refl u)
      refine Finset.one_lt_card.2 ⟨u, hmemu, e.1, hmem2, ?_⟩
      omega

/-- C3: `is_in_1core(u)`, computed as `ett[0].tree_size(u) > 1`, holds
exactly when `u` has an incident present edge. -/
theorem solver_in1core_ok (orc : ℕ → ℕ) (n : ℕ) (ops : List Op) (u : ℕ)
    (hwf : ∀ op ∈ ops, opWf n op) (hu : u < n) :
    (in1core (runOps orc ops (initSt n) 0).1 u = true ↔
      ∃ e ∈ naiveRun ops, e.1 = u ∨ e.2 = u) :=
  solver_in1core_aux orc n ops u hwf hu

theorem solver_in1core_ok_witness :
    in1core (runOps (fun _ => 0) [Op.add 0 1] (initSt 2) 0).1 0 = true :=
  (solver_in1core_ok (fun _ => 0) 2 [Op.add 0 1] 0 (by decide) (by omega)).2
    ⟨(0, 1), show (0, 1) ∈ naiveRun [Op.add 0 1] from List.mem_singleton_self _, Or.inl rfl⟩

/-- The booleans returned by a run agree with the naive reference, so they
are independent of the choice stream. -/
theorem runOuts_eq_naive (orc : ℕ → ℕ) (ops : List Op) :
    ∀ st k es, Inv st → liveEdges st = es → (∀ op ∈ ops, opWf st.n op) →
      runOuts orc ops st k = naiveOuts es ops := by
  induction ops with
  | nil =>
    intro st k es _ _ _
    rfl
  | cons op ops ih =>
    intro st k es hi hes hwf
    cases op with
    | add u v =>
      have hb := hwf (Op.add u v) (List.mem_cons_self _ _)
      have h1 := addEdge_inv hi hb.1 hb.2
      have hn1 : (addEdge st u v).1.n = st.n := addEdge_n st u v
      have hhead : (addEdge st u v).2 = naiveOut es (Op.add u v) := by
        rw [addEdge, naiveOut]
        split_ifs with h
        · have hP : (norm u v).1 = (norm u v).2 ∨ norm u v ∈ es := by
            rw [← hes, ← hasEdge_iff]
            exact h
          show false = !decide ((norm u v).1 = (norm u v).2 ∨ norm u v ∈ es)
          rw [decide_eq_true hP]
          rfl
        · have hP : ¬ ((norm u v).1 = (norm u v).2 ∨ norm u v ∈ es) := by
            rw [← hes, ← hasEdge_iff]
            exact h
          show true = !decide ((norm u v).1 = (norm u v).2 ∨ norm u v ∈ es)
          rw [decide_eq_false hP]
          rfl
      rw [show runOuts orc (Op.add u v :: ops) st k =
            (addEdge st u v).2 :: runOuts orc ops (addEdge st u v).1 k from rfl,
        show naiveOuts es (Op.add u v :: ops) =
            naiveOut es (Op.add u v) :: naiveOuts (naiveStep es (Op.add u v)) ops from rfl,
        hhead,
        ih (addEdge st u v).1 k (naiveStep es (Op.add u v)) h1.1 (by rw [h1.2, hes])
          (fun op hop => by rw [hn1]; exact hwf op (List.mem_cons_of_mem _ hop))]
    | rem u v =>
      have h1 := removeEdge_inv hi orc u v k
      have hn1 : (removeEdge orc st u v k).1.n = st.n := h1.2.2.1
      have hiff := h1.2.2.2
      rw [hes] at hiff
      have hhead : (removeEdge orc st u v k).2.2 = naiveOut es (Op.rem u v) := by
        rw [naiveOut]
        cases hbv : (removeEdge orc st u v k).2.2
        · rw [hbv] at hiff
          have hnm : norm u v ∉ es := fun hm => by
            have := hiff.2 hm
            simp at this
          exact (decide_eq_false hnm).symm
        · rw [hbv] at hiff
          exact (decide_eq_true (hiff.1 rfl)).symm
      rw [show runOuts orc (Op.rem u v :: ops) st k =
            (removeEdge orc st u v k).2.2 ::
              runOuts orc ops (removeEdge orc st u v k).1 (removeEdge orc st u v k).2.1
            from rfl,
        show naiveOuts es (Op.rem u v :: ops) =
            naiveOut es (Op.rem u v) :: naiveOuts (naiveStep es (Op.rem u v)) ops from rfl,
        hhead,
        ih (removeEdge orc st u v k).1 (removeEdge orc st u v k).2.1
          (naiveStep es (Op.rem u v)) h1.1
          (by rw [h1.2.1, hes, show naiveStep es (Op.rem u v) = eraseE es (norm u v) from rfl])
          (fun op hop => by rw [hn1]; exact hwf op (List.mem_cons_of_mem _ hop))]

end SolverM

namespace LCTM

/-- State of the link-cut tree from `link_cut_tree.rs`: the preferred-path
lists of the `Lists` container and the path-parent array (`EMPTY` is
`none`). -/
structure LCTSt where
  n : ℕ
  paths : List (List ℕ)
  parent : List (Option ℕ)
deriving DecidableEq

/-- Read a path-parent pointer. -/
def parGet (st : LCTSt) (u : ℕ) : Option ℕ := (st.parent.get? u).getD none

/-- Write a path-parent pointer. -/
def setPar (l : List (Option ℕ)) (u : ℕ) (v : Option ℕ) : List (Option ℕ) :=
  SolverM.updRec l u (fun _ => v)

/-- Index of the path containing `u`. -/
def findPath : List (List ℕ) → ℕ → Option ℕ
  | [], _ => none
  | P :: Ps, u => if u ∈ P then some 0 else (findPath Ps u).map (· + 1)

/-- Position of `u` inside a path (`Lists::order`). -/
def idxOf : List ℕ → ℕ → ℕ
  | [], _ => 0
  | x :: xs, u => if x = u then 0 else idxOf xs u + 1

/-- Remove the element at one index. -/
def removeIdx {α : Type} (l : List α) (i : ℕ) : List α := l.take i ++ l.drop (i + 1)

/-- One splice iteration of `LCT::access`: split `u`-s path after `u`,
point the detached suffix back at `u`, concatenate the accumulated topmost
path behind `u`, then climb to the path-parent of the new head (clearing
it). The accumulated topmost path is carried in hand and reinserted by
`access`. -/
def accessLoop : ℕ → LCTSt → ℕ → List ℕ → LCTSt × ℕ × List ℕ
  | 0, st, u, pt => (st, u, pt)
  | fuel + 1, st, u, pt =>
    match findPath st.paths u with
    | none => (st, u, pt)
    | some pi =>
      let P := st.paths.getD pi []
      let i := idxOf P u
      let A := P.take (i + 1)
      let B := P.drop (i + 1)
      let st1 : LCTSt :=
        { st with
          paths := removeIdx st.paths pi ++ (if B.isEmpty then [] else [B]),
          parent := if B.isEmpty then st.parent else setPar st.parent (B.headD 0) (some u) }
      let merged := A ++ pt
      let h := merged.headD 0
      let nxt := parGet st1 h
      let st2 : LCTSt := { st1 with parent := setPar st1.parent h none }
      match nxt with
      | none => (st2, u, merged)
      | some p => accessLoop fuel st2 p merged

/-- `LCT::access`, with fuel `n` (enough for any represented forest). -/
def access (st : LCTSt) (u : ℕ) : LCTSt × ℕ :=
  ({ (accessLoop st.n st u []).1 with
      paths := (accessLoop st.n st u []).1.paths ++ [(accessLoop st.n st u []).2.2] },
    (accessLoop st.n st u []).2.1)

/-- Head of the path containing `u` (`Lists::first`). -/
def headOf (st : LCTSt) (u : ℕ) : ℕ :=
  (st.paths.getD ((findPath st.paths u).getD 0) []).headD 0

/-- `LCT::root`. -/
def lroot (st : LCTSt) (u : ℕ) : LCTSt × ℕ :=
  ((access st u).1, headOf (access st u).1 u)

/-- `LCT::reroot`: access then reverse the topmost path. -/
def reroot (st : LCTSt) (u : ℕ) : LCTSt :=
  { (access st u).1 with
    paths := SolverM.updRec (access st u).1.paths
      ((findPath (access st u).1.paths u).getD 0) (fun P => P.reverse) }

/-- `LCT::link`. -/
def link (st : LCTSt) (u v : ℕ) : LCTSt × Bool :=
  if (lroot st u).2 = (lroot (lroot st u).1 v).2 then ((lroot (lroot st u).1 v).1, false)
  else
    ({ reroot (lroot (lroot st u).1 v).1 v with
        parent := setPar (reroot (lroot (lroot st u).1 v).1 v).parent v (some u) }, true)

/-- `LCT::cut`: access `u`; if it is first in its path return `None`, else
split off the strict prefix and return the predecessor. -/
def cut (st : LCTSt) (u : ℕ) : LCTSt × Option ℕ :=
  match findPath (access st u).1.paths u with
  | none => ((access st u).1, none)
  | some pi =>
    let P := (access st u).1.paths.getD pi []
    let i := idxOf P u
    if i = 0 then ((access st u).1, none)
    else
      ({ (access st u).1 with
          paths := SolverM.updRec (access st u).1.paths pi (fun _ => P.take i) ++
            [P.drop i] },
        some (P.getD (i - 1) 0))

/-- `LCT::lca`. -/
def lca (st : LCTSt) (u v : ℕ) : LCTSt × Option ℕ :=
  ((access (access st u).1 v).1,
    if headOf (access st u).1 u = headOf (access (access st u).1 v).1 v then
      some (access (access st u).1 v).2
    else none)

/-- `LCT::new`. -/
def lctNew (n : ℕ) : LCTSt :=
  ⟨n, (List.range n).map (fun i => [i]), List.replicate n none⟩

/-- The parent of `u` in the represented forest: the previous element of its
path, or its path-parent pointer if it heads its path. -/
def repParent (st : LCTSt) (u : ℕ) : Option ℕ :=
  match findPath st.paths u with
  | none => none
  | some pi =>
    if idxOf (st.paths.getD pi []) u = 0 then parGet st u
    else some ((st.paths.getD pi []).getD (idxOf (st.paths.getD pi []) u - 1) 0)


theorem idxOf_append {A B : List ℕ} {u : ℕ} (hA : u ∉ A) :
    idxOf (A ++ u :: B) u = A.length := by
  induction A with
  | nil => simp [idxOf]
  | cons a A ih =>
    rw [List.cons_append, idxOf,
      if_neg (fun h => hA (by rw [h]; exact List.mem_cons_self u A)),
      ih (fun h => hA (List.mem_cons_of_mem a h))]
    rfl

theorem take_append_cons {α : Type} (A : List α) (u : α) (B : List α) :
    (A ++ u :: B).take (A.length + 1) = A ++ [u] := by
  induction A with
  | nil => simp
  | cons a A ih => simpa using ih

theorem drop_append_cons {α : Type} (A : List α) (u : α) (B : List α) :
    (A ++ u :: B).drop (A.length + 1) = B := by
  induction A with
  | nil => simp
  | cons a A ih => simpa using ih

theorem getD_append_length {α : Type} (A : List α) (u : α) (B : List α) (d : α) :
    (A ++ u :: B).getD A.length d = u := by
  induction A with
  | nil => simp
  | cons a A ih => simpa using ih

theorem get?_decomp {α : Type} {l : List α} {i : ℕ} {x : α} (h : l.get? i = some x) :
    ∃ l₁ l₂, l = l₁ ++ x :: l₂ ∧ l₁.length = i := by
  induction l generalizing i with
  | nil => simp at h
  | cons a l ih =>
    cases i with
    | zero =>
      have : a = x := by simpa using h
      exact ⟨[], l, by rw [this]; rfl, rfl⟩
    | succ i =>
      rcases ih (by simpa using h) with ⟨l₁, l₂, hdec, hlen⟩
      exact ⟨a :: l₁, l₂, by rw [hdec]; rfl, by simp [hlen]⟩

theorem removeIdx_decomp {α : Type} (l₁ : List α) (x : α) (l₂ : List α) :
    removeIdx (l₁ ++ x :: l₂) l₁.length = l₁ ++ l₂ := by
  rw [removeIdx]
  have h1 : (l₁ ++ x :: l₂).take l₁.length = l₁ := by
    induction l₁ with
    | nil => simp
    | cons a l ih => simpa using ih
  rw [h1, drop_append_cons]

theorem updRec_decomp {α : Type} (l₁ : List α) (x : α) (l₂ : List α) (f : α → α) :
    SolverM.updRec (l₁ ++ x :: l₂) l₁.length f = l₁ ++ f x :: l₂ := by
  induction l₁ with
  | nil => rfl
  | cons a l ih => simpa [SolverM.updRec] using ih

theorem getD_eq_of_decomp {α : Type} {l : List α} {l₁ l₂ : List α} {x : α} {d : α}
    (h : l = l₁ ++ x :: l₂) : l.getD l₁.length d = x := by
  rw [h]
  exact getD_append_length l₁ x l₂ d

/-- Path-parent read at the list level. -/
def parGetL (l : List (Option ℕ)) (u : ℕ) : Option ℕ := (l.get? u).getD none

theorem parGet_eq (st : LCTSt) (u : ℕ) : parGet st u = parGetL st.parent u := rfl

theorem setPar_length (l : List (Option ℕ)) (u : ℕ) (v : Option ℕ) :
    (setPar l u v).length = l.length := SolverM.updRec_length l u _

theorem parGetL_set_self_of_lt {l : List (Option ℕ)} {u : ℕ} (v : Option ℕ)
    (hu : u < l.length) : parGetL (setPar l u v) u = v := by
  induction l generalizing u with
  | nil => simp at hu
  | cons a l ih =>
    cases u with
    | zero => rfl
    | succ u =>
      show parGetL (setPar l u v) u = v
      exact ih (by simpa using hu)

theorem parGetL_set_ne {l : List (Option ℕ)} {u w : ℕ} (v : Option ℕ) (hne : w ≠ u) :
    parGetL (setPar l u v) w = parGetL l w := by
  induction l generalizing u w with
  | nil => cases u <;> rfl
  | cons a l ih =>
    cases u with
    | zero =>
      cases w with
      | zero => exact absurd rfl hne
      | succ w => rfl
    | succ u =>
      cases w with
      | zero => rfl
      | succ w =>
        show parGetL (setPar l u v) w = parGetL l w
        exact ih (fun h => hne (by rw [h]))

theorem findPath_eq_none {Ps : List (List ℕ)} {u : ℕ} :
    findPath Ps u = none ↔ ∀ P ∈ Ps, u ∉ P := by
  induction Ps with
  | nil => simp [findPath]
  | cons P Ps ih =>
    rw [findPath]
    by_cases hm : u ∈ P
    · rw [if_pos hm]
      simp [hm]
    · rw [if_neg hm]
      simp only [Option.map_eq_none', ih]
      constructor
      · intro h Q hQ
        rcases List.mem_cons.1 hQ with rfl | hQ
        · exact hm
        · exact h Q hQ
      · intro h Q hQ
        exact h Q (List.mem_cons_of_mem _ hQ)

theorem findPath_append_cons {Qs₁ : List (List ℕ)} {P : List ℕ} {Qs₂ : List (List ℕ)}
    {u : ℕ} (hu : u ∈ P) (hn : ∀ Q ∈ Qs₁, u ∉ Q) :
    findPath (Qs₁ ++ P :: Qs₂) u = some Qs₁.length := by
  induction Qs₁ with
  | nil => simp [findPath, hu]
  | cons Q Qs ih =>
    rw [List.cons_append, findPath, if_neg (hn Q (List.mem_cons_self _ _)),
      ih (fun Q hQ => hn Q (List.mem_cons_of_mem _ hQ))]
    rfl

theorem repParent_not_mem {st : LCTSt} {u : ℕ} (h : ∀ P ∈ st.paths, u ∉ P) :
    repParent st u = none := by
  rw [repParent, findPath_eq_none.2 h]

/-- The characterization of `repParent` by a path decomposition: order of the
path collection and positions beyond the decomposition are irrelevant. -/
theorem repParent_char {st : LCTSt} (hnd : st.paths.join.Nodup) {P A B : List ℕ} {w : ℕ}
    (hP : P ∈ st.paths) (hdec : P = A ++ w :: B) :
    repParent st w = (match A.getLast? with
      | none => parGet st w
      | some a => some a) := by
  rcases List.append_of_mem hP with ⟨Qs₁, Qs₂, hQ⟩
  have hjoin : st.paths.join = Qs₁.join ++ (P ++ Qs₂.join) := by
    rw [hQ]
    simp [List.join_append]
  have hndJ : (Qs₁.join ++ (P ++ Qs₂.join)).Nodup := hjoin ▸ hnd
  have hwP : w ∈ P := by
    rw [hdec]
    simp
  have hnQ : ∀ Q ∈ Qs₁, w ∉ Q := by
    intro Q hQ1 hwQ
    have h1 : w ∈ Qs₁.join := List.mem_join.2 ⟨Q, hQ1, hwQ⟩
    have h2 : w ∈ P ++ Qs₂.join := List.mem_append_left _ hwP
    exact (List.disjoint_of_nodup_append hndJ) h1 h2
  have hfp : findPath st.paths w = some Qs₁.length := by
    rw [hQ]
    exact findPath_append_cons hwP hnQ
  have hgd : st.paths.getD Qs₁.length [] = P := getD_eq_of_decomp hQ
  have hndP : P.Nodup := by
    have := List.Nodup.of_append_right hndJ
    exact List.Nodup.of_append_left this
  have hwA : w ∉ A := by
    rw [hdec] at hndP
    exact (SolverM.not_mem_of_nodup_middle hndP).1
  have hidx : idxOf P w = A.length := by
    rw [hdec]
    exact idxOf_append hwA
  rw [repParent, hfp]
  simp only [hgd, hidx]
  rcases List.eq_nil_or_concat A with rfl | ⟨A₀, a, hA⟩
  · simp
  · rw [List.concat_eq_append] at hA
    subst hA
    have hlen : A₀.length + 1 ≠ 0 := by omega
    rw [if_neg (by simpa using hlen)]
    have hgl : ((A₀ ++ [a]).getLast?) = some a := by
      simp [List.getLast?_concat]
    rw [hgl]
    have hgda : P.getD (A₀.length + 1 - 1) 0 = a := by
      have hd2 : P = A₀ ++ a :: (w :: B) := by
        rw [hdec]
        simp
      have := @getD_eq_of_decomp ℕ P A₀ (w :: B) a 0 hd2
      simpa using this
    rw [show (A₀ ++ [a]).length = A₀.length + 1 from by simp]
    rw [hgda]


theorem headD_mem {l : List ℕ} (h : l ≠ []) : l.headD 0 ∈ l := by
  cases l with
  | nil => exact absurd rfl h
  | cons a l => exact List.mem_cons_self a l

theorem sublist_join_of_mem {Ps : List (List ℕ)} {P : List ℕ} (h : P ∈ Ps) :
    P.Sublist Ps.join := by
  induction Ps with
  | nil => simp at h
  | cons Q Ps ih =>
    rcases List.mem_cons.1 h with rfl | h
    · show P.Sublist (P ++ Ps.join)
      exact List.sublist_append_left P Ps.join
    · show P.Sublist (Q ++ Ps.join)
      exact (ih h).trans (List.sublist_append_right Q Ps.join)

/-- The in-hand topmost path viewed as part of the collection. -/
def combPaths (Ps : List (List ℕ)) (pt : List ℕ) : List (List ℕ) :=
  Ps ++ (if pt.isEmpty then [] else [pt])

theorem combPaths_join (Ps : List (List ℕ)) (pt : List ℕ) :
    (combPaths Ps pt).join = Ps.join ++ pt := by
  rw [combPaths]
  cases pt with
  | nil => simp
  | cons a l => simp [List.join_append]

theorem mem_combPaths {Ps : List (List ℕ)} {pt Q : List ℕ} :
    Q ∈ combPaths Ps pt ↔ Q ∈ Ps ∨ (pt ≠ [] ∧ Q = pt) := by
  rw [combPaths]
  cases pt with
  | nil => simp
  | cons a l => simp [List.mem_append, or_comm, and_comm, eq_comm]

theorem chain_le (d : ℕ → ℕ) {C : List ℕ}
    (hstep : ∀ E F a b, C = E ++ a :: b :: F → d a < d b) :
    ∀ w ∈ C, d (C.headD 0) ≤ d w := by
  induction C with
  | nil => intro w hw; simp at hw
  | cons a C ih =>
    intro w hw
    rcases List.mem_cons.1 hw with rfl | hw
    · exact le_refl _
    · have hstep2 : ∀ E F x y, C = E ++ x :: y :: F → d x < d y := by
        intro E F x y hEF
        exact hstep (a :: E) F x y (by rw [hEF]; rfl)
      have h2 := ih hstep2 w hw
      cases C with
      | nil => simp at hw
      | cons c C2 =>
        have h3 : d a < d c := hstep [] C2 a c rfl
        have : (c :: C2).headD 0 = c := rfl
        rw [this] at h2
        calc d ((a :: c :: C2).headD 0) = d a := rfl
          _ ≤ d w := by omega

/-- The representation invariant of the link-cut tree (`Lists` container of
preferred paths plus path-parent pointers that describe a forest). -/
structure LRep (st : LCTSt) : Prop where
  plen : st.parent.length = st.n
  nonnil : ∀ P ∈ st.paths, P ≠ []
  bounded : ∀ P ∈ st.paths, ∀ w ∈ P, w < st.n
  uniq : st.paths.join.Nodup
  total : ∀ w, w < st.n → w ∈ st.paths.join
  headpar : ∀ P ∈ st.paths, ∀ A B w, P = A ++ w :: B → A ≠ [] →
    parGetL st.parent w = none
  parvals : ∀ w q, parGetL st.parent w = some q → q < st.n
  acyc : ∃ d : ℕ → ℕ, (∀ w, w < st.n → d w < st.n) ∧
    ∀ w q, repParent st w = some q → d q < d w

/-- Loop invariant of `accessLoop` relative to the starting state `st₀`, a
depth labeling `d` of its represented forest, and the accessed node `u₀`. -/
structure LI (st₀ : LCTSt) (d : ℕ → ℕ) (u₀ : ℕ) (st : LCTSt) (u : ℕ)
    (pt : List ℕ) : Prop where
  hn : st.n = st₀.n
  plen : st.parent.length = st₀.n
  nonnil : ∀ P ∈ combPaths st.paths pt, P ≠ []
  bounded : ∀ P ∈ combPaths st.paths pt, ∀ w ∈ P, w < st₀.n
  uniq : (combPaths st.paths pt).join.Nodup
  total : ∀ w, w < st₀.n → w ∈ (combPaths st.paths pt).join
  headpar : ∀ P ∈ combPaths st.paths pt, ∀ A B w, P = A ++ w :: B → A ≠ [] →
    parGetL st.parent w = none
  parvals : ∀ w q, parGetL st.parent w = some q → q < st₀.n
  hrp : ∀ w, (pt = [] ∨ w ≠ pt.headD 0) →
    repParent ⟨st.n, combPaths st.paths pt, st.parent⟩ w = repParent st₀ w
  hhd : pt ≠ [] → parGetL st.parent (pt.headD 0) = none ∧
    repParent st₀ (pt.headD 0) = some u
  hlast : (pt = [] ∧ u = u₀) ∨ (∃ L, pt = L ++ [u₀])
  humem : u ∈ st.paths.join
  hptd : ∀ w ∈ pt, d u < d w

/-- Postcondition of `access`: the final state with the reinserted topmost
path represents the same forest, `u₀` sits at the end of the topmost path,
and the topmost path head has no path-parent. -/
structure APost (st₀ : LCTSt) (u₀ : ℕ) (st' : LCTSt) (top : List ℕ) : Prop where
  hn : st'.n = st₀.n
  plen : st'.parent.length = st₀.n
  hlast : ∃ L, top = L ++ [u₀]
  nonnil : ∀ P ∈ st'.paths ++ [top], P ≠ []
  bounded : ∀ P ∈ st'.paths ++ [top], ∀ w ∈ P, w < st₀.n
  uniq : ((st'.paths ++ [top]).join).Nodup
  total : ∀ w, w < st₀.n → w ∈ (st'.paths ++ [top]).join
  headpar : ∀ P ∈ st'.paths ++ [top], ∀ A B w, P = A ++ w :: B → A ≠ [] →
    parGetL st'.parent w = none
  parvals : ∀ w q, parGetL st'.parent w = some q → q < st₀.n
  hrp : ∀ w, repParent ⟨st'.n, st'.paths ++ [top], st'.parent⟩ w = repParent st₀ w
  hhd : parGetL st'.parent (top.headD 0) = none


theorem combPaths_ne {Ps : List (List ℕ)} {pt : List ℕ} (h : pt ≠ []) :
    combPaths Ps pt = Ps ++ [pt] := by
  cases pt with
  | nil => exact absurd rfl h
  | cons a l => rfl

theorem headD_append {A B : List ℕ} (h : A ≠ []) : (A ++ B).headD 0 = A.headD 0 := by
  cases A with
  | nil => exact absurd rfl h
  | cons a l => rfl

theorem repParent_char_head {st : LCTSt} (hnd : st.paths.join.Nodup) {P B : List ℕ}
    {w : ℕ} (hP : P ∈ st.paths) (hdec : P = w :: B) :
    repParent st w = parGetL st.parent w := by
  have := @repParent_char st hnd P [] B w hP hdec
  simpa [parGet_eq] using this

theorem repParent_char_mid {st : LCTSt} (hnd : st.paths.join.Nodup) {P A₁ B : List ℕ}
    {w a : ℕ} (hP : P ∈ st.paths) (hdec : P = A₁ ++ a :: w :: B) :
    repParent st w = some a := by
  have := @repParent_char st hnd P (A₁ ++ [a]) B w hP (by rw [hdec]; simp)
  simpa [List.getLast?_concat] using this

/-- The state after one `accessLoop` iteration, in decomposed form. -/
def iterSt2 (st : LCTSt) (u : ℕ) (pt : List ℕ) (Qs₁ Qs₂ : List (List ℕ))
    (A₀ B₀ : List ℕ) : LCTSt :=
  ⟨st.n, (Qs₁ ++ Qs₂) ++ (if B₀.isEmpty then [] else [B₀]),
    setPar (if B₀.isEmpty then st.parent else setPar st.parent (B₀.headD 0) (some u))
      (((A₀ ++ [u]) ++ pt).headD 0) none⟩

theorem iter_join_eq (st : LCTSt) (u : ℕ) (pt : List ℕ) (Qs₁ Qs₂ : List (List ℕ))
    (A₀ B₀ : List ℕ) :
    (((iterSt2 st u pt Qs₁ Qs₂ A₀ B₀).paths ++ [(A₀ ++ [u]) ++ pt]).join).Perm
      ((Qs₁ ++ (A₀ ++ u :: B₀) :: Qs₂).join ++ pt) := by
  rw [List.perm_iff_count]
  intro a
  cases B₀ with
  | nil =>
    simp only [iterSt2, List.isEmpty_nil, if_pos rfl]
    simp [List.join_append, List.count_append, List.count_cons]
    split_ifs <;> omega
  | cons b B =>
    simp only [iterSt2]
    simp [List.join_append, List.count_append, List.count_cons]
    split_ifs <;> omega


theorem one_le_count_of_mem {a : ℕ} {l : List ℕ} (h : a ∈ l) : 1 ≤ l.count a := by
  rcases List.append_of_mem h with ⟨s, t, rfl⟩
  simp [List.count_append, List.count_cons]
  omega

theorem isEmpty_eq_nil {l : List ℕ} (h : l.isEmpty = true) : l = [] := by
  cases l with
  | nil => rfl
  | cons a t => simp at h

theorem rp_old_head (st : LCTSt) (pt : List ℕ)
    (hnd : ((combPaths st.paths pt).join).Nodup) {P B : List ℕ} {w : ℕ}
    (hP : P ∈ combPaths st.paths pt) (hdec : P = w :: B) :
    repParent ⟨st.n, combPaths st.paths pt, st.parent⟩ w = parGetL st.parent w :=
  @repParent_char_head ⟨st.n, combPaths st.paths pt, st.parent⟩ hnd P B w hP hdec

theorem rp_old_mid (st : LCTSt) (pt : List ℕ)
    (hnd : ((combPaths st.paths pt).join).Nodup) {P A₁ B : List ℕ} {w a : ℕ}
    (hP : P ∈ combPaths st.paths pt) (hdec : P = A₁ ++ a :: w :: B) :
    repParent ⟨st.n, combPaths st.paths pt, st.parent⟩ w = some a :=
  @repParent_char_mid ⟨st.n, combPaths st.paths pt, st.parent⟩ hnd P A₁ B w a hP hdec

theorem rp_new_head (st2 : LCTSt) (top : List ℕ)
    (hnd : ((st2.paths ++ [top]).join).Nodup) {P B : List ℕ} {w : ℕ}
    (hP : P ∈ st2.paths ++ [top]) (hdec : P = w :: B) :
    repParent ⟨st2.n, st2.paths ++ [top], st2.parent⟩ w = parGetL st2.parent w :=
  @repParent_char_head ⟨st2.n, st2.paths ++ [top], st2.parent⟩ hnd P B w hP hdec

theorem rp_new_mid (st2 : LCTSt) (top : List ℕ)
    (hnd : ((st2.paths ++ [top]).join).Nodup) {P A₁ B : List ℕ} {w a : ℕ}
    (hP : P ∈ st2.paths ++ [top]) (hdec : P = A₁ ++ a :: w :: B) :
    repParent ⟨st2.n, st2.paths ++ [top], st2.parent⟩ w = some a :=
  @repParent_char_mid ⟨st2.n, st2.paths ++ [top], st2.parent⟩ hnd P A₁ B w a hP hdec

theorem rp_new_notmem (st2 : LCTSt) (top : List ℕ) {w : ℕ}
    (h : ∀ P ∈ st2.paths ++ [top], w ∉ P) :
    repParent ⟨st2.n, st2.paths ++ [top], st2.parent⟩ w = none :=
  @repParent_not_mem ⟨st2.n, st2.paths ++ [top], st2.parent⟩ w h

theorem rp_old_notmem (st : LCTSt) (pt : List ℕ) {w : ℕ}
    (h : ∀ P ∈ combPaths st.paths pt, w ∉ P) :
    repParent ⟨st.n, combPaths st.paths pt, st.parent⟩ w = none :=
  @repParent_not_mem ⟨st.n, combPaths st.paths pt, st.parent⟩ w h

/-- Everything one `accessLoop` iteration guarantees about the next state,
independent of whether the climb continues. -/
structure ICore (st₀ : LCTSt) (d : ℕ → ℕ) (u₀ : ℕ) (st2 : LCTSt) (merged : List ℕ)
    (u : ℕ) : Prop where
  hn : st2.n = st₀.n
  plen : st2.parent.length = st₀.n
  hmerne : merged ≠ []
  hlastC : ∃ L, merged = L ++ [u₀]
  nonnil : ∀ P ∈ st2.paths ++ [merged], P ≠ []
  bounded : ∀ P ∈ st2.paths ++ [merged], ∀ w ∈ P, w < st₀.n
  uniq : ((st2.paths ++ [merged]).join).Nodup
  total : ∀ w, w < st₀.n → w ∈ (st2.paths ++ [merged]).join
  headpar : ∀ P ∈ st2.paths ++ [merged], ∀ A B w, P = A ++ w :: B → A ≠ [] →
    parGetL st2.parent w = none
  parvals : ∀ w q, parGetL st2.parent w = some q → q < st₀.n
  hrpC : ∀ w, w ≠ merged.headD 0 →
    repParent ⟨st2.n, st2.paths ++ [merged], st2.parent⟩ w = repParent st₀ w
  hrpH : repParent ⟨st2.n, st2.paths ++ [merged], st2.parent⟩ (merged.headD 0) =
    parGetL st2.parent (merged.headD 0)
  hhdC : parGetL st2.parent (merged.headD 0) = none
  hdmerged : ∀ w ∈ merged, d (merged.headD 0) ≤ d w
  hdhu : d (merged.headD 0) ≤ d u

theorem iter_core (st₀ : LCTSt) (d : ℕ → ℕ) (u₀ : ℕ)
    (hd : ∀ w q, repParent st₀ w = some q → d q < d w)
    {st : LCTSt} {u : ℕ} {pt : List ℕ} (hli : LI st₀ d u₀ st u pt)
    {Qs₁ Qs₂ : List (List ℕ)} {A₀ B₀ : List ℕ}
    (hQdec : st.paths = Qs₁ ++ (A₀ ++ u :: B₀) :: Qs₂) :
    ICore st₀ d u₀ (iterSt2 st u pt Qs₁ Qs₂ A₀ B₀) ((A₀ ++ [u]) ++ pt) u ∧
      parGetL (if B₀.isEmpty then st.parent
          else setPar st.parent (B₀.headD 0) (some u)) (((A₀ ++ [u]) ++ pt).headD 0) =
        repParent st₀ (((A₀ ++ [u]) ++ pt).headD 0) := by
  have hAne : (A₀ ++ [u]) ≠ [] := by simp
  have hmerne : ((A₀ ++ [u]) ++ pt) ≠ [] := by simp
  have hh_eq0 : ((A₀ ++ [u]) ++ pt).headD 0 = (A₀ ++ [u]).headD 0 := headD_append hAne
  have hh_eqP : ((A₀ ++ [u]) ++ pt).headD 0 = (A₀ ++ u :: B₀).headD 0 := by
    rw [hh_eq0]
    cases A₀ with
    | nil => rfl
    | cons a l => rfl
  have hhA : ((A₀ ++ [u]) ++ pt).headD 0 ∈ A₀ ++ [u] := by
    rw [hh_eq0]
    exact headD_mem hAne
  have hAin : ∀ w ∈ A₀ ++ [u], w ∈ A₀ ++ u :: B₀ := by
    intro w hw
    have := List.mem_append_left B₀ hw
    simpa using this
  have hBin : ∀ w ∈ B₀, w ∈ A₀ ++ u :: B₀ := fun w hw =>
    List.mem_append_right _ (List.mem_cons_of_mem _ hw)
  have hPmem : (A₀ ++ u :: B₀) ∈ st.paths := by
    rw [hQdec]
    exact List.mem_append_right _ (List.mem_cons_self _ _)
  have hPcomb : (A₀ ++ u :: B₀) ∈ combPaths st.paths pt := by
    rw [combPaths]
    exact List.mem_append_left _ hPmem
  have hptcomb : pt ≠ [] → pt ∈ combPaths st.paths pt := by
    intro hne
    rw [combPaths_ne hne]
    exact List.mem_append_right _ (List.mem_singleton_self _)
  have hcombj : (combPaths st.paths pt).join = st.paths.join ++ pt := combPaths_join _ _
  have hjoin_eq : (combPaths st.paths pt).join =
      Qs₁.join ++ (A₀ ++ (u :: (B₀ ++ (Qs₂.join ++ pt)))) := by
    rw [hcombj, hQdec]
    simp [List.join_append]
  have hcnt : ∀ w, ((combPaths st.paths pt).join).count w ≤ 1 := by
    intro w
    exact List.nodup_iff_count_le_one.1 hli.uniq w
  have hndJ0 : (st.paths.join ++ pt).Nodup := by
    rw [← hcombj]
    exact hli.uniq
  have hndpaths : st.paths.join.Nodup := hndJ0.of_append_left
  have hndpt : pt.Nodup := hndJ0.of_append_right
  have hndP : (A₀ ++ u :: B₀).Nodup := (sublist_join_of_mem hPmem).nodup hndpaths
  have hndP2 : ((A₀ ++ [u]) ++ B₀).Nodup := by
    rw [show (A₀ ++ [u]) ++ B₀ = A₀ ++ u :: B₀ from by simp]
    exact hndP
  have hndB : B₀.Nodup := hndP2.of_append_right
  have hdisjAB : ∀ w ∈ A₀ ++ [u], w ∉ B₀ := fun w hw =>
    (List.disjoint_of_nodup_append hndP2) hw
  have hdisjPpt : ∀ w ∈ (A₀ ++ u :: B₀), w ∉ pt := by
    intro w hw
    exact (List.disjoint_of_nodup_append hndJ0) ((sublist_join_of_mem hPmem).mem hw)
  have hWQP : ∀ Q, (Q ∈ Qs₁ ∨ Q ∈ Qs₂) → ∀ w ∈ Q, w ∉ (A₀ ++ u :: B₀) := by
    intro Q hQ w hwQ hwP
    have h0 := hcnt w
    rw [hjoin_eq] at h0
    have h1 : 1 ≤ Q.count w := one_le_count_of_mem hwQ
    have h2 : Q.count w ≤ Qs₁.join.count w + Qs₂.join.count w := by
      rcases hQ with hQ | hQ
      · have := (sublist_join_of_mem hQ).count_le w
        omega
      · have := (sublist_join_of_mem hQ).count_le w
        omega
    have h3 : 1 ≤ (A₀ ++ u :: B₀).count w := one_le_count_of_mem hwP
    simp only [List.count_append, List.count_cons] at h0 h3
    by_cases hwu : w = u
    · subst hwu
      simp at h0 h3
      omega
    · simp [hwu] at h0 h3
      omega
  have hQst : ∀ Q, (Q ∈ Qs₁ ∨ Q ∈ Qs₂) → Q ∈ st.paths := by
    intro Q hQ
    rw [hQdec]
    rcases hQ with hQ | hQ
    · exact List.mem_append_left _ hQ
    · exact List.mem_append_right _ (List.mem_cons_of_mem _ hQ)
  have hcondPt : ∀ w, w ∉ pt → (pt = [] ∨ w ≠ pt.headD 0) := by
    intro w hw
    by_cases hpt : pt = []
    · exact Or.inl hpt
    · exact Or.inr (fun heq => hw (heq ▸ headD_mem hpt))
  have hBcond : ∀ w, w ∉ (A₀ ++ u :: B₀) → (B₀ = [] ∨ w ≠ B₀.headD 0) := by
    intro w hw
    by_cases hB : B₀ = []
    · exact Or.inl hB
    · exact Or.inr (fun heq => hw (hBin _ (heq ▸ headD_mem hB)))
  have hBcondA : ∀ w ∈ A₀ ++ [u], (B₀ = [] ∨ w ≠ B₀.headD 0) := by
    intro w hw
    by_cases hB : B₀ = []
    · exact Or.inl hB
    · exact Or.inr (fun heq => hdisjAB w hw (heq ▸ headD_mem hB))
  have hBcondPt : ∀ w ∈ pt, (B₀ = [] ∨ w ≠ B₀.headD 0) := fun w hw =>
    hBcond w (fun hc => hdisjPpt w hc hw)
  have hperm := iter_join_eq st u pt Qs₁ Qs₂ A₀ B₀
  rw [← hQdec, ← hcombj] at hperm
  have uniq2 : (((iterSt2 st u pt Qs₁ Qs₂ A₀ B₀).paths ++ [(A₀ ++ [u]) ++ pt]).join).Nodup :=
    hperm.nodup_iff.2 hli.uniq
  have total2 : ∀ w, w < st₀.n →
      w ∈ ((iterSt2 st u pt Qs₁ Qs₂ A₀ B₀).paths ++ [(A₀ ++ [u]) ++ pt]).join := by
    intro w hw
    exact hperm.mem_iff.2 (hli.total w hw)
  have bounded2 : ∀ P ∈ (iterSt2 st u pt Qs₁ Qs₂ A₀ B₀).paths ++ [(A₀ ++ [u]) ++ pt],
      ∀ w ∈ P, w < st₀.n := by
    intro P hP w hw
    have hwj : w ∈ (combPaths st.paths pt).join :=
      hperm.mem_iff.1 (List.mem_join.2 ⟨P, hP, hw⟩)
    rcases List.mem_join.1 hwj with ⟨Q, hQ, hwQ⟩
    exact hli.bounded Q hQ w hwQ
  have hmem2 : ∀ P' : List ℕ,
      P' ∈ (iterSt2 st u pt Qs₁ Qs₂ A₀ B₀).paths ++ [(A₀ ++ [u]) ++ pt] ↔
        ((P' ∈ Qs₁ ∨ P' ∈ Qs₂) ∨ (B₀ ≠ [] ∧ B₀ = P') ∨ P' = (A₀ ++ [u]) ++ pt) := by
    intro P'
    cases B₀ with
    | nil =>
      simp [iterSt2]
      tauto
    | cons b B =>
      simp [iterSt2, List.mem_append]
      tauto
  have hMmem : ((A₀ ++ [u]) ++ pt) ∈
      (iterSt2 st u pt Qs₁ Qs₂ A₀ B₀).paths ++ [(A₀ ++ [u]) ++ pt] :=
    List.mem_append_right _ (List.mem_singleton_self _)
  have nonnil2 : ∀ P ∈ (iterSt2 st u pt Qs₁ Qs₂ A₀ B₀).paths ++ [(A₀ ++ [u]) ++ pt],
      P ≠ [] := by
    intro P hP
    rcases (hmem2 P).1 hP with hQ | ⟨hBne, rfl⟩ | rfl
    · exact hli.nonnil P (mem_combPaths.2 (Or.inl (hQst P hQ)))
    · exact hBne
    · exact hmerne
  have hu_lt : u < st₀.n := hli.bounded _ hPcomb u (by simp)
  have hh_lt : ((A₀ ++ [u]) ++ pt).headD 0 < st₀.n :=
    hli.bounded _ hPcomb _ (hAin _ hhA)
  have hhB : B₀ ≠ [] → ((A₀ ++ [u]) ++ pt).headD 0 ≠ B₀.headD 0 := by
    intro hBne heq
    exact hdisjAB _ hhA (heq ▸ headD_mem hBne)
  have hT : ∀ w, w ≠ ((A₀ ++ [u]) ++ pt).headD 0 → (B₀ = [] ∨ w ≠ B₀.headD 0) →
      parGetL (iterSt2 st u pt Qs₁ Qs₂ A₀ B₀).parent w = parGetL st.parent w := by
    intro w hwh hwB
    show parGetL (setPar _ _ none) w = _
    rw [parGetL_set_ne _ hwh]
    rcases hwB with hB | hwB
    · rw [if_pos (by rw [hB]; rfl)]
    · by_cases hBe : B₀.isEmpty
      · rw [if_pos hBe]
      · rw [if_neg hBe, parGetL_set_ne _ hwB]
  have plen1 : (if B₀.isEmpty then st.parent
      else setPar st.parent (B₀.headD 0) (some u)).length = st₀.n := by
    by_cases hBe : B₀.isEmpty
    · rw [if_pos hBe]
      exact hli.plen
    · rw [if_neg hBe, setPar_length]
      exact hli.plen
  have plen2 : (iterSt2 st u pt Qs₁ Qs₂ A₀ B₀).parent.length = st₀.n := by
    show (setPar _ _ none).length = st₀.n
    rw [setPar_length]
    exact plen1
  have hhdC : parGetL (iterSt2 st u pt Qs₁ Qs₂ A₀ B₀).parent
      (((A₀ ++ [u]) ++ pt).headD 0) = none := by
    show parGetL (setPar _ _ none) _ = none
    exact parGetL_set_self_of_lt none (by rw [plen1]; exact hh_lt)
  have parvals2 : ∀ w q,
      parGetL (iterSt2 st u pt Qs₁ Qs₂ A₀ B₀).parent w = some q → q < st₀.n := by
    intro w q hq
    by_cases hwh : w = ((A₀ ++ [u]) ++ pt).headD 0
    · rw [hwh, hhdC] at hq
      simp at hq
    · by_cases hBe : B₀.isEmpty
      · rw [hT w hwh (Or.inl (isEmpty_eq_nil hBe))] at hq
        exact hli.parvals w q hq
      · by_cases hwB : w = B₀.headD 0
        · have hval : parGetL (iterSt2 st u pt Qs₁ Qs₂ A₀ B₀).parent w = some u := by
            show parGetL (setPar _ _ none) w = some u
            rw [parGetL_set_ne _ hwh, if_neg hBe, hwB]
            exact parGetL_set_self_of_lt (some u) (by
              rw [hli.plen]
              rw [← hwB]
              refine hli.bounded _ hPcomb w ?_
              rw [hwB]
              exact hBin _ (headD_mem (fun hc => hBe (by rw [hc]; rfl))))
          rw [hval] at hq
          rw [← Option.some.inj hq]
          exact hu_lt
        · rw [hT w hwh (Or.inr hwB)] at hq
          exact hli.parvals w q hq
  have headpar2 : ∀ P ∈ (iterSt2 st u pt Qs₁ Qs₂ A₀ B₀).paths ++ [(A₀ ++ [u]) ++ pt],
      ∀ A B w, P = A ++ w :: B → A ≠ [] →
        parGetL (iterSt2 st u pt Qs₁ Qs₂ A₀ B₀).parent w = none := by
    intro P hP A B w hdec hAne2
    by_cases hwh : w = ((A₀ ++ [u]) ++ pt).headD 0
    · rw [hwh]
      exact hhdC
    · rcases (hmem2 P).1 hP with hQ | ⟨hBne, rfl⟩ | rfl
      · have hwQ : w ∈ P := by
          rw [hdec]
          simp
        have hold : parGetL st.parent w = none :=
          hli.headpar P (mem_combPaths.2 (Or.inl (hQst P hQ))) A B w hdec hAne2
        rw [hT w hwh (hBcond w (hWQP P hQ w hwQ))]
        exact hold
      · have hPdec : A₀ ++ u :: B₀ = (A₀ ++ u :: A) ++ w :: B := by
          rw [hdec]
          simp
        have hold : parGetL st.parent w = none :=
          hli.headpar (A₀ ++ u :: B₀) hPcomb (A₀ ++ u :: A) B w hPdec (by simp)
        have hwB : w ≠ B₀.headD 0 := by
          rw [hdec, headD_append hAne2]
          intro heq
          have hmA : w ∈ A := heq ▸ headD_mem hAne2
          have : (A ++ w :: B).Nodup := hdec ▸ hndB
          exact (SolverM.not_mem_of_nodup_middle this).1 hmA
        rw [hT w hwh (Or.inr hwB)]
        exact hold
      · have hwm : w ∈ (A₀ ++ [u]) ++ pt := by
          rw [hdec]
          simp
        rcases List.mem_append.1 hwm with hwA2 | hwpt
        · rcases List.append_of_mem hwA2 with ⟨X, Y, hXY⟩
          have hXne : X ≠ [] := by
            intro hX
            subst hX
            apply hwh
            rw [hh_eq0, hXY]
            rfl
          have hPdec : A₀ ++ u :: B₀ = X ++ w :: (Y ++ B₀) := by
            rw [show A₀ ++ u :: B₀ = (A₀ ++ [u]) ++ B₀ from by simp, hXY]
            simp
          have hold : parGetL st.parent w = none :=
            hli.headpar (A₀ ++ u :: B₀) hPcomb X (Y ++ B₀) w hPdec hXne
          rw [hT w hwh (hBcondA w hwA2)]
          exact hold
        · have hptne : pt ≠ [] := fun hc => by
            rw [hc] at hwpt
            exact absurd hwpt (List.not_mem_nil w)
          rcases List.append_of_mem hwpt with ⟨X, Y, hXY⟩
          have hold : parGetL st.parent w = none := by
            cases X with
            | nil =>
              have hh := (hli.hhd hptne).1
              rw [hXY] at hh
              exact hh
            | cons x X2 =>
              exact hli.headpar pt (hptcomb hptne) (x :: X2) Y w hXY (by simp)
          rw [hT w hwh (hBcondPt w hwpt)]
          exact hold
  have hrpC : ∀ w, w ≠ ((A₀ ++ [u]) ++ pt).headD 0 →
      repParent ⟨(iterSt2 st u pt Qs₁ Qs₂ A₀ B₀).n,
          (iterSt2 st u pt Qs₁ Qs₂ A₀ B₀).paths ++ [(A₀ ++ [u]) ++ pt],
          (iterSt2 st u pt Qs₁ Qs₂ A₀ B₀).parent⟩ w = repParent st₀ w := by
    intro w hwh
    by_cases hwj : w ∈ ((iterSt2 st u pt Qs₁ Qs₂ A₀ B₀).paths ++ [(A₀ ++ [u]) ++ pt]).join
    · rcases List.mem_join.1 hwj with ⟨P, hP, hwP⟩
      rcases (hmem2 P).1 hP with hQ | ⟨hBne, rfl⟩ | rfl
      · rcases List.append_of_mem hwP with ⟨X, Y, hXY⟩
        have hwpt : w ∉ pt :=
          (List.disjoint_of_nodup_append hndJ0) ((sublist_join_of_mem (hQst P hQ)).mem hwP)
        have hrpold := hli.hrp w (hcondPt w hwpt)
        have hPold : P ∈ combPaths st.paths pt := mem_combPaths.2 (Or.inl (hQst P hQ))
        rcases List.eq_nil_or_concat X with rfl | ⟨X₀, a, hXc⟩
        · rw [List.nil_append] at hXY
          rw [rp_new_head _ _ uniq2 hP hXY, ← hrpold,
            rp_old_head st pt hli.uniq hPold hXY]
          exact hT w hwh (hBcond w (hWQP P hQ w hwP))
        · rw [List.concat_eq_append] at hXc
          subst hXc
          have hXY2 : P = X₀ ++ a :: w :: Y := by
            rw [hXY]
            simp
          rw [rp_new_mid _ _ uniq2 hP hXY2, ← hrpold,
            rp_old_mid st pt hli.uniq hPold hXY2]
      · rcases List.append_of_mem hwP with ⟨X, Y, hXY⟩
        have hwPc : w ∈ A₀ ++ u :: B₀ := hBin _ hwP
        have hrpold := hli.hrp w (hcondPt w (hdisjPpt w hwPc))
        rcases List.eq_nil_or_concat X with rfl | ⟨X₀, a, hXc⟩
        · rw [List.nil_append] at hXY
          have hval : parGetL (iterSt2 st u pt Qs₁ Qs₂ A₀ B₀).parent w = some u := by
            show parGetL (setPar _ _ none) w = some u
            rw [parGetL_set_ne _ hwh, if_neg (fun hc => hBne (isEmpty_eq_nil hc)),
              show w = B₀.headD 0 from by rw [hXY]; rfl]
            exact parGetL_set_self_of_lt (some u) (by
              rw [hli.plen, ← show w = B₀.headD 0 from by rw [hXY]; rfl]
              exact hli.bounded _ hPcomb w hwPc)
          have hPdec : A₀ ++ u :: B₀ = A₀ ++ u :: w :: Y := by rw [hXY]
          rw [rp_new_head _ _ uniq2 hP hXY, hval, ← hrpold,
            rp_old_mid st pt hli.uniq hPcomb hPdec]
        · rw [List.concat_eq_append] at hXc
          subst hXc
          have hXY2 : B₀ = X₀ ++ a :: w :: Y := by
            rw [hXY]
            simp
          have hPdec : A₀ ++ u :: B₀ = (A₀ ++ u :: X₀) ++ a :: w :: Y := by
            rw [hXY2]
            simp
          rw [rp_new_mid _ _ uniq2 hP hXY2, ← hrpold,
            rp_old_mid st pt hli.uniq hPcomb hPdec]
      · rcases List.mem_append.1 hwP with hwA2 | hwpt
        · rcases List.append_of_mem hwA2 with ⟨X, Y, hXY⟩
          have hXne : X ≠ [] := by
            intro hX
            subst hX
            apply hwh
            rw [hh_eq0, hXY]
            rfl
          rcases List.eq_nil_or_concat X with rfl | ⟨X₀, a, hXc⟩
          · exact absurd rfl hXne
          · rw [List.concat_eq_append] at hXc
            subst hXc
            have hwPc : w ∈ A₀ ++ u :: B₀ := hAin _ hwA2
            have hrpold := hli.hrp w (hcondPt w (hdisjPpt w hwPc))
            have hMdec : (A₀ ++ [u]) ++ pt = X₀ ++ a :: w :: (Y ++ pt) := by
              rw [hXY]
              simp
            have hPdec : A₀ ++ u :: B₀ = X₀ ++ a :: w :: (Y ++ B₀) := by
              rw [show A₀ ++ u :: B₀ = (A₀ ++ [u]) ++ B₀ from by simp, hXY]
              simp
            rw [rp_new_mid _ _ uniq2 hMmem hMdec, ← hrpold,
              rp_old_mid st pt hli.uniq hPcomb hPdec]
        · have hptne : pt ≠ [] := fun hc => by
            rw [hc] at hwpt
            exact absurd hwpt (List.not_mem_nil w)
          rcases List.append_of_mem hwpt with ⟨X, Y, hXY⟩
          cases X with
          | nil =>
            rw [List.nil_append] at hXY
            have hMdec : (A₀ ++ [u]) ++ pt = A₀ ++ u :: w :: Y := by
              rw [hXY]
              simp
            have hh2 := (hli.hhd hptne).2
            rw [hXY] at hh2
            rw [rp_new_mid _ _ uniq2 hMmem hMdec]
            exact hh2.symm
          | cons x X2 =>
            have hwnh : w ≠ pt.headD 0 := by
              rw [hXY, headD_append (by simp : (x :: X2 : List ℕ) ≠ [])]
              intro heq
              have hmX : w ∈ x :: X2 := heq ▸ headD_mem (by simp)
              have : ((x :: X2) ++ w :: Y).Nodup := hXY ▸ hndpt
              exact (SolverM.not_mem_of_nodup_middle this).1 hmX
            have hrpold := hli.hrp w (Or.inr hwnh)
            rcases List.eq_nil_or_concat (x :: X2) with hc | ⟨X₀, a, hXc⟩
            · exact absurd hc (by simp)
            · rw [List.concat_eq_append] at hXc
              have hXY2 : pt = X₀ ++ a :: w :: Y := by
                rw [hXY, hXc]
                simp
              have hMdec : (A₀ ++ [u]) ++ pt = ((A₀ ++ [u]) ++ X₀) ++ a :: w :: Y := by
                rw [hXY2]
                simp
              rw [rp_new_mid _ _ uniq2 hMmem hMdec, ← hrpold,
                rp_old_mid st pt hli.uniq (hptcomb hptne) hXY2]
    · have hnm : ∀ P ∈ (iterSt2 st u pt Qs₁ Qs₂ A₀ B₀).paths ++ [(A₀ ++ [u]) ++ pt],
          w ∉ P := fun P hP hwP => hwj (List.mem_join.2 ⟨P, hP, hwP⟩)
      have hwold : w ∉ (combPaths st.paths pt).join := fun hc => hwj (hperm.mem_iff.2 hc)
      have hnmold : ∀ P ∈ combPaths st.paths pt, w ∉ P :=
        fun P hP hwP => hwold (List.mem_join.2 ⟨P, hP, hwP⟩)
      have hccond : pt = [] ∨ w ≠ pt.headD 0 := by
        by_cases hpt : pt = []
        · exact Or.inl hpt
        · exact Or.inr (fun heq => hwold (by
            rw [combPaths_join]
            exact List.mem_append_right _ (heq ▸ headD_mem hpt)))
      have h2 := hli.hrp w hccond
      rw [rp_old_notmem st pt hnmold] at h2
      rw [rp_new_notmem _ _ hnm]
      exact h2
  have hmcons : (A₀ ++ [u]) ++ pt =
      (((A₀ ++ [u]) ++ pt).headD 0) :: ((A₀ ++ [u]) ++ pt).tail := by
    cases A₀ with
    | nil => rfl
    | cons a l => rfl
  have hrpH : repParent ⟨(iterSt2 st u pt Qs₁ Qs₂ A₀ B₀).n,
      (iterSt2 st u pt Qs₁ Qs₂ A₀ B₀).paths ++ [(A₀ ++ [u]) ++ pt],
      (iterSt2 st u pt Qs₁ Qs₂ A₀ B₀).parent⟩ (((A₀ ++ [u]) ++ pt).headD 0) =
      parGetL (iterSt2 st u pt Qs₁ Qs₂ A₀ B₀).parent (((A₀ ++ [u]) ++ pt).headD 0) :=
    rp_new_head _ _ uniq2 hMmem hmcons
  have hstepA : ∀ E F a b, (A₀ ++ [u]) = E ++ a :: b :: F → d a < d b := by
    intro E F a b hEF
    have hPd : A₀ ++ u :: B₀ = E ++ a :: b :: (F ++ B₀) := by
      rw [show A₀ ++ u :: B₀ = (A₀ ++ [u]) ++ B₀ from by simp, hEF]
      simp
    have hmid := rp_old_mid st pt hli.uniq hPcomb hPd
    have hbP : b ∈ A₀ ++ u :: B₀ := by
      rw [hPd]
      simp
    have hrpold := hli.hrp b (hcondPt b (hdisjPpt b hbP))
    rw [hrpold] at hmid
    exact hd b a hmid
  have hchainA := chain_le d hstepA
  have hdhu : d (((A₀ ++ [u]) ++ pt).headD 0) ≤ d u := by
    rw [hh_eq0]
    exact hchainA u (by simp)
  have hdmerged : ∀ w ∈ (A₀ ++ [u]) ++ pt, d (((A₀ ++ [u]) ++ pt).headD 0) ≤ d w := by
    intro w hw
    rcases List.mem_append.1 hw with hwA | hwpt
    · rw [hh_eq0]
      exact hchainA w hwA
    · have h1 : d u < d w := hli.hptd w hwpt
      omega
  have hlastC : ∃ L, (A₀ ++ [u]) ++ pt = L ++ [u₀] := by
    rcases hli.hlast with ⟨hpt, hu⟩ | ⟨L, hpt⟩
    · subst hpt
      subst hu
      exact ⟨A₀, by simp⟩
    · subst hpt
      exact ⟨(A₀ ++ [u]) ++ L, by simp⟩
  have hnxt : parGetL (if B₀.isEmpty then st.parent
      else setPar st.parent (B₀.headD 0) (some u)) (((A₀ ++ [u]) ++ pt).headD 0) =
      repParent st₀ (((A₀ ++ [u]) ++ pt).headD 0) := by
    have hp1 : parGetL (if B₀.isEmpty then st.parent
        else setPar st.parent (B₀.headD 0) (some u)) (((A₀ ++ [u]) ++ pt).headD 0) =
        parGetL st.parent (((A₀ ++ [u]) ++ pt).headD 0) := by
      by_cases hBe : B₀.isEmpty
      · rw [if_pos hBe]
      · rw [if_neg hBe, parGetL_set_ne _ (hhB (fun hc => hBe (by rw [hc]; rfl)))]
    have hPcons : A₀ ++ u :: B₀ =
        (((A₀ ++ [u]) ++ pt).headD 0) :: (A₀ ++ u :: B₀).tail := by
      rw [hh_eqP]
      cases A₀ with
      | nil => rfl
      | cons a l => rfl
    have hold := rp_old_head st pt hli.uniq hPcomb hPcons
    have hhc : ((A₀ ++ [u]) ++ pt).headD 0 ∈ A₀ ++ u :: B₀ := hAin _ hhA
    have hrpold := hli.hrp (((A₀ ++ [u]) ++ pt).headD 0)
      (hcondPt _ (hdisjPpt _ hhc))
    rw [hp1, ← hrpold, hold]
  exact ⟨⟨hli.hn, plen2, hmerne, hlastC, nonnil2, bounded2, uniq2, total2, headpar2,
    parvals2, hrpC, hrpH, hhdC, hdmerged, hdhu⟩, hnxt⟩


theorem icore_exit {st₀ : LCTSt} {d : ℕ → ℕ} {u₀ : ℕ} {st2 : LCTSt} {merged : List ℕ}
    {u : ℕ} (hc : ICore st₀ d u₀ st2 merged u)
    (hnone : repParent st₀ (merged.headD 0) = none) :
    APost st₀ u₀ st2 merged := by
  refine ⟨hc.hn, hc.plen, hc.hlastC, hc.nonnil, hc.bounded, hc.uniq, hc.total,
    hc.headpar, hc.parvals, ?_, hc.hhdC⟩
  intro w
  by_cases hwh : w = merged.headD 0
  · rw [hwh, hc.hrpH, hc.hhdC, hnone]
  · exact hc.hrpC w hwh

theorem icore_cont {st₀ : LCTSt} {d : ℕ → ℕ} {u₀ : ℕ} {st2 : LCTSt} {merged : List ℕ}
    {u p : ℕ} (hc : ICore st₀ d u₀ st2 merged u)
    (hd : ∀ w q, repParent st₀ w = some q → d q < d w)
    (hrpb : ∀ w q, repParent st₀ w = some q → q < st₀.n)
    (hsome : repParent st₀ (merged.headD 0) = some p) :
    LI st₀ d u₀ st2 p merged ∧ d p < d u := by
  have hdp : d p < d (merged.headD 0) := hd _ _ hsome
  have hdpu : d p < d u := lt_of_lt_of_le hdp hc.hdhu
  have hpm : p ∉ merged := by
    intro hm
    have := hc.hdmerged p hm
    omega
  have hplt : p < st₀.n := hrpb _ _ hsome
  have humem : p ∈ st2.paths.join := by
    have h1 := hc.total p hplt
    rcases List.mem_join.1 h1 with ⟨Q, hQ, hpQ⟩
    rcases List.mem_append.1 hQ with hQ2 | hQ2
    · exact List.mem_join.2 ⟨Q, hQ2, hpQ⟩
    · simp at hQ2
      subst hQ2
      exact absurd hpQ hpm
  refine ⟨⟨hc.hn, hc.plen, ?_, ?_, ?_, ?_, ?_, hc.parvals, ?_, ?_, Or.inr hc.hlastC,
    humem, ?_⟩, hdpu⟩
  · rw [combPaths_ne hc.hmerne]
    exact hc.nonnil
  · rw [combPaths_ne hc.hmerne]
    exact hc.bounded
  · rw [combPaths_ne hc.hmerne]
    exact hc.uniq
  · rw [combPaths_ne hc.hmerne]
    exact hc.total
  · rw [combPaths_ne hc.hmerne]
    exact hc.headpar
  · intro w hw
    rcases hw with hw | hw
    · exact absurd hw hc.hmerne
    · rw [combPaths_ne hc.hmerne]
      exact hc.hrpC w hw
  · intro _
    exact ⟨hc.hhdC, hsome⟩
  · intro w hw
    have := hc.hdmerged w hw
    omega

theorem findPath_some_decomp {Ps : List (List ℕ)} {u : ℕ} {pi : ℕ}
    (h : findPath Ps u = some pi) :
    ∃ Qs₁ P Qs₂, Ps = Qs₁ ++ P :: Qs₂ ∧ Qs₁.length = pi ∧ u ∈ P ∧
      ∀ Q ∈ Qs₁, u ∉ Q := by
  induction Ps generalizing pi with
  | nil => simp [findPath] at h
  | cons P Ps ih =>
    rw [findPath] at h
    by_cases hm : u ∈ P
    · rw [if_pos hm] at h
      refine ⟨[], P, Ps, rfl, ?_, hm, by simp⟩
      simpa using Option.some.inj h
    · rw [if_neg hm] at h
      rcases Option.map_eq_some'.1 h with ⟨pj, hpj, hpi⟩
      rcases ih hpj with ⟨Qs₁, P', Qs₂, hdec, hlen, hmem, hnot⟩
      refine ⟨P :: Qs₁, P', Qs₂, by rw [hdec]; rfl, by simp [hlen, hpi.symm], hmem, ?_⟩
      intro Q hQ
      rcases List.mem_cons.1 hQ with rfl | hQ
      · exact hm
      · exact hnot Q hQ


theorem accessLoop_spec (st₀ : LCTSt) (d : ℕ → ℕ) (u₀ : ℕ)
    (hd : ∀ w q, repParent st₀ w = some q → d q < d w)
    (hrpb : ∀ w q, repParent st₀ w = some q → q < st₀.n) :
    ∀ fuel st u pt, LI st₀ d u₀ st u pt → d u < fuel →
      APost st₀ u₀ (accessLoop fuel st u pt).1 (accessLoop fuel st u pt).2.2 := by
  intro fuel
  induction fuel with
  | zero =>
    intro st u pt hli hdu
    omega
  | succ fuel ih =>
    intro st u pt hli hdu
    rcases hfp : findPath st.paths u with _ | pi
    · exfalso
      rcases List.mem_join.1 hli.humem with ⟨Q, hQ, huQ⟩
      exact (findPath_eq_none.1 hfp) Q hQ huQ
    · rcases findPath_some_decomp hfp with ⟨Qs₁, P, Qs₂, hdec, hlen, humem, hnot⟩
      have hndP : P.Nodup := by
        have hPmem2 : P ∈ st.paths := by
          rw [hdec]
          exact List.mem_append_right _ (List.mem_cons_self _ _)
        have h1 : ((combPaths st.paths pt).join).Nodup := hli.uniq
        rw [combPaths_join] at h1
        exact (sublist_join_of_mem hPmem2).nodup h1.of_append_left
      rcases List.append_of_mem humem with ⟨A₁, B₁, hPdec⟩
      have huA : u ∉ A₁ := by
        rw [hPdec] at hndP
        exact (SolverM.not_mem_of_nodup_middle hndP).1
      subst hPdec
      obtain ⟨hcore, hnxt⟩ := iter_core st₀ d u₀ hd hli hdec
      have hgd : st.paths.getD pi [] = A₁ ++ u :: B₁ := by
        rw [← hlen]
        exact getD_eq_of_decomp hdec
      have hidx : idxOf (A₁ ++ u :: B₁) u = A₁.length := idxOf_append huA
      have htake : (A₁ ++ u :: B₁).take (A₁.length + 1) = A₁ ++ [u] :=
        take_append_cons A₁ u B₁
      have hdrop : (A₁ ++ u :: B₁).drop (A₁.length + 1) = B₁ :=
        drop_append_cons A₁ u B₁
      have hrem : removeIdx st.paths pi = Qs₁ ++ Qs₂ := by
        rw [← hlen, hdec]
        exact removeIdx_decomp Qs₁ _ Qs₂
      show APost st₀ u₀ (accessLoop (fuel + 1) st u pt).1
        (accessLoop (fuel + 1) st u pt).2.2
      rw [accessLoop, hfp]
      simp only [hgd, hidx, htake, hdrop, hrem]
      rcases hnx : repParent st₀ (((A₁ ++ [u]) ++ pt).headD 0) with _ | p3
      · rw [hnx] at hnxt
        have hsc : parGet ⟨st.n,
            (Qs₁ ++ Qs₂) ++ (if B₁.isEmpty then [] else [B₁]),
            if B₁.isEmpty then st.parent
              else setPar st.parent (B₁.headD 0) (some u)⟩
            (((A₁ ++ [u]) ++ pt).headD 0) = none := hnxt
        rw [hsc]
        exact icore_exit hcore hnx
      · rw [hnx] at hnxt
        have hsc : parGet ⟨st.n,
            (Qs₁ ++ Qs₂) ++ (if B₁.isEmpty then [] else [B₁]),
            if B₁.isEmpty then st.parent
              else setPar st.parent (B₁.headD 0) (some u)⟩
            (((A₁ ++ [u]) ++ pt).headD 0) = some p3 := hnxt
        rw [hsc]
        obtain ⟨hli2, hdp⟩ := icore_cont hcore hd hrpb hnx
        exact ih _ p3 _ hli2 (by omega)


theorem lrep_rp_lt {st : LCTSt} (hr : LRep st) :
    ∀ w q, repParent st w = some q → q < st.n := by
  intro w q hq
  by_cases hwj : w ∈ st.paths.join
  · rcases List.mem_join.1 hwj with ⟨P, hP, hwP⟩
    rcases List.append_of_mem hwP with ⟨A, B, hdec⟩
    rcases List.eq_nil_or_concat A with rfl | ⟨A₀, a, hA⟩
    · rw [List.nil_append] at hdec
      rw [repParent_char_head hr.uniq hP hdec] at hq
      exact hr.parvals w q hq
    · rw [List.concat_eq_append] at hA
      subst hA
      have hdec2 : P = A₀ ++ a :: w :: B := by
        rw [hdec]
        simp
      rw [repParent_char_mid hr.uniq hP hdec2] at hq
      have haP : a ∈ P := by
        rw [hdec2]
        simp
      rw [← Option.some.inj hq]
      exact hr.bounded P hP a haP
  · rw [repParent_not_mem (fun P hP hwP => hwj (List.mem_join.2 ⟨P, hP, hwP⟩))] at hq
    simp at hq

theorem li_init {st : LCTSt} (hr : LRep st) (d : ℕ → ℕ)
    (hd : ∀ w q, repParent st w = some q → d q < d w) {u : ℕ} (hu : u < st.n) :
    LI st d u st u [] := by
  have hcomb : combPaths st.paths [] = st.paths := by
    rw [combPaths]
    simp
  refine ⟨rfl, hr.plen, ?_, ?_, ?_, ?_, ?_, hr.parvals, ?_, ?_, Or.inl ⟨rfl, rfl⟩,
    hr.total u hu, ?_⟩
  · rw [hcomb]
    exact hr.nonnil
  · rw [hcomb]
    exact hr.bounded
  · rw [hcomb]
    exact hr.uniq
  · rw [hcomb]
    exact hr.total
  · rw [hcomb]
    exact hr.headpar
  · intro w _
    rw [hcomb]
  · intro h
    exact absurd rfl h
  · intro w hw
    simp at hw

theorem cut_spec (st : LCTSt) (u : ℕ) (hr : LRep st) (hu : u < st.n) :
    (cut st u).2 = repParent st u ∧
      ∀ w, repParent (cut st u).1 w = if w = u then none else repParent st w := by
  obtain ⟨d, hdb, hd⟩ := hr.acyc
  have hap : APost st u (accessLoop st.n st u []).1 (accessLoop st.n st u []).2.2 :=
    accessLoop_spec st d u hd (lrep_rp_lt hr) st.n st u [] (li_init hr d hd hu)
      (hdb u hu)
  simp only [cut, access]
  generalize hg1 : accessLoop st.n st u [] = R at hap ⊢
  obtain ⟨stA, uA, top⟩ := R
  dsimp only at hap ⊢
  obtain ⟨L, htop⟩ := hap.hlast
  subst htop
  have hps : ((stA.paths ++ [L ++ [u]]).join) = stA.paths.join ++ (L ++ [u]) := by
    simp
  have hndJ : (stA.paths.join ++ (L ++ [u])).Nodup := by
    rw [← hps]
    exact hap.uniq
  have hutop : u ∈ L ++ [u] := by simp
  have hnotQ : ∀ Q ∈ stA.paths, u ∉ Q := by
    intro Q hQ huQ
    exact (List.disjoint_of_nodup_append hndJ)
      (List.mem_join.2 ⟨Q, hQ, huQ⟩) hutop
  have hfp : findPath (stA.paths ++ [L ++ [u]]) u = some stA.paths.length :=
    @findPath_append_cons stA.paths (L ++ [u]) [] u hutop hnotQ
  rw [hfp]
  have hgd : (stA.paths ++ [L ++ [u]]).getD stA.paths.length [] = L ++ [u] :=
    @getD_eq_of_decomp (List ℕ) (stA.paths ++ [L ++ [u]]) stA.paths [] (L ++ [u]) [] rfl
  have hndtop : (L ++ [u]).Nodup := hndJ.of_append_right
  have huL : u ∉ L := (SolverM.not_mem_of_nodup_middle hndtop).1
  have hidx : idxOf (L ++ [u]) u = L.length := idxOf_append huL
  dsimp only
  rw [hgd, hidx]
  rcases List.eq_nil_or_concat L with rfl | ⟨L₀, p, hL0⟩
  · have hc0 : (([] : List ℕ)).length = 0 := rfl
    rw [if_pos hc0]
    have hhd : parGetL stA.parent u = none := hap.hhd
    have hmemu : ([] ++ [u] : List ℕ) ∈ stA.paths ++ [[] ++ [u]] := by simp
    have hch : repParent ⟨stA.n, stA.paths ++ [[] ++ [u]], stA.parent⟩ u =
        parGetL stA.parent u :=
      rp_new_head stA ([] ++ [u]) hap.uniq hmemu rfl
    constructor
    · rw [← hap.hrp u, hch, hhd]
    · intro w
      by_cases hwu : w = u
      · rw [hwu, if_pos rfl]
        exact hch.trans hhd
      · rw [if_neg hwu]
        exact hap.hrp w
  · rw [List.concat_eq_append] at hL0
    subst hL0
    rw [if_neg (by simp)]
    have hmemtop : ((L₀ ++ [p]) ++ [u]) ∈ stA.paths ++ [(L₀ ++ [p]) ++ [u]] := by simp
    have htdec : (L₀ ++ [p]) ++ [u] = L₀ ++ p :: u :: [] := by simp
    have hrpu : repParent ⟨stA.n, stA.paths ++ [(L₀ ++ [p]) ++ [u]], stA.parent⟩ u =
        some p :=
      rp_new_mid stA _ hap.uniq hmemtop htdec
    have hupd : SolverM.updRec (stA.paths ++ [(L₀ ++ [p]) ++ [u]]) stA.paths.length
        (fun _ => ((L₀ ++ [p]) ++ [u]).take (L₀ ++ [p]).length) =
        stA.paths ++ [L₀ ++ [p]] := by
      have h1 := updRec_decomp stA.paths ((L₀ ++ [p]) ++ [u]) []
        (fun _ => ((L₀ ++ [p]) ++ [u]).take (L₀ ++ [p]).length)
      rw [h1, List.take_left]
    have hdrop2 : ((L₀ ++ [p]) ++ [u]).drop (L₀ ++ [p]).length = [u] :=
      List.drop_left _ _
    have hgdp : ((L₀ ++ [p]) ++ [u]).getD ((L₀ ++ [p]).length - 1) 0 = p := by
      rw [show (L₀ ++ [p]).length - 1 = L₀.length from by simp]
      exact @getD_eq_of_decomp ℕ ((L₀ ++ [p]) ++ [u]) L₀ [u] p 0 (by simp)
    rw [hupd, hdrop2, hgdp]
    have hjeq : ((stA.paths ++ [L₀ ++ [p]]) ++ [[u]]).join =
        ((stA.paths ++ [(L₀ ++ [p]) ++ [u]]).join) := by
      simp
    have hnd2 : (((stA.paths ++ [L₀ ++ [p]]) ++ [[u]]).join).Nodup := by
      rw [hjeq]
      exact hap.uniq
    constructor
    · rw [← hap.hrp u, hrpu]
    · intro w
      by_cases hwu : w = u
      · rw [hwu, if_pos rfl]
        have hpg : parGetL stA.parent u = none :=
          hap.headpar ((L₀ ++ [p]) ++ [u]) hmemtop (L₀ ++ [p]) [] u (by simp) (by simp)
        have hch : repParent ⟨stA.n, (stA.paths ++ [L₀ ++ [p]]) ++ [[u]], stA.parent⟩ u =
            parGetL stA.parent u :=
          @rp_new_head ⟨stA.n, stA.paths ++ [L₀ ++ [p]], stA.parent⟩ [u] hnd2 [u] [] u
            (by simp) rfl
        exact hch.trans hpg
      · rw [if_neg hwu, ← hap.hrp w]
        by_cases hwj : w ∈ ((stA.paths ++ [(L₀ ++ [p]) ++ [u]]).join)
        · rcases List.mem_join.1 hwj with ⟨Q, hQ, hwQ⟩
          rcases List.mem_append.1 hQ with hQA | hQtop
          · rcases List.append_of_mem hwQ with ⟨X, Y, hXY⟩
            have hQ2 : Q ∈ (stA.paths ++ [L₀ ++ [p]]) ++ [[u]] :=
              List.mem_append_left _ (List.mem_append_left _ hQA)
            have hQ3 : Q ∈ stA.paths ++ [(L₀ ++ [p]) ++ [u]] :=
              List.mem_append_left _ hQA
            rcases List.eq_nil_or_concat X with rfl | ⟨X₀, a, hXc⟩
            · rw [List.nil_append] at hXY
              rw [rp_new_head ⟨stA.n, stA.paths ++ [L₀ ++ [p]], stA.parent⟩ [u] hnd2
                  hQ2 hXY,
                rp_new_head stA ((L₀ ++ [p]) ++ [u]) hap.uniq hQ3 hXY]
            · rw [List.concat_eq_append] at hXc
              subst hXc
              have hXY2 : Q = X₀ ++ a :: w :: Y := by
                rw [hXY]
                simp
              rw [rp_new_mid ⟨stA.n, stA.paths ++ [L₀ ++ [p]], stA.parent⟩ [u] hnd2
                  hQ2 hXY2,
                rp_new_mid stA ((L₀ ++ [p]) ++ [u]) hap.uniq hQ3 hXY2]
          · have hQeq : Q = (L₀ ++ [p]) ++ [u] := by simpa using hQtop
            subst hQeq
            rcases List.mem_append.1 hwQ with hwL | hwu2
            · rcases List.append_of_mem hwL with ⟨X, Y, hXY⟩
              have hQ2 : (L₀ ++ [p]) ∈ (stA.paths ++ [L₀ ++ [p]]) ++ [[u]] := by simp
              have htdec2 : (L₀ ++ [p]) ++ [u] = X ++ w :: (Y ++ [u]) := by
                rw [hXY]
                simp
              rcases List.eq_nil_or_concat X with rfl | ⟨X₀, a, hXc⟩
              · rw [List.nil_append] at hXY
                have htdech : (L₀ ++ [p]) ++ [u] = w :: (Y ++ [u]) := by
                  rw [hXY]
                  simp
                rw [rp_new_head ⟨stA.n, stA.paths ++ [L₀ ++ [p]], stA.parent⟩ [u] hnd2
                    hQ2 hXY,
                  rp_new_head stA ((L₀ ++ [p]) ++ [u]) hap.uniq hmemtop htdech]
              · rw [List.concat_eq_append] at hXc
                subst hXc
                have hXY2 : L₀ ++ [p] = X₀ ++ a :: w :: Y := by
                  rw [hXY]
                  simp
                have htdec3 : (L₀ ++ [p]) ++ [u] = X₀ ++ a :: w :: (Y ++ [u]) := by
                  rw [hXY2]
                  simp
                rw [rp_new_mid ⟨stA.n, stA.paths ++ [L₀ ++ [p]], stA.parent⟩ [u] hnd2
                    hQ2 hXY2,
                  rp_new_mid stA ((L₀ ++ [p]) ++ [u]) hap.uniq hmemtop htdec3]
            · exact absurd (by simpa using hwu2) hwu
        · have hnm1 : ∀ P ∈ (stA.paths ++ [L₀ ++ [p]]) ++ [[u]], w ∉ P := by
            intro P hP hwP
            apply hwj
            rw [← hjeq]
            exact List.mem_join.2 ⟨P, hP, hwP⟩
          have hnm2 : ∀ P ∈ stA.paths ++ [(L₀ ++ [p]) ++ [u]], w ∉ P := by
            intro P hP hwP
            exact hwj (List.mem_join.2 ⟨P, hP, hwP⟩)
          rw [rp_new_notmem ⟨stA.n, stA.paths ++ [L₀ ++ [p]], stA.parent⟩ [u] hnm1,
            rp_new_notmem stA ((L₀ ++ [p]) ++ [u]) hnm2]


/-- The five-vertex scenario: build the path 0-1-2-3-4, query `lca 0 4`,
reroot at 2, query again, `cut 3`, query once more. -/
def cutDemo : Option ℕ × Option ℕ × Option ℕ × Option ℕ :=
  let st1 := (link (lctNew 5) 0 1).1
  let st2 := (link st1 1 2).1
  let st3 := (link st2 2 3).1
  let st4 := (link st3 3 4).1
  let q1 := lca st4 0 4
  let st5 := reroot q1.1 2
  let q2 := lca st5 0 4
  let q3 := cut q2.1 3
  let q4 := lca q3.1 0 4
  (q1.2, q2.2, q3.2, q4.2)

/-- C9: on any well-formed link-cut-tree state, `cut u` returns the parent of
`u` in the represented forest (`none` exactly when `u` is a root, in which
case nothing changes) and removes exactly the edge from `u` to that parent:
the represented parent function afterwards agrees with the original
everywhere except that `u` now has none. In particular, on the 5-vertex path
0-1-2-3-4, `lca 0 4 = some 0`; after `reroot 2`, `lca 0 4 = some 2`; then
`cut 3` returns `some 2` and a subsequent `lca 0 4` returns `none`. -/
theorem lct_cut_ok (st : LCTSt) (u : ℕ) (hr : LRep st) (hu : u < st.n) :
    ((cut st u).2 = repParent st u ∧
      ∀ w, repParent (cut st u).1 w = if w = u then none else repParent st w) ∧
    cutDemo = (some 0, some 2, some 2, none) :=
  ⟨cut_spec st u hr hu, by decide⟩

theorem lct_cut_ok_witness :
    ((cut (lctNew 1) 0).2 = repParent (lctNew 1) 0 ∧
      ∀ w, repParent (cut (lctNew 1) 0).1 w =
        if w = 0 then none else repParent (lctNew 1) w) ∧
    cutDemo = (some 0, some 2, some 2, none) := by
  have hrep : LRep (lctNew 1) := by
    refine ⟨rfl, by decide, by decide, by decide, ?_, ?_, ?_, ?_⟩
    · intro w hw
      have h1 : w < 1 := hw
      have h0 : w = 0 := by omega
      subst h0
      decide
    · intro P hP A B w hdec hA
      have hP2 : P = [0] := by
        have hpaths : (lctNew 1).paths = [[0]] := rfl
        rw [hpaths] at hP
        simpa using hP
      rw [hP2] at hdec
      have hlen := congrArg List.length hdec
      simp at hlen
      have := List.length_pos.2 hA
      omega
    · intro w q hq
      cases w with
      | zero =>
        rw [show parGetL (lctNew 1).parent 0 = none from rfl] at hq
        exact Option.noConfusion hq
      | succ n =>
        rw [show parGetL (lctNew 1).parent (n + 1) = none from rfl] at hq
        exact Option.noConfusion hq
    · refine ⟨fun _ => 0, fun w hw => Nat.one_pos, fun w q hq => ?_⟩
      exfalso
      cases w with
      | zero =>
        rw [show repParent (lctNew 1) 0 = none from rfl] at hq
        exact Option.noConfusion hq
      | succ n =>
        rw [show repParent (lctNew 1) (n + 1) = none from rfl] at hq
        exact Option.noConfusion hq
  exact lct_cut_ok (lctNew 1) 0 hrep Nat.one_pos

end LCTM

namespace SolverM

theorem mem_eraseE_of_ne {es : List Edge} {e f : Edge} (hf : f ∈ es) (hne : f ≠ e) :
    f ∈ eraseE es e := by
  induction es with
  | nil => simp at hf
  | cons a l ih =>
    rw [eraseE]
    by_cases ha : a = e
    · rw [if_pos ha]
      rcases List.mem_cons.1 hf with rfl | hf2
      · exact absurd ha hne
      · exact hf2
    · rw [if_neg ha]
      rcases List.mem_cons.1 hf with rfl | hf2
      · exact List.mem_cons_self _ _
      · exact List.mem_cons_of_mem _ (ih hf2)

/-- Edges not incident to `v`. -/
def avoidV (es : List Edge) (v : ℕ) : List Edge :=
  es.filter fun e => decide (e.1 ≠ v) && decide (e.2 ≠ v)

theorem mem_avoidV {es : List Edge} {v : ℕ} {e : Edge} :
    e ∈ avoidV es v ↔ e ∈ es ∧ e.1 ≠ v ∧ e.2 ≠ v := by
  rw [avoidV, List.mem_filter]
  simp

theorem avoidV_sublist (es : List Edge) (v : ℕ) : (avoidV es v).Sublist es :=
  List.filter_sublist es

/-- Removing all `v`-incident edges refines removing one `v`-incident edge. -/
theorem avoidV_sublist_eraseE {es : List Edge} {v : ℕ} {e : Edge}
    (he : e.1 = v ∨ e.2 = v) : (avoidV es v).Sublist (eraseE es e) := by
  induction es with
  | nil => exact List.Sublist.refl _
  | cons a l ih =>
    rw [eraseE]
    by_cases ha : a = e
    · rw [if_pos ha]
      have hna : ¬((decide (a.1 ≠ v) && decide (a.2 ≠ v)) = true) := by
        subst ha
        rcases he with h | h <;> simp [h]
      rw [show avoidV (a :: l) v = avoidV l v from by
        rw [avoidV, avoidV, List.filter_cons, if_neg hna]]
      exact avoidV_sublist l v
    · rw [if_neg ha]
      rw [avoidV, List.filter_cons]
      by_cases hp : (decide (a.1 ≠ v) && decide (a.2 ≠ v)) = true
      · rw [if_pos hp]
        exact List.Sublist.cons₂ a ih
      · rw [if_neg hp]
        exact List.Sublist.cons a ih

theorem two_le_length_of_mem_ne {α : Type} {l : List α} {a b : α} (ha : a ∈ l)
    (hb : b ∈ l) (hne : a ≠ b) : 2 ≤ l.length := by
  rcases List.append_of_mem ha with ⟨s, t, rfl⟩
  rw [List.mem_append] at hb
  rcases hb with h | h
  · have hs : s ≠ [] := by
      intro hc
      rw [hc] at h
      simp at h
    have h1 : 1 ≤ s.length := List.length_pos.2 hs
    simp only [List.length_append, List.length_cons]
    omega
  · rcases List.mem_cons.1 h with rfl | h2
    · exact absurd rfl hne
    · have ht : t ≠ [] := by
        intro hc
        rw [hc] at h2
        simp at h2
      have h1 : 1 ≤ t.length := List.length_pos.2 ht
      simp only [List.length_append, List.length_cons]
      omega

theorem exists_ne_of_two_le {α : Type} {l : List α} (hnd : l.Nodup)
    (h2 : 2 ≤ l.length) (x : α) : ∃ y ∈ l, y ≠ x := by
  cases l with
  | nil => simp at h2
  | cons a l2 =>
    cases l2 with
    | nil => simp at h2
    | cons b l3 =>
      by_cases hax : a = x
      · refine ⟨b, by simp, ?_⟩
        subst hax
        intro hbx
        exact (List.nodup_cons.1 hnd).1 (by rw [hbx]; exact List.mem_cons_self _ _)
      · exact ⟨a, by simp, hax⟩

theorem norm_eq_of_same_pair {e f : Edge} (he : e.1 < e.2) (hf : f.1 < f.2)
    (h : (e.1 = f.1 ∧ e.2 = f.2) ∨ (e.1 = f.2 ∧ e.2 = f.1)) : e = f := by
  rcases h with ⟨h1, h2⟩ | ⟨h1, h2⟩
  · exact Prod.ext h1 h2
  · exfalso
    omega

theorem getLast?_append_cons2 : ∀ (P : List ℕ) (v : ℕ) (S : List ℕ),
    (P ++ v :: S).getLast? = (v :: S).getLast? := by
  intro P
  induction P with
  | nil => intro v S; rfl
  | cons p P ih =>
    intro v S
    cases hP : P ++ v :: S with
    | nil => exact absurd hP (by simp)
    | cons q rest =>
      rw [List.cons_append, hP, List.getLast?_cons_cons, ← hP, ih]

theorem chain_snoc {r : ℕ → ℕ → Prop} : ∀ {l : List ℕ} {a w c : ℕ},
    List.Chain r a l → (a :: l).getLast? = some w → r w c →
    List.Chain r a (l ++ [c]) := by
  intro l
  induction l with
  | nil =>
    intro a w c _ hl hrc
    have : a = w := by simpa using hl
    subst this
    exact List.Chain.cons hrc List.Chain.nil
  | cons b l ih =>
    intro a w c hch hl hrc
    rcases List.chain_cons.1 hch with ⟨hab, hbl⟩
    rw [List.getLast?_cons_cons] at hl
    exact List.Chain.cons hab (ih hbl hl hrc)

theorem chain_suffix {r : ℕ → ℕ → Prop} : ∀ (P : List ℕ) {a b : ℕ} {S : List ℕ},
    List.Chain r a (P ++ b :: S) → List.Chain r b S := by
  intro P
  induction P with
  | nil =>
    intro a b S hch
    exact (List.chain_cons.1 hch).2
  | cons p P ih =>
    intro a b S hch
    exact ih (List.chain_cons.1 hch).2

theorem chain_take {r : ℕ → ℕ → Prop} : ∀ {l₁ l₂ : List ℕ} {a : ℕ},
    List.Chain r a (l₁ ++ l₂) → List.Chain r a l₁ := by
  intro l₁
  induction l₁ with
  | nil => intro l₂ a _; exact List.Chain.nil
  | cons b l ih =>
    intro l₂ a hch
    rcases List.chain_cons.1 hch with ⟨hab, hbl⟩
    exact List.Chain.cons hab (ih hbl)

theorem chain_last_adj {r : ℕ → ℕ → Prop} : ∀ {l₀ : List ℕ} {a w p : ℕ},
    List.Chain r a (l₀ ++ [w]) → (a :: l₀).getLast? = some p → r p w := by
  intro l₀
  induction l₀ with
  | nil =>
    intro a w p hch hl
    have : a = p := by simpa using hl
    subst this
    exact (List.chain_cons.1 hch).1
  | cons b l ih =>
    intro a w p hch hl
    rw [List.getLast?_cons_cons] at hl
    exact ih (List.chain_cons.1 hch).2 hl

theorem conn_chain {es : List Edge} {a b : ℕ} (h : Conn es a b) :
    ∃ l, List.Chain (adjacent es) a l ∧ (a :: l).getLast? = some b := by
  induction h with
  | refl => exact ⟨[], List.Chain.nil, rfl⟩
  | tail hab hbc ih =>
    rename_i c cc
    rcases ih with ⟨l, hch, hlast⟩
    refine ⟨l ++ [cc], chain_snoc hch hlast hbc, ?_⟩
    rw [show a :: (l ++ [cc]) = (a :: l) ++ [cc] from rfl]
    rw [List.getLast?_concat]

theorem chain_conn {es : List Edge} : ∀ {l : List ℕ} {a b : ℕ},
    List.Chain (adjacent es) a l → (a :: l).getLast? = some b → Conn es a b := by
  intro l
  induction l with
  | nil =>
    intro a b _ hl
    have : a = b := by simpa using hl
    subst this
    exact Conn.refl a
  | cons c l ih =>
    intro a b hch hl
    rcases List.chain_cons.1 hch with ⟨hac, hcl⟩
    rw [List.getLast?_cons_cons] at hl
    exact (Conn.of_adj hac).trans (ih hcl hl)

theorem chain_avoid {es : List Edge} {v : ℕ} : ∀ {l : List ℕ} {a : ℕ},
    List.Chain (adjacent es) a l → (∀ w ∈ a :: l, w ≠ v) →
    List.Chain (adjacent (avoidV es v)) a l := by
  intro l
  induction l with
  | nil => intro a _ _; exact List.Chain.nil
  | cons b l ih =>
    intro a hch hne
    rcases List.chain_cons.1 hch with ⟨hab, hbl⟩
    refine List.Chain.cons ?_ (ih hbl ?_)
    · have ha : a ≠ v := hne a (by simp)
      have hb : b ≠ v := hne b (by simp)
      rcases hab with h | h
      · exact Or.inl (mem_avoidV.2 ⟨h, ha, hb⟩)
      · exact Or.inr (mem_avoidV.2 ⟨h, hb, ha⟩)
    · intro w hw
      exact hne w (List.mem_cons_of_mem _ hw)

theorem conn_step {es : List Edge} {v x : ℕ} (h : Conn es v x) (hne : v ≠ x) :
    ∃ y, adjacent es v y ∧ Conn (avoidV es v) y x := by
  rcases conn_chain h with ⟨l, hch, hl⟩
  clear h
  suffices H : ∀ k l, l.length ≤ k → List.Chain (adjacent es) v l →
      (v :: l).getLast? = some x → ∃ y, adjacent es v y ∧ Conn (avoidV es v) y x by
    exact H l.length l le_rfl hch hl
  intro k
  induction k with
  | zero =>
    intro l hk hch hl
    have hl0 : l = [] := List.eq_nil_of_length_eq_zero (by omega)
    subst hl0
    have : v = x := by simpa using hl
    exact absurd this hne
  | succ k ih =>
    intro l hk hch hl
    cases l with
    | nil =>
      have : v = x := by simpa using hl
      exact absurd this hne
    | cons y l2 =>
      rcases List.chain_cons.1 hch with ⟨hvy, hyl⟩
      by_cases hv : v ∈ y :: l2
      · rcases List.append_of_mem hv with ⟨P, S, hPS⟩
        rw [hPS] at hch hl
        have hchS : List.Chain (adjacent es) v S := chain_suffix P hch
        have hl2 : (v :: S).getLast? = some x := by
          rw [show v :: (P ++ v :: S) = (v :: P) ++ v :: S from rfl,
            getLast?_append_cons2] at hl
          exact hl
        have hlen : S.length ≤ k := by
          have hpl := congrArg List.length hPS
          simp only [List.length_cons, List.length_append] at hpl hk
          omega
        exact ih S hlen hchS hl2
      · refine ⟨y, hvy, ?_⟩
        have hAll : ∀ w ∈ y :: l2, w ≠ v := fun w hw heq => hv (heq ▸ hw)
        have hch2 : List.Chain (adjacent (avoidV es v)) y l2 := chain_avoid hyl hAll
        rw [List.getLast?_cons_cons] at hl
        exact chain_conn hch2 hl


/-- Incidence degree of a vertex in an edge list. -/
def degI (es : List Edge) (w : ℕ) : ℕ :=
  (es.filter fun e => decide (e.1 = w) || decide (e.2 = w)).length

theorem chain_mem_verts {F : List Edge} : ∀ {l : List ℕ} {a : ℕ},
    List.Chain (adjacent F) a l → ∀ w ∈ l, w ∈ F.map Prod.fst ++ F.map Prod.snd := by
  intro l
  induction l with
  | nil => intro a _ w hw; simp at hw
  | cons b l ih =>
    intro a hch w hw
    rcases List.chain_cons.1 hch with ⟨hab, hbl⟩
    rcases List.mem_cons.1 hw with rfl | hw2
    · rcases hab with h | h
      · exact List.mem_append_right _ (List.mem_map.2 ⟨_, h, rfl⟩)
      · exact List.mem_append_left _ (List.mem_map.2 ⟨_, h, rfl⟩)
    · exact ih hbl w hw2

/-- In a forest whose every touched vertex except possibly `v₀` has incidence
degree at least two, no edge can exist: a non-backtracking walk from `v₀`
would never terminate. -/
theorem forest_mindeg_absurd {F : List Edge} (hf : IsForest F)
    (hn : ∀ e ∈ F, e.1 < e.2) (hnd : F.Nodup) {v₀ y₀ : ℕ}
    (hadj : adjacent F v₀ y₀)
    (hdeg : ∀ w, w ≠ v₀ → (∃ e ∈ F, e.1 = w ∨ e.2 = w) → 2 ≤ degI F w) :
    False := by
  have grow : ∀ k, ∃ l, List.Chain (adjacent F) v₀ l ∧ (v₀ :: l).Nodup ∧
      l ≠ [] ∧ k ≤ l.length := by
    intro k
    induction k with
    | zero =>
      refine ⟨[y₀], List.Chain.cons hadj List.Chain.nil, ?_, by simp, by simp⟩
      have : v₀ ≠ y₀ := by
        rcases hadj with h | h
        · have := hn _ h
          omega
        · have := hn _ h
          omega
      simp [this]
    | succ k ihk =>
      rcases ihk with ⟨l, hch, hndl, hlne, hlen⟩
      rcases List.eq_nil_or_concat l with rfl | ⟨l₀, w, hlw⟩
      · exact absurd rfl hlne
      rw [List.concat_eq_append] at hlw
      subst hlw
      cases hp : (v₀ :: l₀).getLast? with
      | none => exact absurd hp (by simp)
      | some p =>
      have hpw : adjacent F p w := chain_last_adj hch hp
      have hwne : w ≠ v₀ := by
        intro heq
        have : v₀ ∉ l₀ ++ [w] := (List.nodup_cons.1 hndl).1
        exact this (by rw [← heq]; simp)
      obtain ⟨ein, heinF, heinc⟩ : ∃ e ∈ F, (e.1 = p ∧ e.2 = w) ∨ (e.1 = w ∧ e.2 = p) := by
        rcases hpw with h | h
        · exact ⟨(p, w), h, Or.inl ⟨rfl, rfl⟩⟩
        · exact ⟨(w, p), h, Or.inr ⟨rfl, rfl⟩⟩
      have hdw : 2 ≤ degI F w := by
        refine hdeg w hwne ⟨ein, heinF, ?_⟩
        rcases heinc with ⟨_, h2⟩ | ⟨h1, _⟩
        · exact Or.inr h2
        · exact Or.inl h1
      have heinfil : ein ∈ F.filter fun e => decide (e.1 = w) || decide (e.2 = w) := by
        rw [List.mem_filter]
        refine ⟨heinF, ?_⟩
        rcases heinc with ⟨h1, h2⟩ | ⟨h1, h2⟩ <;> simp [h1, h2]
      obtain ⟨e₂, he₂fil, he₂ne⟩ :=
        exists_ne_of_two_le (hnd.filter _) hdw ein
      have he₂F : e₂ ∈ F := (List.mem_filter.1 he₂fil).1
      have he₂w : e₂.1 = w ∨ e₂.2 = w := by
        have := (List.mem_filter.1 he₂fil).2
        simpa using this
      have he₂n := hn e₂ he₂F
      have heinn := hn ein heinF
      -- the other endpoint of the second edge
      obtain ⟨z, hzw, hadjwz, hze⟩ : ∃ z, z ≠ w ∧ adjacent F w z ∧
          ((e₂.1 = w ∧ e₂.2 = z) ∨ (e₂.1 = z ∧ e₂.2 = w)) := by
        rcases he₂w with h1 | h2
        · refine ⟨e₂.2, by omega, Or.inl ?_, Or.inl ⟨h1, rfl⟩⟩
          rw [← h1]
          exact he₂F
        · refine ⟨e₂.1, by omega, Or.inr ?_, Or.inr ⟨rfl, h2⟩⟩
          rw [← h2]
          exact he₂F
      have hzp : z ≠ p := by
        intro heq
        subst heq
        apply he₂ne
        refine norm_eq_of_same_pair he₂n heinn ?_
        rcases hze with ⟨h1, h2⟩ | ⟨h1, h2⟩ <;> rcases heinc with ⟨g1, g2⟩ | ⟨g1, g2⟩ <;>
          omega
      by_cases hzin : z ∈ v₀ :: (l₀ ++ [w])
      · -- cycle: contradiction with the forest property at e₂
        exfalso
        have hzl : z ∈ v₀ :: l₀ := by
          rcases List.mem_cons.1 hzin with rfl | h2
          · exact List.mem_cons_self _ _
          · rw [List.mem_append] at h2
            rcases h2 with h3 | h3
            · exact List.mem_cons_of_mem _ h3
            · exact absurd (by simpa using h3) hzw
        have hwout : w ∉ v₀ :: l₀ := by
          have h1 : ((v₀ :: l₀) ++ [w]).Nodup := by
            rw [show (v₀ :: l₀) ++ [w] = v₀ :: (l₀ ++ [w]) from rfl]
            exact hndl
          intro hc
          exact (List.disjoint_of_nodup_append h1) hc (by simp)
        rcases List.append_of_mem hzl with ⟨Pz, Sz, hPS⟩
        have hchz : List.Chain (adjacent F) z Sz := by
          cases Pz with
          | nil =>
            rw [List.nil_append] at hPS
            rcases List.cons_eq_cons.1 hPS with ⟨rfl, rfl⟩
            exact chain_take hch
          | cons q Pz2 =>
            have h1 : l₀ = Pz2 ++ z :: Sz := (List.cons_eq_cons.1 hPS).2
            rw [h1] at hch
            exact chain_suffix Pz2 (chain_take hch)
        have hlz : (z :: Sz).getLast? = some p := by
          rw [hPS, getLast?_append_cons2] at hp
          exact hp
        have hallne : ∀ a ∈ z :: Sz, a ≠ w := by
          intro a ha heq
          subst heq
          apply hwout
          rw [hPS, List.mem_append]
          rcases List.mem_cons.1 ha with rfl | h2
          · exact Or.inr (List.mem_cons_self _ _)
          · exact Or.inr (List.mem_cons_of_mem _ h2)
        have hconn1 : Conn (avoidV F w) z p :=
          chain_conn (chain_avoid hchz hallne) hlz
        have hconn2 : Conn (eraseE F e₂) z p :=
          conn_mono (fun e he => (avoidV_sublist_eraseE (by
            rcases he₂w with h | h
            · exact Or.inl h
            · exact Or.inr h)).mem he) hconn1
        have heinmem : ein ∈ eraseE F e₂ :=
          mem_eraseE_of_ne heinF (fun hc => he₂ne hc.symm)
        have hadj2 : adjacent (eraseE F e₂) p w := by
          rcases heinc with ⟨h1, h2⟩ | ⟨h1, h2⟩
          · left
            rw [show (p, w) = ein from by
              rcases ein with ⟨x1, x2⟩
              simp at h1 h2
              rw [h1, h2]]
            exact heinmem
          · right
            rw [show (w, p) = ein from by
              rcases ein with ⟨x1, x2⟩
              simp at h1 h2
              rw [h1, h2]]
            exact heinmem
        have hconn3 : Conn (eraseE F e₂) z w := hconn2.trans (Conn.of_adj hadj2)
        refine hf e₂ he₂F ?_
        rcases hze with ⟨h1, h2⟩ | ⟨h1, h2⟩
        · rw [h1, h2]
          exact hconn3.symm
        · rw [h1, h2]
          exact hconn3
      · -- extend the chain by z
        have hlastw : (v₀ :: (l₀ ++ [w])).getLast? = some w := by
          rw [show v₀ :: (l₀ ++ [w]) = (v₀ :: l₀) ++ [w] from rfl, List.getLast?_concat]
        refine ⟨(l₀ ++ [w]) ++ [z], chain_snoc hch hlastw hadjwz, ?_, by simp, ?_⟩
        · rw [show v₀ :: ((l₀ ++ [w]) ++ [z]) = (v₀ :: (l₀ ++ [w])) ++ [z] from rfl]
          rw [List.nodup_append]
          refine ⟨hndl, by simp, ?_⟩
          intro a ha hb
          rw [List.mem_singleton] at hb
          subst hb
          exact hzin ha
        · simp only [List.length_append, List.length_cons] at hlen ⊢
          omega
  rcases grow ((F.map Prod.fst ++ F.map Prod.snd).length + 1) with
    ⟨l, hch, hndl, _, hlen⟩
  have hsub : ∀ w ∈ l, w ∈ F.map Prod.fst ++ F.map Prod.snd := chain_mem_verts hch
  have hndl2 : l.Nodup := (List.nodup_cons.1 hndl).2
  have hcard : l.length ≤ (F.map Prod.fst ++ F.map Prod.snd).length := by
    have h1 : l.toFinset.card = l.length := List.toFinset_card_of_nodup hndl2
    have h2 : l.toFinset ⊆ (F.map Prod.fst ++ F.map Prod.snd).toFinset := by
      intro a ha
      rw [List.mem_toFinset] at ha ⊢
      exact hsub a ha
    have h3 := Finset.card_le_card h2
    have h4 := List.toFinset_card_le (F.map Prod.fst ++ F.map Prod.snd)
    omega
  omega


/-- Degree of `v` counting edges whose other endpoint is still alive. -/
def degA (es : List Edge) (alive : List ℕ) (v : ℕ) : ℕ :=
  (es.filter fun e => (decide (e.1 = v) && decide (e.2 ∈ alive)) ||
      (decide (e.2 = v) && decide (e.1 ∈ alive))).length

/-- Leaf peeling: repeatedly remove a vertex of degree at most one (the claim
allows removing any such vertex; this picks the first) until a fixed point. -/
def peelGo : ℕ → List Edge → List ℕ → List ℕ
  | 0, _, alive => alive
  | fuel + 1, es, alive =>
    match (alive.filter fun v => decide (degA es alive v ≤ 1)).head? with
    | none => alive
    | some v => peelGo fuel es (alive.erase v)

/-- Whether leaf peeling of the graph `es` on vertices `0..n-1` keeps `u`. -/
def survivesPeel (n : ℕ) (es : List Edge) (u : ℕ) : Bool :=
  decide (u ∈ peelGo n es (List.range n))

theorem peelGo_subset : ∀ (fuel : ℕ) (es : List Edge) (alive : List ℕ) (a : ℕ),
    a ∈ peelGo fuel es alive → a ∈ alive := by
  intro fuel
  induction fuel with
  | zero => intro es alive a ha; exact ha
  | succ fuel ih =>
    intro es alive a ha
    rw [peelGo] at ha
    cases hpk : (alive.filter fun v => decide (degA es alive v ≤ 1)).head? with
    | none =>
      rw [hpk] at ha
      exact ha
    | some v =>
      rw [hpk] at ha
      exact List.mem_of_mem_erase (ih es (alive.erase v) a ha)

theorem degA_mono {es : List Edge} {A B : List ℕ} (h : ∀ a ∈ A, a ∈ B) (v : ℕ) :
    degA es A v ≤ degA es B v := by
  rw [degA, degA, ← List.countP_eq_length_filter, ← List.countP_eq_length_filter]
  refine List.countP_mono_left ?_
  intro e _ he
  simp only [Bool.or_eq_true, Bool.and_eq_true, decide_eq_true_eq] at he ⊢
  rcases he with ⟨h1, h2⟩ | ⟨h1, h2⟩
  · exact Or.inl ⟨h1, h _ h2⟩
  · exact Or.inr ⟨h1, h _ h2⟩

theorem head?_mem_self {α : Type} {l : List α} {a : α} (h : l.head? = some a) :
    a ∈ l := by
  cases l with
  | nil => simp at h
  | cons x t =>
    have : x = a := by simpa using h
    subst this
    exact List.mem_cons_self _ _

theorem peelGo_fix : ∀ (fuel : ℕ) (es : List Edge) (alive : List ℕ),
    alive.length ≤ fuel →
    ∀ v ∈ peelGo fuel es alive, 2 ≤ degA es (peelGo fuel es alive) v := by
  intro fuel
  induction fuel with
  | zero =>
    intro es alive hlen v hv
    have : alive = [] := List.eq_nil_of_length_eq_zero (by omega)
    subst this
    simp [peelGo] at hv
  | succ fuel ih =>
    intro es alive hlen v hv
    rw [peelGo] at hv ⊢
    cases hpk : (alive.filter fun v => decide (degA es alive v ≤ 1)).head? with
    | none =>
      have hnil : (alive.filter fun v => decide (degA es alive v ≤ 1)) = [] := by
        cases hl : (alive.filter fun v => decide (degA es alive v ≤ 1)) with
        | nil => rfl
        | cons x t =>
          rw [hl] at hpk
          simp at hpk
      rw [hpk] at hv
      have hv2 : v ∈ alive := hv
      have := List.filter_eq_nil.1 hnil v hv2
      simp at this
      show 2 ≤ degA es alive v
      omega
    | some w =>
      rw [hpk] at hv
      have hv2 : v ∈ peelGo fuel es (alive.erase w) := hv
      have hwal : w ∈ alive :=
        (List.mem_filter.1 (head?_mem_self hpk)).1
      have hlen2 : (alive.erase w).length ≤ fuel := by
        rw [List.length_erase_of_mem hwal]
        omega
      show 2 ≤ degA es (peelGo fuel es (alive.erase w)) v
      exact ih es (alive.erase w) hlen2 v hv2

theorem peelGo_keep : ∀ (fuel : ℕ) (es : List Edge) (alive A : List ℕ),
    (∀ a ∈ A, a ∈ alive) → (∀ v ∈ A, 2 ≤ degA es A v) →
    ∀ a ∈ A, a ∈ peelGo fuel es alive := by
  intro fuel
  induction fuel with
  | zero =>
    intro es alive A hsub _ a ha
    exact hsub a ha
  | succ fuel ih =>
    intro es alive A hsub hdeg a ha
    rw [peelGo]
    cases hpk : (alive.filter fun v => decide (degA es alive v ≤ 1)).head? with
    | none => exact hsub a ha
    | some w =>
      have hmem := head?_mem_self hpk
      have hwdeg : degA es alive w ≤ 1 := by
        have := (List.mem_filter.1 hmem).2
        simpa using this
      have hwA : w ∉ A := by
        intro hwa
        have h1 := hdeg w hwa
        have h2 := @degA_mono es A alive hsub w
        omega
      refine ih es (alive.erase w) A ?_ hdeg a ha
      intro b hb
      refine (List.mem_erase_of_ne ?_).2 (hsub b hb)
      intro hc
      exact hwA (hc ▸ hb)

theorem survives_iff_subgraph {n : ℕ} {es : List Edge} {u : ℕ} :
    survivesPeel n es u = true ↔
      ∃ A : List ℕ, (∀ a ∈ A, a < n) ∧ u ∈ A ∧ ∀ v ∈ A, 2 ≤ degA es A v := by
  constructor
  · intro h
    refine ⟨peelGo n es (List.range n), ?_, ?_, ?_⟩
    · intro a ha
      have := peelGo_subset n es (List.range n) a ha
      simpa using this
    · simpa [survivesPeel] using h
    · exact peelGo_fix n es (List.range n) (by simp)
  · rintro ⟨A, hA, hu, hdeg⟩
    simp only [survivesPeel, decide_eq_true_eq]
    refine peelGo_keep n es (List.range n) A ?_ hdeg u hu
    intro a ha
    simpa using hA a ha

theorem degA_perm {es es' : List Edge} (hp : es.Perm es') (A : List ℕ) (v : ℕ) :
    degA es A v = degA es' A v := by
  rw [degA, degA, ← List.countP_eq_length_filter, ← List.countP_eq_length_filter]
  exact hp.countP_eq _

theorem survivesPeel_perm {n : ℕ} {es es' : List Edge} (hp : es.Perm es') (u : ℕ) :
    survivesPeel n es u = survivesPeel n es' u := by
  have h1 : ∀ (b : List Edge) (c : List Edge), b.Perm c →
      survivesPeel n b u = true → survivesPeel n c u = true := by
    intro b c hbc hb
    rcases survives_iff_subgraph.1 hb with ⟨A, h1, h2, h3⟩
    refine survives_iff_subgraph.2 ⟨A, h1, h2, ?_⟩
    intro v hv
    rw [← degA_perm hbc A v]
    exact h3 v hv
  by_cases hb : survivesPeel n es u = true
  · rw [hb, h1 es es' hp hb]
  · by_cases hc : survivesPeel n es' u = true
    · exact absurd (h1 es' es hp.symm hc) hb
    · rw [bool_false_of_not_true hb, bool_false_of_not_true hc]


/-- A vertex with an incident extra edge (`any_extra_edges > 0`). -/
def markedE (X : List Edge) (v : ℕ) : Bool :=
  X.any fun e => decide (e.1 = v) || decide (e.2 = v)

theorem markedE_iff {X : List Edge} {v : ℕ} :
    markedE X v = true ↔ ∃ e ∈ X, e.1 = v ∨ e.2 = v := by
  simp [markedE]

/-- The marked vertices of `u`-s level-0 tree. -/
def markedInE (n : ℕ) (T X : List Edge) (u : ℕ) : List ℕ :=
  (List.range n).filter fun v => markedE X v && connB T n u v

theorem mem_markedInE {n : ℕ} {T X : List Edge} {u v : ℕ} :
    v ∈ markedInE n T X u ↔
      v < n ∧ markedE X v = true ∧ connB T n u v = true := by
  simp [markedInE, List.mem_filter, and_assoc]

/-- Whether all listed vertices lie in one component of the forest with
`u`-s incident edges removed. -/
def pairTest (n : ℕ) (T : List Edge) (u : ℕ) (M : List ℕ) : Bool :=
  M.all fun a => M.all fun b => connB (avoidV T u) n a b

theorem pairTest_eq_false {n : ℕ} {T : List Edge} {u : ℕ} {M : List ℕ} {a b : ℕ}
    (ha : a ∈ M) (hb : b ∈ M) (hf : connB (avoidV T u) n a b = false) :
    pairTest n T u M = false := by
  cases h3 : pairTest n T u M with
  | false => rfl
  | true =>
    exfalso
    rw [pairTest, List.all_eq_true] at h3
    have h4 : (M.all fun b => connB (avoidV T u) n a b) = true := h3 a ha
    rw [List.all_eq_true] at h4
    have h5 : connB (avoidV T u) n a b = true := h4 b hb
    rw [hf] at h5
    exact Bool.noConfusion h5

theorem pairTest_false_ex {n : ℕ} {T : List Edge} {u : ℕ} {M : List ℕ}
    (h : pairTest n T u M = false) :
    ∃ a ∈ M, ∃ b ∈ M, connB (avoidV T u) n a b = false := by
  by_contra hc
  push_neg at hc
  have h2 : pairTest n T u M = true := by
    rw [pairTest, List.all_eq_true]
    intro a ha
    show (M.all fun b => connB (avoidV T u) n a b) = true
    rw [List.all_eq_true]
    intro b hb
    show connB (avoidV T u) n a b = true
    have := hc a ha b hb
    cases hb2 : connB (avoidV T u) n a b with
    | false => exact absurd hb2 this
    | true => rfl
  rw [h2] at h
  exact Bool.noConfusion h

/-- Modelled from the spec: `is_in_2core(u)` reroots the tour and the LCT at
`u`, finds the first and last tour nodes with incident extra edges, answers
false when there are none, true when `u` itself is first (i.e. marked), and
otherwise compares the root subtrees holding them via
`kth_in_path_from_root(-, 1)` (not present in `src/`). Since the rerooted
Euler tour visits each subtree of `u` contiguously, first and last lie in the
same subtree exactly when all marked nodes of the tree do, which this model
tests directly: some marked node exists in `u`-s tree, and either `u` is
marked or the marked nodes do not all lie in one component of the forest
minus `u`. -/
def in2coreE (n : ℕ) (T X : List Edge) (u : ℕ) : Bool :=
  !(markedInE n T X u).isEmpty &&
    (markedE X u || !pairTest n T u (markedInE n T X u))

/-- The survivor set of leaf peeling: marked vertices and vertices whose tree
holds marked vertices in two different subtrees. -/
def KL (n : ℕ) (T X : List Edge) : List ℕ :=
  (List.range n).filter fun v => markedE X v || !pairTest n T v (markedInE n T X v)

theorem mem_KL {n : ℕ} {T X : List Edge} {v : ℕ} :
    v ∈ KL n T X ↔ v < n ∧ (markedE X v = true ∨
      pairTest n T v (markedInE n T X v) = false) := by
  simp [KL, List.mem_filter]

theorem forest_cut_contra {T : List Edge} (hTf : IsForest T) {e : Edge} (heT : e ∈ T)
    {v y : ℕ} (hpair : (e.1 = v ∧ e.2 = y) ∨ (e.1 = y ∧ e.2 = v))
    (hconn : Conn (eraseE T e) v y) : False := by
  refine hTf e heT ?_
  rcases hpair with ⟨h1, h2⟩ | ⟨h1, h2⟩
  · rw [h1, h2]
    exact hconn
  · rw [h1, h2]
    exact hconn.symm

theorem adj_edge {T : List Edge} {v y : ℕ} (h : adjacent T v y) :
    ∃ e ∈ T, (e.1 = v ∧ e.2 = y) ∨ (e.1 = y ∧ e.2 = v) := by
  rcases h with h | h
  · exact ⟨(v, y), h, Or.inl ⟨rfl, rfl⟩⟩
  · exact ⟨(y, v), h, Or.inr ⟨rfl, rfl⟩⟩

theorem adj_of_pair {es : List Edge} {e : Edge} {v y : ℕ} (hmem : e ∈ es)
    (hpair : (e.1 = v ∧ e.2 = y) ∨ (e.1 = y ∧ e.2 = v)) : adjacent es v y := by
  rcases hpair with ⟨h1, h2⟩ | ⟨h1, h2⟩
  · left
    rw [show (v, y) = e from by
      rcases e with ⟨p, q⟩
      simp only at h1 h2
      rw [h1, h2]]
    exact hmem
  · right
    rw [show (y, v) = e from by
      rcases e with ⟨p, q⟩
      simp only at h1 h2
      rw [h1, h2]]
    exact hmem

theorem edge_ne_of_pairs {e f : Edge} (he : e.1 < e.2) (hf : f.1 < f.2)
    {v a b : ℕ} (hea : (e.1 = v ∧ e.2 = a) ∨ (e.1 = a ∧ e.2 = v))
    (hfb : (f.1 = v ∧ f.2 = b) ∨ (f.1 = b ∧ f.2 = v)) (hab : a ≠ b) : e ≠ f := by
  intro hef
  subst hef
  rcases hea with ⟨h1, h2⟩ | ⟨h1, h2⟩ <;> rcases hfb with ⟨g1, g2⟩ | ⟨g1, g2⟩ <;> omega

theorem degA_two {es : List Edge} {A : List ℕ} {v : ℕ} {e f : Edge}
    (he : e ∈ es) (hf : f ∈ es) (hef : e ≠ f)
    (hev : (e.1 = v ∧ e.2 ∈ A) ∨ (e.2 = v ∧ e.1 ∈ A))
    (hfv : (f.1 = v ∧ f.2 ∈ A) ∨ (f.2 = v ∧ f.1 ∈ A)) : 2 ≤ degA es A v := by
  rw [degA]
  refine two_le_length_of_mem_ne (List.mem_filter.2 ⟨he, ?_⟩)
    (List.mem_filter.2 ⟨hf, ?_⟩) hef
  · simp only [Bool.or_eq_true, Bool.and_eq_true, decide_eq_true_eq]
    tauto
  · simp only [Bool.or_eq_true, Bool.and_eq_true, decide_eq_true_eq]
    tauto


theorem mem_KL_of_pair {n : ℕ} {T X : List Edge} {y a b : ℕ} (hy : y < n)
    (hwfTn : ∀ e ∈ T, e.1 < n ∧ e.2 < n)
    (ha : a ∈ markedInE n T X y) (hb : b ∈ markedInE n T X y) (han : a < n)
    (hnc : ¬ Conn (avoidV T y) a b) : y ∈ KL n T X := by
  refine mem_KL.2 ⟨hy, Or.inr ?_⟩
  refine pairTest_eq_false ha hb ?_
  cases hcb : connB (avoidV T y) n a b with
  | false => rfl
  | true =>
    exfalso
    refine hnc ?_
    refine (connB_iff ?_ han).1 hcb
    intro e he
    exact hwfTn e ((avoidV_sublist T y).mem he)

theorem kl_mindeg {n : ℕ} {T X : List Edge} (hTf : IsForest T)
    (hwfT : ∀ e ∈ T, e.1 < e.2 ∧ e.2 < n) (hwfX : ∀ e ∈ X, e.1 < e.2 ∧ e.2 < n)
    (hnd : (T ++ X).Nodup) (hspan : ∀ e ∈ X, Conn T e.1 e.2) :
    ∀ v ∈ KL n T X, 2 ≤ degA (T ++ X) (KL n T X) v := by
  have hwfTn : ∀ e ∈ T, e.1 < n ∧ e.2 < n := by
    intro e he
    have := hwfT e he
    omega
  intro v hv
  rcases mem_KL.1 hv with ⟨hvn, hcase⟩
  by_cases hm : markedE X v = true
  · rcases markedE_iff.1 hm with ⟨e₀, he₀X, he₀v⟩
    have he₀n := hwfX e₀ he₀X
    obtain ⟨x, hvx, hCvx, hmx, he₀p⟩ : ∃ x, v ≠ x ∧ Conn T v x ∧ markedE X x = true ∧
        ((e₀.1 = v ∧ e₀.2 = x) ∨ (e₀.1 = x ∧ e₀.2 = v)) := by
      rcases he₀v with h1 | h2
      · refine ⟨e₀.2, by omega, ?_, ?_, Or.inl ⟨h1, rfl⟩⟩
        · have := hspan e₀ he₀X
          rw [h1] at this
          exact this
        · exact markedE_iff.2 ⟨e₀, he₀X, Or.inr rfl⟩
      · refine ⟨e₀.1, by omega, ?_, ?_, Or.inr ⟨rfl, h2⟩⟩
        · have := hspan e₀ he₀X
          rw [h2] at this
          exact this.symm
        · exact markedE_iff.2 ⟨e₀, he₀X, Or.inl rfl⟩
    obtain ⟨y, hady, hCyx⟩ := conn_step hCvx hvx
    rcases adj_edge hady with ⟨e₁, he₁T, he₁p⟩
    have he₁n := hwfT e₁ he₁T
    have hyn : y < n := by rcases he₁p with ⟨h1, h2⟩ | ⟨h1, h2⟩ <;> omega
    have hxn : x < n := by rcases he₀p with ⟨h1, h2⟩ | ⟨h1, h2⟩ <;> omega
    have hxKL : x ∈ KL n T X := mem_KL.2 ⟨hxn, Or.inl hmx⟩
    have hyKL : y ∈ KL n T X := by
      by_cases hmy : markedE X y = true
      · exact mem_KL.2 ⟨hyn, Or.inl hmy⟩
      · have hCyv : Conn T y v := Conn.of_adj (adjacent_symm hady)
        have hCyx2 : Conn T y x :=
          conn_mono (fun e he => (avoidV_sublist T v).mem he) hCyx
        have hnc : ¬ Conn (avoidV T y) v x := by
          intro hC
          refine forest_cut_contra hTf he₁T he₁p ?_
          have hp1 : Conn (eraseE T e₁) v x :=
            conn_mono (fun e he => (avoidV_sublist_eraseE (by
              rcases he₁p with ⟨h1, h2⟩ | ⟨h1, h2⟩
              · exact Or.inr h2
              · exact Or.inl h1)).mem he) hC
          have hp2 : Conn (eraseE T e₁) y x :=
            conn_mono (fun e he => (avoidV_sublist_eraseE (by
              rcases he₁p with ⟨h1, h2⟩ | ⟨h1, h2⟩
              · exact Or.inl h1
              · exact Or.inr h2)).mem he) hCyx
          exact hp1.trans hp2.symm
        refine mem_KL_of_pair hyn hwfTn ?_ ?_ hvn hnc
        · exact mem_markedInE.2 ⟨hvn, hm, (connB_iff hwfTn hyn).2 hCyv⟩
        · exact mem_markedInE.2 ⟨hxn, hmx, (connB_iff hwfTn hyn).2 hCyx2⟩
    have hne : e₀ ≠ e₁ := by
      intro heq
      exact (List.disjoint_of_nodup_append hnd) he₁T (heq ▸ he₀X)
    refine degA_two (List.mem_append_right T he₀X) (List.mem_append_left X he₁T)
      (fun hc => hne hc) ?_ ?_
    · rcases he₀p with ⟨h1, h2⟩ | ⟨h1, h2⟩
      · exact Or.inl ⟨h1, by rw [h2]; exact hxKL⟩
      · exact Or.inr ⟨h2, by rw [h1]; exact hxKL⟩
    · rcases he₁p with ⟨h1, h2⟩ | ⟨h1, h2⟩
      · exact Or.inl ⟨h1, by rw [h2]; exact hyKL⟩
      · exact Or.inr ⟨h2, by rw [h1]; exact hyKL⟩
  · have hmf : markedE X v = false := bool_false_of_not_true hm
    have hpt : pairTest n T v (markedInE n T X v) = false := by
      rcases hcase with h | h
      · exact absurd h hm
      · exact h
    rcases pairTest_false_ex hpt with ⟨a, haM, b, hbM, hcb⟩
    rcases mem_markedInE.1 haM with ⟨han, hma, hca⟩
    rcases mem_markedInE.1 hbM with ⟨hbn2, hmb, hcbn⟩
    have hCva : Conn T v a := (connB_iff hwfTn hvn).1 hca
    have hCvb : Conn T v b := (connB_iff hwfTn hvn).1 hcbn
    have hnab : ¬ Conn (avoidV T v) a b := by
      intro hC
      have h2 : connB (avoidV T v) n a b = true :=
        (connB_iff (fun e he => hwfTn e ((avoidV_sublist T v).mem he)) han).2 hC
      rw [hcb] at h2
      exact Bool.noConfusion h2
    have hva : v ≠ a := by
      intro heq
      rw [← heq, hmf] at hma
      exact Bool.noConfusion hma
    have hvb : v ≠ b := by
      intro heq
      rw [← heq, hmf] at hmb
      exact Bool.noConfusion hmb
    obtain ⟨y₁, hady₁, hCy₁⟩ := conn_step hCva hva
    obtain ⟨y₂, hady₂, hCy₂⟩ := conn_step hCvb hvb
    have hy12 : y₁ ≠ y₂ := by
      intro heq
      subst heq
      exact hnab (hCy₁.symm.trans hCy₂)
    rcases adj_edge hady₁ with ⟨e₁, he₁T, he₁p⟩
    rcases adj_edge hady₂ with ⟨e₂, he₂T, he₂p⟩
    have he₁n := hwfT e₁ he₁T
    have he₂n := hwfT e₂ he₂T
    have hy₁n : y₁ < n := by rcases he₁p with ⟨h1, h2⟩ | ⟨h1, h2⟩ <;> omega
    have hy₂n : y₂ < n := by rcases he₂p with ⟨h1, h2⟩ | ⟨h1, h2⟩ <;> omega
    have hne : e₁ ≠ e₂ := edge_ne_of_pairs he₁n.1 he₂n.1 he₁p he₂p hy12
    have hs₁e₁ : (avoidV T v).Sublist (eraseE T e₁) := avoidV_sublist_eraseE (by
      rcases he₁p with ⟨h1, h2⟩ | ⟨h1, h2⟩
      · exact Or.inl h1
      · exact Or.inr h2)
    have hs₁e₂ : (avoidV T v).Sublist (eraseE T e₂) := avoidV_sublist_eraseE (by
      rcases he₂p with ⟨h1, h2⟩ | ⟨h1, h2⟩
      · exact Or.inl h1
      · exact Or.inr h2)
    have hy₁KL : y₁ ∈ KL n T X := by
      by_cases hmy : markedE X y₁ = true
      · exact mem_KL.2 ⟨hy₁n, Or.inl hmy⟩
      · have hCy1a : Conn T y₁ a :=
          conn_mono (fun e he => (avoidV_sublist T v).mem he) hCy₁
        have hCy1b : Conn T y₁ b := (Conn.of_adj (adjacent_symm hady₁)).trans hCvb
        have hnc : ¬ Conn (avoidV T y₁) a b := by
          intro hC
          refine forest_cut_contra hTf he₁T he₁p ?_
          have hsy : (avoidV T y₁).Sublist (eraseE T e₁) := avoidV_sublist_eraseE (by
            rcases he₁p with ⟨h1, h2⟩ | ⟨h1, h2⟩
            · exact Or.inr h2
            · exact Or.inl h1)
          have hadj2 : adjacent (eraseE T e₁) v y₂ :=
            adj_of_pair (mem_eraseE_of_ne he₂T (Ne.symm hne)) he₂p
          have hp1 : Conn (eraseE T e₁) y₂ b :=
            conn_mono (fun e he => hs₁e₁.mem he) hCy₂
          have hp2 : Conn (eraseE T e₁) a b :=
            conn_mono (fun e he => hsy.mem he) hC
          have hp3 : Conn (eraseE T e₁) a y₁ :=
            conn_mono (fun e he => hs₁e₁.mem he) hCy₁.symm
          exact (Conn.of_adj hadj2).trans (hp1.trans (hp2.symm.trans hp3))
        refine mem_KL_of_pair hy₁n hwfTn ?_ ?_ han hnc
        · exact mem_markedInE.2 ⟨han, hma, (connB_iff hwfTn hy₁n).2 hCy1a⟩
        · exact mem_markedInE.2 ⟨hbn2, hmb, (connB_iff hwfTn hy₁n).2 hCy1b⟩
    have hy₂KL : y₂ ∈ KL n T X := by
      by_cases hmy : markedE X y₂ = true
      · exact mem_KL.2 ⟨hy₂n, Or.inl hmy⟩
      · have hCy2b : Conn T y₂ b :=
          conn_mono (fun e he => (avoidV_sublist T v).mem he) hCy₂
        have hCy2a : Conn T y₂ a := (Conn.of_adj (adjacent_symm hady₂)).trans hCva
        have hnc : ¬ Conn (avoidV T y₂) a b := by
          intro hC
          refine forest_cut_contra hTf he₂T he₂p ?_
          have hsy : (avoidV T y₂).Sublist (eraseE T e₂) := avoidV_sublist_eraseE (by
            rcases he₂p with ⟨h1, h2⟩ | ⟨h1, h2⟩
            · exact Or.inr h2
            · exact Or.inl h1)
          have hadj2 : adjacent (eraseE T e₂) v y₁ :=
            adj_of_pair (mem_eraseE_of_ne he₁T hne) he₁p
          have hp1 : Conn (eraseE T e₂) y₁ a :=
            conn_mono (fun e he => hs₁e₂.mem he) hCy₁
          have hp2 : Conn (eraseE T e₂) a b :=
            conn_mono (fun e he => hsy.mem he) hC
          have hp3 : Conn (eraseE T e₂) b y₂ :=
            conn_mono (fun e he => hs₁e₂.mem he) hCy₂.symm
          exact (Conn.of_adj hadj2).trans (hp1.trans (hp2.trans hp3))
        refine mem_KL_of_pair hy₂n hwfTn ?_ ?_ han hnc
        · exact mem_markedInE.2 ⟨han, hma, (connB_iff hwfTn hy₂n).2 hCy2a⟩
        · exact mem_markedInE.2 ⟨hbn2, hmb, (connB_iff hwfTn hy₂n).2 hCy2b⟩
    refine degA_two (List.mem_append_left X he₁T) (List.mem_append_left X he₂T)
      hne ?_ ?_
    · rcases he₁p with ⟨h1, h2⟩ | ⟨h1, h2⟩
      · exact Or.inl ⟨h1, by rw [h2]; exact hy₁KL⟩
      · exact Or.inr ⟨h2, by rw [h1]; exact hy₁KL⟩
    · rcases he₂p with ⟨h1, h2⟩ | ⟨h1, h2⟩
      · exact Or.inl ⟨h1, by rw [h2]; exact hy₂KL⟩
      · exact Or.inr ⟨h2, by rw [h1]; exact hy₂KL⟩


theorem isEmpty_false_of_mem {α : Type} {l : List α} {a : α} (h : a ∈ l) :
    l.isEmpty = false := by
  cases l with
  | nil => simp at h
  | cons x t => rfl

theorem conn_avoid_self {es : List Edge} {v t : ℕ} (h : Conn (avoidV es v) v t) :
    v = t := by
  rcases Relation.ReflTransGen.cases_head h with rfl | ⟨c, hc, _⟩
  · rfl
  · exfalso
    rcases hc with h2 | h2
    · exact (mem_avoidV.1 h2).2.1 rfl
    · exact (mem_avoidV.1 h2).2.2 rfl

theorem marked_lt {n : ℕ} {X : List Edge} (hwfX : ∀ e ∈ X, e.1 < e.2 ∧ e.2 < n)
    {a : ℕ} (h : markedE X a = true) : a < n := by
  rcases markedE_iff.1 h with ⟨e, heX, hav⟩
  have := hwfX e heX
  rcases hav with h1 | h1 <;> omega

theorem two_distinct_of_nodup {α : Type} {l : List α} (hnd : l.Nodup)
    (h2 : 2 ≤ l.length) : ∃ a ∈ l, ∃ b ∈ l, a ≠ b := by
  cases l with
  | nil => simp at h2
  | cons x t =>
    cases t with
    | nil => simp at h2
    | cons y t2 =>
      refine ⟨x, by simp, y, by simp, ?_⟩
      intro heq
      exact (List.nodup_cons.1 hnd).1 (by rw [heq]; exact List.mem_cons_self _ _)

theorem degA_append (es es' : List Edge) (A : List ℕ) (v : ℕ) :
    degA (es ++ es') A v = degA es A v + degA es' A v := by
  rw [degA, degA, degA, List.filter_append, List.length_append]

theorem degA_X_zero {X : List Edge} {A : List ℕ} {u : ℕ}
    (hm : markedE X u = false) : degA X A u = 0 := by
  rw [degA, List.length_eq_zero]
  rw [List.filter_eq_nil]
  intro e he
  simp only [Bool.or_eq_true, Bool.and_eq_true, decide_eq_true_eq]
  intro hc
  have hmark : markedE X u = true := by
    refine markedE_iff.2 ⟨e, he, ?_⟩
    rcases hc with ⟨h1, _⟩ | ⟨h1, _⟩
    · exact Or.inl h1
    · exact Or.inr h1
  rw [hm] at hmark
  exact Bool.noConfusion hmark


/-- If a subtree of `u` holds part of a minimum-degree-2 subgraph but no
marked vertex, the walk argument inside it contradicts acyclicity: so each
such subtree holds a marked vertex. -/
theorem comp_marked {n : ℕ} {T X : List Edge} (hTf : IsForest T)
    (hwfT : ∀ e ∈ T, e.1 < e.2 ∧ e.2 < n) (hwfX : ∀ e ∈ X, e.1 < e.2 ∧ e.2 < n)
    (hnd : (T ++ X).Nodup) {u y : ℕ} (huy : u ≠ y)
    {A : List ℕ} (huA : u ∈ A) (hyA : y ∈ A)
    (hA : ∀ a ∈ A, a < n)
    (hdeg : ∀ v ∈ A, 2 ≤ degA (T ++ X) A v)
    (hum : markedE X u = false)
    (hadjy : adjacent T u y) :
    ∃ a, markedE X a = true ∧ Conn (avoidV T u) y a := by
  by_contra hno
  push_neg at hno
  have hwfTn : ∀ e ∈ T, e.1 < n ∧ e.2 < n := by
    intro e he
    have := hwfT e he
    omega
  have hwfAn : ∀ e ∈ avoidV T u, e.1 < n ∧ e.2 < n :=
    fun e he => hwfTn e ((avoidV_sublist T u).mem he)
  have hTnd : T.Nodup := hnd.of_append_left
  set F := T.filter fun e => (decide (e.1 ∈ A) && decide (e.2 ∈ A)) &&
      (connB (avoidV T u) n e.1 y || connB (avoidV T u) n e.2 y) with hFdef
  have hFsub : F.Sublist T := List.filter_sublist T
  have hFf : IsForest F := isForest_sublist hTf hFsub
  have hFn : ∀ e ∈ F, e.1 < e.2 := fun e he => (hwfT e (hFsub.mem he)).1
  have hFnd : F.Nodup := hFsub.nodup hTnd
  have hFmem : ∀ e, e ∈ F ↔ e ∈ T ∧ e.1 ∈ A ∧ e.2 ∈ A ∧
      (Conn (avoidV T u) e.1 y ∨ Conn (avoidV T u) e.2 y) := by
    intro e
    rw [hFdef, List.mem_filter]
    simp only [Bool.and_eq_true, Bool.or_eq_true, decide_eq_true_eq]
    constructor
    · rintro ⟨h1, ⟨h2, h3⟩, h4⟩
      refine ⟨h1, h2, h3, ?_⟩
      rcases h4 with h4 | h4
      · exact Or.inl ((connB_iff hwfAn (hwfTn e h1).1).1 h4)
      · exact Or.inr ((connB_iff hwfAn (hwfTn e h1).2).1 h4)
    · rintro ⟨h1, h2, h3, h4⟩
      refine ⟨h1, ⟨h2, h3⟩, ?_⟩
      rcases h4 with h4 | h4
      · exact Or.inl ((connB_iff hwfAn (hwfTn e h1).1).2 h4)
      · exact Or.inr ((connB_iff hwfAn (hwfTn e h1).2).2 h4)
  rcases adj_edge hadjy with ⟨ey, heyT, heyp⟩
  have heyF : ey ∈ F := by
    refine (hFmem ey).2 ⟨heyT, ?_, ?_, ?_⟩
    · rcases heyp with ⟨h1, _⟩ | ⟨h1, _⟩
      · rw [h1]; exact huA
      · rw [h1]; exact hyA
    · rcases heyp with ⟨_, h2⟩ | ⟨_, h2⟩
      · rw [h2]; exact hyA
      · rw [h2]; exact huA
    · rcases heyp with ⟨_, h2⟩ | ⟨h1, _⟩
      · exact Or.inr (by rw [h2]; exact Conn.refl y)
      · exact Or.inl (by rw [h1]; exact Conn.refl y)
  have hadjF : adjacent F u y := adj_of_pair heyF heyp
  refine forest_mindeg_absurd hFf hFn hFnd hadjF ?_
  intro w hwu hex
  rcases hex with ⟨e, heF, hinc⟩
  rcases (hFmem e).1 heF with ⟨heT, h1A, h2A, hcon⟩
  have hwA : w ∈ A := by
    rcases hinc with h | h
    · rw [← h]; exact h1A
    · rw [← h]; exact h2A
  have hwn : w < n := hA w hwA
  have hwC : Conn (avoidV T u) w y := by
    rcases hcon with hc | hc
    · rcases hinc with h | h
      · rw [h] at hc
        exact hc
      · have hz1u : e.1 ≠ u := by
          intro hequ
          rw [hequ] at hc
          exact huy (conn_avoid_self hc)
        have hmema : e ∈ avoidV T u := mem_avoidV.2 ⟨heT, hz1u, by rw [h]; exact hwu⟩
        have headj : adjacent (avoidV T u) w e.1 :=
          adj_of_pair hmema (Or.inr ⟨rfl, h⟩)
        exact (Conn.of_adj headj).trans hc
    · rcases hinc with h | h
      · have hz2u : e.2 ≠ u := by
          intro hequ
          rw [hequ] at hc
          exact huy (conn_avoid_self hc)
        have hmema : e ∈ avoidV T u := mem_avoidV.2 ⟨heT, by rw [h]; exact hwu, hz2u⟩
        have headj : adjacent (avoidV T u) w e.2 :=
          adj_of_pair hmema (Or.inl ⟨h, rfl⟩)
        exact (Conn.of_adj headj).trans hc
      · rw [h] at hc
        exact hc
  have hwm : markedE X w = false := by
    cases hmw : markedE X w with
    | false => rfl
    | true => exact (hno w hmw hwC.symm).elim
  have hdw := hdeg w hwA
  rw [degA_append, degA_X_zero hwm] at hdw
  have htrans : degA T A w ≤ degI F w := by
    rw [degA, degI, ← List.countP_eq_length_filter, ← List.countP_eq_length_filter,
      hFdef, List.countP_filter]
    refine List.countP_mono_left ?_
    intro e2 he2T hpred
    simp only [Bool.or_eq_true, Bool.and_eq_true, decide_eq_true_eq] at hpred ⊢
    have hwb : connB (avoidV T u) n w y = true := (connB_iff hwfAn hwn).2 hwC
    rcases hpred with ⟨h1, h2⟩ | ⟨h1, h2⟩
    · exact ⟨Or.inl h1, ⟨by rw [h1]; exact hwA, h2⟩, Or.inl (by rw [h1]; exact hwb)⟩
    · exact ⟨Or.inr h1, ⟨h2, by rw [h1]; exact hwA⟩, Or.inr (by rw [h1]; exact hwb)⟩
  omega


theorem in2core_of_subgraph {n : ℕ} {T X : List Edge} (hTf : IsForest T)
    (hwfT : ∀ e ∈ T, e.1 < e.2 ∧ e.2 < n) (hwfX : ∀ e ∈ X, e.1 < e.2 ∧ e.2 < n)
    (hnd : (T ++ X).Nodup) {u : ℕ} (hun : u < n)
    {A : List ℕ} (hA : ∀ a ∈ A, a < n) (huA : u ∈ A)
    (hdeg : ∀ v ∈ A, 2 ≤ degA (T ++ X) A v) :
    in2coreE n T X u = true := by
  have hwfTn : ∀ e ∈ T, e.1 < n ∧ e.2 < n := by
    intro e he
    have := hwfT e he
    omega
  by_cases hm : markedE X u = true
  · have humem : u ∈ markedInE n T X u :=
      mem_markedInE.2 ⟨hun, hm, (connB_iff hwfTn hun).2 (Conn.refl u)⟩
    rw [in2coreE, isEmpty_false_of_mem humem, hm]
    rfl
  · have hmf := bool_false_of_not_true hm
    have hdu := hdeg u huA
    rw [degA_append, degA_X_zero hmf] at hdu
    have hTnd : T.Nodup := hnd.of_append_left
    have hfil : 2 ≤ (T.filter fun e => (decide (e.1 = u) && decide (e.2 ∈ A)) ||
        (decide (e.2 = u) && decide (e.1 ∈ A))).length := by
      rw [degA] at hdu
      omega
    obtain ⟨e₁, he₁, e₂, he₂, hne⟩ := two_distinct_of_nodup (hTnd.filter _) hfil
    have he₁T : e₁ ∈ T := (List.mem_filter.1 he₁).1
    have he₂T : e₂ ∈ T := (List.mem_filter.1 he₂).1
    have he₁n := hwfT e₁ he₁T
    have he₂n := hwfT e₂ he₂T
    obtain ⟨y₁, hy₁A, he₁p⟩ : ∃ y₁, y₁ ∈ A ∧
        ((e₁.1 = u ∧ e₁.2 = y₁) ∨ (e₁.1 = y₁ ∧ e₁.2 = u)) := by
      have := (List.mem_filter.1 he₁).2
      simp only [Bool.or_eq_true, Bool.and_eq_true, decide_eq_true_eq] at this
      rcases this with ⟨h1, h2⟩ | ⟨h1, h2⟩
      · exact ⟨e₁.2, h2, Or.inl ⟨h1, rfl⟩⟩
      · exact ⟨e₁.1, h2, Or.inr ⟨rfl, h1⟩⟩
    obtain ⟨y₂, hy₂A, he₂p⟩ : ∃ y₂, y₂ ∈ A ∧
        ((e₂.1 = u ∧ e₂.2 = y₂) ∨ (e₂.1 = y₂ ∧ e₂.2 = u)) := by
      have := (List.mem_filter.1 he₂).2
      simp only [Bool.or_eq_true, Bool.and_eq_true, decide_eq_true_eq] at this
      rcases this with ⟨h1, h2⟩ | ⟨h1, h2⟩
      · exact ⟨e₂.2, h2, Or.inl ⟨h1, rfl⟩⟩
      · exact ⟨e₂.1, h2, Or.inr ⟨rfl, h1⟩⟩
    have huy₁ : u ≠ y₁ := by rcases he₁p with ⟨h1, h2⟩ | ⟨h1, h2⟩ <;> omega
    have huy₂ : u ≠ y₂ := by rcases he₂p with ⟨h1, h2⟩ | ⟨h1, h2⟩ <;> omega
    have hy12 : y₁ ≠ y₂ := by
      intro heq
      apply hne
      refine norm_eq_of_same_pair he₁n.1 he₂n.1 ?_
      rcases he₁p with ⟨h1, h2⟩ | ⟨h1, h2⟩ <;> rcases he₂p with ⟨g1, g2⟩ | ⟨g1, g2⟩ <;>
        omega
    have hadj₁ : adjacent T u y₁ := adj_of_pair he₁T he₁p
    have hadj₂ : adjacent T u y₂ := adj_of_pair he₂T he₂p
    obtain ⟨a₁, hma₁, hCa₁⟩ :=
      comp_marked hTf hwfT hwfX hnd huy₁ huA hy₁A hA hdeg hmf hadj₁
    obtain ⟨a₂, hma₂, hCa₂⟩ :=
      comp_marked hTf hwfT hwfX hnd huy₂ huA hy₂A hA hdeg hmf hadj₂
    have ha₁n : a₁ < n := marked_lt hwfX hma₁
    have ha₂n : a₂ < n := marked_lt hwfX hma₂
    have hCua₁ : Conn T u a₁ :=
      (Conn.of_adj hadj₁).trans (conn_mono (fun e he => (avoidV_sublist T u).mem he) hCa₁)
    have hCua₂ : Conn T u a₂ :=
      (Conn.of_adj hadj₂).trans (conn_mono (fun e he => (avoidV_sublist T u).mem he) hCa₂)
    have ha₁mem : a₁ ∈ markedInE n T X u :=
      mem_markedInE.2 ⟨ha₁n, hma₁, (connB_iff hwfTn hun).2 hCua₁⟩
    have ha₂mem : a₂ ∈ markedInE n T X u :=
      mem_markedInE.2 ⟨ha₂n, hma₂, (connB_iff hwfTn hun).2 hCua₂⟩
    have hnc : ¬ Conn (avoidV T u) a₁ a₂ := by
      intro hC
      have hyy : Conn (avoidV T u) y₁ y₂ := hCa₁.trans (hC.trans hCa₂.symm)
      refine forest_cut_contra hTf he₁T he₁p ?_
      have he₂m : e₂ ∈ eraseE T e₁ := mem_eraseE_of_ne he₂T (fun hc => hne hc.symm)
      have hadje : adjacent (eraseE T e₁) u y₂ := adj_of_pair he₂m he₂p
      have hsub : (avoidV T u).Sublist (eraseE T e₁) := avoidV_sublist_eraseE (by
        rcases he₁p with ⟨h1, h2⟩ | ⟨h1, h2⟩
        · exact Or.inl h1
        · exact Or.inr h2)
      exact (Conn.of_adj hadje).trans (conn_mono (fun e he => hsub.mem he) hyy.symm)
    have hpt : pairTest n T u (markedInE n T X u) = false := by
      refine pairTest_eq_false ha₁mem ha₂mem ?_
      cases hb : connB (avoidV T u) n a₁ a₂ with
      | false => rfl
      | true =>
        exfalso
        exact hnc ((connB_iff (fun e he => hwfTn e ((avoidV_sublist T u).mem he))
          ha₁n).1 hb)
    rw [in2coreE, isEmpty_false_of_mem ha₁mem, hmf, hpt]
    rfl

theorem subgraph_of_in2core {n : ℕ} {T X : List Edge} (hTf : IsForest T)
    (hwfT : ∀ e ∈ T, e.1 < e.2 ∧ e.2 < n) (hwfX : ∀ e ∈ X, e.1 < e.2 ∧ e.2 < n)
    (hnd : (T ++ X).Nodup) (hspan : ∀ e ∈ X, Conn T e.1 e.2) {u : ℕ} (hun : u < n)
    (h : in2coreE n T X u = true) :
    ∃ A : List ℕ, (∀ a ∈ A, a < n) ∧ u ∈ A ∧ ∀ v ∈ A, 2 ≤ degA (T ++ X) A v := by
  refine ⟨KL n T X, fun a ha => (mem_KL.1 ha).1, ?_,
    kl_mindeg hTf hwfT hwfX hnd hspan⟩
  rw [in2coreE, Bool.and_eq_true, Bool.or_eq_true] at h
  rcases h with ⟨h1, h2⟩
  rcases h2 with h2 | h2
  · exact mem_KL.2 ⟨hun, Or.inl h2⟩
  · refine mem_KL.2 ⟨hun, Or.inr ?_⟩
    cases h3 : pairTest n T u (markedInE n T X u) with
    | false => rfl
    | true =>
      rw [h3] at h2
      exact Bool.noConfusion h2

theorem core_main {n : ℕ} {T X : List Edge} (hTf : IsForest T)
    (hwfT : ∀ e ∈ T, e.1 < e.2 ∧ e.2 < n) (hwfX : ∀ e ∈ X, e.1 < e.2 ∧ e.2 < n)
    (hnd : (T ++ X).Nodup) (hspan : ∀ e ∈ X, Conn T e.1 e.2) {u : ℕ} (hun : u < n) :
    in2coreE n T X u = survivesPeel n (T ++ X) u := by
  by_cases h : in2coreE n T X u = true
  · rw [h]
    exact (survives_iff_subgraph.2
      (subgraph_of_in2core hTf hwfT hwfX hnd hspan hun h)).symm
  · rw [bool_false_of_not_true h]
    cases h2 : survivesPeel n (T ++ X) u with
    | false => rfl
    | true =>
      exfalso
      rcases survives_iff_subgraph.1 h2 with ⟨A, hA, huA, hdeg⟩
      exact h (in2core_of_subgraph hTf hwfT hwfX hnd hun hA huA hdeg)


/-- The live non-tree edges (the extra edges, of any level), as counted by
the `any_extra_edges` aggregates. -/
def extraEdges (st : St) : List Edge :=
  st.edge_info.filterMap fun r => if r.live && !r.isTree then some r.e else none

theorem mem_extraEdges {st : St} {e : Edge} :
    e ∈ extraEdges st ↔
      ∃ r ∈ st.edge_info, r.live = true ∧ r.isTree = false ∧ r.e = e := by
  simp only [extraEdges, List.mem_filterMap]
  constructor
  · rintro ⟨r, hr, hopt⟩
    by_cases hc : r.live && !r.isTree
    · rw [if_pos hc] at hopt
      simp only [Bool.and_eq_true, Bool.not_eq_true'] at hc
      exact ⟨r, hr, hc.1, hc.2, Option.some.inj hopt⟩
    · rw [if_neg hc] at hopt
      exact absurd hopt (by simp)
  · rintro ⟨r, hr, hl, ht, rfl⟩
    exact ⟨r, hr, by rw [if_pos (by simp [hl, ht])]⟩

/-- The model of `is_in_2core` on the solver state. -/
def in2coreQ (st : St) (u : ℕ) : Bool :=
  in2coreE st.n (forestAt st 0) (extraEdges st) u

theorem live_split_perm (st : St) :
    (liveEdges st).Perm (forestAt st 0 ++ extraEdges st) := by
  rw [liveEdges, forestAt, extraEdges]
  simp only [Nat.zero_le, decide_True, Bool.and_true]
  induction st.edge_info with
  | nil => simp
  | cons r l ih =>
    rw [List.filterMap_cons, List.filterMap_cons, List.filterMap_cons]
    by_cases hl : r.live = true
    · by_cases ht : r.isTree = true
      · simp only [hl, ht, Bool.and_self, Bool.not_true, Bool.and_false, if_true,
          if_false]
        exact List.Perm.cons _ ih
      · have ht2 : r.isTree = false := bool_false_of_not_true ht
        simp only [hl, ht2, Bool.not_false, Bool.and_false, Bool.and_true,
          Bool.true_and, if_true, if_false]
        exact (List.Perm.cons _ ih).trans List.perm_middle.symm
    · have hl2 : r.live = false := bool_false_of_not_true hl
      simp only [hl2, Bool.false_and, if_false]
      exact ih


theorem solver_in2core_aux {st : St} (hi : Inv st) {u : ℕ} (hu : u < st.n) :
    in2coreQ st u = survivesPeel st.n (liveEdges st) u := by
  have hperm := live_split_perm st
  have hwfT2 : ∀ e ∈ forestAt st 0, e.1 < e.2 ∧ e.2 < st.n := by
    intro e he
    rcases mem_forestAt.1 he with ⟨r, hr, hl, _, _, rfl⟩
    exact hi.wf r hr hl
  have hwfX2 : ∀ e ∈ extraEdges st, e.1 < e.2 ∧ e.2 < st.n := by
    intro e he
    rcases mem_extraEdges.1 he with ⟨r, hr, hl, _, rfl⟩
    exact hi.wf r hr hl
  have hnd2 : (forestAt st 0 ++ extraEdges st).Nodup := hperm.nodup_iff.1 hi.nd
  have hspan2 : ∀ e ∈ extraEdges st, Conn (forestAt st 0) e.1 e.2 := by
    intro e he
    rcases mem_extraEdges.1 he with ⟨r, hr, hl, ht, rfl⟩
    exact conn_mono (fun f hf => (forestAt_mono st (Nat.zero_le _)).mem hf)
      (hi.span r hr hl ht)
  rw [in2coreQ, core_main (hi.forest 0) hwfT2 hwfX2 hnd2 hspan2 hu]
  exact survivesPeel_perm hperm.symm u

/-- C2: for every operation history and vertex `u`, `is_in_2core(u)` (the
first-and-last-extra-node subtree test, modelled from the spec since
`kth_in_path_from_root` is not in `src/`) answers true exactly when the
iterative leaf-peeling algorithm — repeatedly remove any vertex of degree at
most one until a fixed point — does not remove `u` from the current graph. -/
theorem solver_in2core_ok (orc : ℕ → ℕ) (n : ℕ) (ops : List Op) (u : ℕ)
    (hwf : ∀ op ∈ ops, opWf n op) (hu : u < n) :
    in2coreQ (runOps orc ops (initSt n) 0).1 u = survivesPeel n (naiveRun ops) u := by
  obtain ⟨hi, hlive, hn⟩ := runOps_inv orc ops (initSt n) 0 [] (initSt_inv n) rfl hwf
  have h1 := solver_in2core_aux hi (u := u) (by rw [hn]; exact hu)
  rw [h1, hn, hlive]
  rfl

theorem solver_in2core_ok_witness :
    (∀ op ∈ ([Op.add 0 1, Op.add 1 2, Op.add 0 2] : List Op), opWf 3 op) ∧ 0 < 3 ∧
      in2coreQ (runOps (fun _ => 0) [Op.add 0 1, Op.add 1 2, Op.add 0 2]
          (initSt 3) 0).1 0 =
        survivesPeel 3 (naiveRun [Op.add 0 1, Op.add 1 2, Op.add 0 2]) 0 :=
  ⟨by decide, by decide,
    solver_in2core_ok (fun _ => 0) 3 [Op.add 0 1, Op.add 1 2, Op.add 0 2] 0
      (by decide) (by decide)⟩


/-- C10: two solver instances with the same `n`, fed the same operations,
return identical results from every operation — the add/remove return
values, `is_connected`, `is_in_1core`, and `is_in_2core` — for every pair
of resolutions of the tour-dependent choices (the only internal choice
sources: the treap priorities come from a PRNG seeded with the constant
2012, and the replacement search picks the smallest incident extra-edge id,
modelled by the deterministic `minId` in `phaseB`). -/
theorem solver_deterministic_ok (orc₁ orc₂ : ℕ → ℕ) (n : ℕ) (ops : List Op) (u v : ℕ)
    (hwf : ∀ op ∈ ops, opWf n op) (hu : u < n) (hv : v < n) :
    runOuts orc₁ ops (initSt n) 0 = runOuts orc₂ ops (initSt n) 0 ∧
      isConnQ (runOps orc₁ ops (initSt n) 0).1 u v =
        isConnQ (runOps orc₂ ops (initSt n) 0).1 u v ∧
      in1core (runOps orc₁ ops (initSt n) 0).1 u =
        in1core (runOps orc₂ ops (initSt n) 0).1 u ∧
      in2coreQ (runOps orc₁ ops (initSt n) 0).1 u =
        in2coreQ (runOps orc₂ ops (initSt n) 0).1 u := by
  refine ⟨?_, ?_, ?_, ?_⟩
  · rw [runOuts_eq_naive orc₁ ops (initSt n) 0 [] (initSt_inv n) rfl hwf,
      runOuts_eq_naive orc₂ ops (initSt n) 0 [] (initSt_inv n) rfl hwf]
  · have h1 := solver_is_connected_aux orc₁ n ops u v hwf hu hv
    have h2 := solver_is_connected_aux orc₂ n ops u v hwf hu hv
    cases hb : isConnQ (runOps orc₂ ops (initSt n) 0).1 u v
    · rw [hb] at h2
      cases hb1 : isConnQ (runOps orc₁ ops (initSt n) 0).1 u v
      · rfl
      · rw [hb1] at h1
        exact absurd (h1.1 rfl) (fun hc => by simpa using h2.2 hc)
    · rw [hb] at h2
      cases hb1 : isConnQ (runOps orc₁ ops (initSt n) 0).1 u v
      · rw [hb1] at h1
        exact absurd (h2.1 rfl) (fun hc => by simpa using h1.2 hc)
      · rfl
  · have h1 := solver_in1core_aux orc₁ n ops u hwf hu
    have h2 := solver_in1core_aux orc₂ n ops u hwf hu
    cases hb : in1core (runOps orc₂ ops (initSt n) 0).1 u
    · rw [hb] at h2
      cases hb1 : in1core (runOps orc₁ ops (initSt n) 0).1 u
      · rfl
      · rw [hb1] at h1
        exact absurd (h1.1 rfl) (fun hc => by simpa using h2.2 hc)
    · rw [hb] at h2
      cases hb1 : in1core (runOps orc₁ ops (initSt n) 0).1 u
      · rw [hb1] at h1
        exact absurd (h2.1 rfl) (fun hc => by simpa using h1.2 hc)
      · rfl
  · obtain ⟨hi₁, hlive₁, hn₁⟩ :=
      runOps_inv orc₁ ops (initSt n) 0 [] (initSt_inv n) rfl hwf
    obtain ⟨hi₂, hlive₂, hn₂⟩ :=
      runOps_inv orc₂ ops (initSt n) 0 [] (initSt_inv n) rfl hwf
    have e₁ := solver_in2core_aux hi₁ (u := u) (by rw [hn₁]; exact hu)
    have e₂ := solver_in2core_aux hi₂ (u := u) (by rw [hn₂]; exact hu)
    rw [e₁, e₂, hn₁, hn₂, hlive₁, hlive₂]

theorem solver_deterministic_ok_witness :
    runOuts (fun _ => 0) [Op.add 0 1, Op.add 1 0, Op.rem 0 1, Op.rem 0 1] (initSt 2) 0 =
        runOuts (fun k => k + 7) [Op.add 0 1, Op.add 1 0, Op.rem 0 1, Op.rem 0 1]
          (initSt 2) 0 ∧
      isConnQ (runOps (fun _ => 0) [Op.add 0 1, Op.add 1 0, Op.rem 0 1, Op.rem 0 1]
          (initSt 2) 0).1 0 1 =
        isConnQ (runOps (fun k => k + 7) [Op.add 0 1, Op.add 1 0, Op.rem 0 1, Op.rem 0 1]
          (initSt 2) 0).1 0 1 ∧
      in1core (runOps (fun _ => 0) [Op.add 0 1, Op.add 1 0, Op.rem 0 1, Op.rem 0 1]
          (initSt 2) 0).1 0 =
        in1core (runOps (fun k => k + 7) [Op.add 0 1, Op.add 1 0, Op.rem 0 1, Op.rem 0 1]
          (initSt 2) 0).1 0 ∧
      in2coreQ (runOps (fun _ => 0) [Op.add 0 1, Op.add 1 0, Op.rem 0 1, Op.rem 0 1]
          (initSt 2) 0).1 0 =
        in2coreQ (runOps (fun k => k + 7) [Op.add 0 1, Op.add 1 0, Op.rem 0 1, Op.rem 0 1]
          (initSt 2) 0).1 0 :=
  solver_deterministic_ok (fun _ => 0) (fun k => k + 7) 2
    [Op.add 0 1, Op.add 1 0, Op.rem 0 1, Op.rem 0 1] 0 1 (by decide) (by omega) (by omega)

end SolverM
